import Mathlib

/-!
# Claycast: shooting-range setup and shooter macros

A shallow embedding of `src/hmi/HMI0/macro/calc.c` (the game setup macro) and
`src/hmi/HMI0/macro/shooter.c` (the per-cycle shooter macro), followed by the
properties proved about them.

Conventions of the embedding.

* A C `short` is an `Int` together with the 16-bit wrap `wrap16` applied at every
  store of an arithmetic result into a `short` variable. Expressions are evaluated
  in `int` (32 bits), which none of the expressions of the two files can overflow
  when the operands are 16-bit values.
* A `short[10]` array is a function `Nat → Int`; only the indices `0..9` are ever
  read or written. The loop counter `i` is a `Nat` (it ranges over `0..10`).
* A `for` loop is `forLoop` / `forLoopWhile` applied to the loop body; a `while`
  loop is a recursion on a fuel argument which returns `none` when the fuel runs out.
* `/` and `%` of C are `Int.tdiv` and `Int.tmod` (truncation toward zero).
-/

/-- A ten-slot register array, indexed by the machine number. -/
abbrev Arr := Nat → Int

/-- The array `a` with slot `i` overwritten by `v`. -/
def setA (a : Arr) (i : Nat) (v : Int) : Arr := fun j => if j = i then v else a j

/-- An array given by the list of its first entries, zero elsewhere. -/
def ofList (l : List Int) : Arr := fun i => l.getD i 0

/-- The first ten entries of an array, as a list. -/
def toList10 (a : Arr) : List Int := (List.range 10).map a

/-- Conversion of an `int` value to `short`: two's complement wrap to 16 bits. -/
def wrap16 (x : Int) : Int := (x + 32768) % 65536 - 32768

/-- The values a `short` can hold. -/
def isShort (x : Int) : Prop := -32768 ≤ x ∧ x ≤ 32767

instance (x : Int) : Decidable (isShort x) := by unfold isShort; infer_instance

/-- The loop `for (i = start; i < start + k; i++) s = body i s`. -/
def forLoop {σ : Type} (body : Nat → σ → σ) : Nat → Nat → σ → σ
  | 0, _, s => s
  | k + 1, i, s => forLoop body k (i + 1) (body i s)

/-- The loop `for (i = start; i < start + k && cond; i++) s = body i s`. -/
def forLoopWhile {σ : Type} (cond : σ → Bool) (body : Nat → σ → σ) : Nat → Nat → σ → σ
  | 0, _, s => s
  | k + 1, i, s => if cond s then forLoopWhile cond body k (i + 1) (body i s) else s

/-- Mathematical sum of the entries `0..n-1` of an array. -/
def sumTo (a : Arr) : Nat → Int
  | 0 => 0
  | n + 1 => sumTo a n + a n

/-- Mathematical sum of the ten entries of an array. -/
def sum10 (a : Arr) : Int := sumTo a 10

namespace Calc

/-- The global variables of `calc.c`. -/
structure State where
  usableMachines : Arr
  ammo_machine : Arr
  ammo_game : Arr
  maxShootableAmmo : Int
  doubleFire : Int
  tripleFire : Int
  delay : Int
  errorFlag : Int

/-- The registers written back by the setup `MacroEntry` (the `WriteLocal` calls). -/
structure Registers where
  lw10 : Arr
  lw100 : Arr
  lw110 : Int
  lw111 : Int
  lw112 : Int
  lw113 : Int
  lw114 : Int
  lw300 : Int
  lw1000 : Int

/-- Embedding of `reset_selected_machines` of calc.c: `ammo_game[i] = 0` for `i < 10`. -/
def reset_selected_machines (s : State) : State :=
  forLoop (fun i s => { s with ammo_game := setA s.ammo_game i 0 }) 10 0 s

/-- The copy loop of `can_fire_x_times`: `short ammo[10] = {0}; ammo[i] = ammo_game[i]`. -/
def copyAmmo (s : State) : Arr :=
  forLoop (fun i a => setA a i (s.ammo_game i)) 10 0 (fun _ => 0)

/-- One inner scan of `can_fire_x_times`:
`count = 0; for (i = 0; i < 10 && count < group; i++) if (ammo[i] > 0) { ammo[i]--; count++; }`.
Returns the updated copy and `count`. -/
def takeBullets (group : Int) (ammo : Arr) : Arr × Int :=
  forLoopWhile (fun p => decide (p.2 < group))
    (fun i p => if p.1 i > 0 then (setA p.1 i (wrap16 (p.1 i - 1)), wrap16 (p.2 + 1)) else p)
    10 0 (ammo, 0)

/-- One of the two `while (used < quota)` loops of `can_fire_x_times`, for groups of
`group` bullets (3 with `tripleFire`, 2 with `doubleFire`). The state is the private copy
`ammo`, the counter `used` and `remaining_ammo`. Result: `none` when the fuel runs out,
`some none` when the loop executes `return 0`, `some (some _)` when the loop ends. -/
def fireLoop (group quota : Int) : Nat → Arr → Int → Int → Option (Option (Arr × Int × Int))
  | 0, _, _, _ => none
  | fuel + 1, ammo, used, remaining_ammo =>
    if used < quota then
      if (takeBullets group ammo).2 < group then some none
      else fireLoop group quota fuel (takeBullets group ammo).1 (wrap16 (used + 1))
        (wrap16 (remaining_ammo - group))
    else some (some (ammo, used, remaining_ammo))

/-- Embedding of `can_fire_x_times`. The three parameters are ignored by the C body, which
reads the globals. Returns the result together with the (untouched) globals. -/
def can_fire_x_times (fuel : Nat) (_total_ammo _double_fires _triple_fires : Int) (s : State) :
    Option (Int × State) :=
  match fireLoop 3 s.tripleFire fuel (copyAmmo s) 0 s.maxShootableAmmo with
  | none => none
  | some none => some (0, s)
  | some (some (ammo, used_triple, remaining_ammo)) =>
    match fireLoop 2 s.doubleFire fuel ammo 0 remaining_ammo with
    | none => none
    | some none => some (0, s)
    | some (some (_, used_double, remaining_ammo)) =>
      some (if remaining_ammo + used_double * 2 + used_triple * 3 = s.maxShootableAmmo
        then 1 else 0, s)

/-- The counting loop of `distribute_ammo`: the value of `totalMachines`. -/
def countMachines (s : State) : Int :=
  forLoop (fun i n => if s.usableMachines i ≠ 0 ∧ s.ammo_machine i > 0 then wrap16 (n + 1) else n)
    10 0 0

/-- The primary distribution loop of `distribute_ammo`; the state is the globals and
`remainingAmmo`. -/
def primaryDistribution (ammoPerMachine : Int) (p : State × Int) : State × Int :=
  forLoop (fun i p =>
      if p.1.usableMachines i ≠ 0 ∧ p.1.ammo_machine i > 0 then
        if p.1.ammo_machine i ≥ ammoPerMachine then
          ({ p.1 with ammo_game := setA p.1.ammo_game i ammoPerMachine }, p.2)
        else
          ({ p.1 with ammo_game := setA p.1.ammo_game i (p.1.ammo_machine i), errorFlag := 2 },
            wrap16 (p.2 + (ammoPerMachine - p.1.ammo_machine i)))
      else p)
    10 0 p

/-- One pass of the leftover distribution:
`unableToDistributeMore = 1; for (i = 0; i < 10 && remainingAmmo > 0; i++) ...`.
The state is the globals, `remainingAmmo` and `unableToDistributeMore`. -/
def leftoverPass (s : State) (remainingAmmo : Int) : State × Int × Int :=
  forLoopWhile (fun q => decide (q.2.1 > 0))
    (fun i q =>
      if q.1.usableMachines i ≠ 0 ∧ q.1.ammo_machine i > q.1.ammo_game i then
        ({ q.1 with ammo_game := setA q.1.ammo_game i (wrap16 (q.1.ammo_game i + 1)) },
          wrap16 (q.2.1 - 1), 0)
      else q)
    10 0 (s, remainingAmmo, 1)

/-- The loop `for (i = 0; i < 10; i++) distributed += ammo_game[i]` on a `short`. -/
def sumDistributed (a : Arr) : Int :=
  forLoop (fun i d => wrap16 (d + a i)) 10 0 0

/-- The loop `while (remainingAmmo > 0)` of `distribute_ammo`. -/
def leftoverLoop : Nat → State → Int → Option State
  | 0, _, _ => none
  | fuel + 1, s, remainingAmmo =>
    if remainingAmmo > 0 then
      if (leftoverPass s remainingAmmo).2.2 ≠ 0 then
        some { (leftoverPass s remainingAmmo).1 with
          errorFlag := 3
          maxShootableAmmo := sumDistributed (leftoverPass s remainingAmmo).1.ammo_game }
      else leftoverLoop fuel (leftoverPass s remainingAmmo).1 (leftoverPass s remainingAmmo).2.1
    else some s

/-- Embedding of `distribute_ammo`. -/
def distribute_ammo (fuel : Nat) (s : State) : Option State :=
  if countMachines s = 0 ∨ s.maxShootableAmmo = 0 then some { s with errorFlag := 3 }
  else
    leftoverLoop fuel
      (primaryDistribution (wrap16 (Int.tdiv s.maxShootableAmmo (countMachines s)))
        (s, wrap16 (Int.tmod s.maxShootableAmmo (countMachines s)))).1
      (primaryDistribution (wrap16 (Int.tdiv s.maxShootableAmmo (countMachines s)))
        (s, wrap16 (Int.tmod s.maxShootableAmmo (countMachines s)))).2

/-- The allocation pass of the setup macro: `reset_selected_machines(); distribute_ammo();`. -/
def allocate (fuel : Nat) (s : State) : Option State :=
  distribute_ammo fuel (reset_selected_machines s)

/-- Step 3 of the setup `MacroEntry`:
`if (errorFlag == 0) errorFlag = !can_fire_x_times(maxShootableAmmo, doubleFire, tripleFire);`. -/
def checkFires (fuel : Nat) (s : State) : Option State :=
  if s.errorFlag = 0 then
    match can_fire_x_times fuel s.maxShootableAmmo s.doubleFire s.tripleFire s with
    | none => none
    | some r => some { r.2 with errorFlag := if r.1 = 0 then 1 else 0 }
  else some s

/-- The delay floor of the setup `MacroEntry`: `if (delay < 4) delay = 4;`. -/
def floorDelay (s : State) : State :=
  if s.delay < 4 then { s with delay := 4 } else s

/-- The `WriteLocal` calls of the setup `MacroEntry`. -/
def writeBack (s : State) : Registers :=
  { lw10 := s.ammo_machine, lw100 := s.ammo_game, lw110 := s.maxShootableAmmo,
    lw111 := s.doubleFire, lw112 := s.tripleFire, lw113 := s.delay, lw114 := 0,
    lw300 := s.errorFlag, lw1000 := s.delay }

/-- Embedding of `MacroEntry` of calc.c. The argument holds the globals as loaded by the
`ReadLocal` calls; the result holds the registers written back. -/
def MacroEntry (fuel : Nat) (s : State) : Option Registers :=
  match allocate fuel { s with errorFlag := 0 } with
  | none => none
  | some s1 =>
    match checkFires fuel s1 with
    | none => none
    | some s2 => some (writeBack (floorDelay s2))

/-- A machine that `distribute_ammo` counts: enabled and of capacity above zero. -/
def eligible (s : State) (i : Nat) : Prop := s.usableMachines i ≠ 0 ∧ s.ammo_machine i > 0

instance (s : State) (i : Nat) : Decidable (eligible s i) := by unfold eligible; infer_instance

/-- Number of eligible machines among the machines `0..n-1`. -/
def eligibleBelow (s : State) : Nat → Nat
  | 0 => 0
  | n + 1 => eligibleBelow s n + (if eligible s n then 1 else 0)

/-- Summed capacity of the eligible machines among the machines `0..n-1`. -/
def capacityBelow (s : State) : Nat → Int
  | 0 => 0
  | n + 1 => capacityBelow s n + (if eligible s n then s.ammo_machine n else 0)

/-- A machine that the leftover pass can still fill: enabled and below its capacity. -/
def fillable (s : State) (i : Nat) : Prop :=
  s.usableMachines i ≠ 0 ∧ s.ammo_machine i > s.ammo_game i

instance (s : State) (i : Nat) : Decidable (fillable s i) := by unfold fillable; infer_instance

/-- Number of fillable machines among the machines `0..n-1`. -/
def fillableBelow (s : State) : Nat → Nat
  | 0 => 0
  | n + 1 => fillableBelow s n + (if fillable s n then 1 else 0)

/-- The globals that `distribute_ammo` only reads are the same in `s` and `t`. -/
def sameConfig (s t : State) : Prop :=
  t.usableMachines = s.usableMachines ∧ t.ammo_machine = s.ammo_machine ∧
  t.doubleFire = s.doubleFire ∧ t.tripleFire = s.tripleFire ∧ t.delay = s.delay

/-- Some eligible machine among `0..n-1` has a capacity below `base`. -/
def hasShort (s : State) (base : Int) (n : Nat) : Prop :=
  ∃ i, i < n ∧ eligible s i ∧ s.ammo_machine i < base

instance (s : State) (base : Int) (n : Nat) : Decidable (hasShort s base n) := by
  unfold hasShort; infer_instance

/-- Loop invariant of the leftover distribution started from the globals `s0`: `t` and
`remainingAmmo` account for the requested total, and no allocation exceeds its capacity. -/
def Filling (s0 t : State) (remainingAmmo : Int) : Prop :=
  sameConfig s0 t ∧ t.maxShootableAmmo = s0.maxShootableAmmo ∧
  sum10 t.ammo_game + remainingAmmo = s0.maxShootableAmmo ∧ 0 ≤ remainingAmmo ∧
  (∀ i, i < 10 → eligible s0 i → 0 ≤ t.ammo_game i ∧ t.ammo_game i ≤ s0.ammo_machine i) ∧
  (∀ i, i < 10 → ¬ eligible s0 i → t.ammo_game i = 0)

/-- The globals hold 16-bit values. -/
def WellTyped (s : State) : Prop :=
  (∀ i, i < 10 → isShort (s.usableMachines i) ∧ isShort (s.ammo_machine i) ∧
    isShort (s.ammo_game i)) ∧
  isShort s.maxShootableAmmo ∧ isShort s.doubleFire ∧ isShort s.tripleFire ∧
  isShort s.delay ∧ isShort s.errorFlag

instance (s : State) : Decidable (WellTyped s) := by unfold WellTyped; infer_instance

/-- The machines a scan for `n` bullets takes from: the `n` lowest-indexed machines that
have stock (fewer when fewer have stock). -/
def stocked (ammo : Arr) (n : Nat) : List Nat :=
  ((List.range 10).filter (fun i => decide (ammo i > 0))).take n

/-- A group of `size` bullets, given by the machines it takes one bullet each from:
`size` different machines among the ten. -/
def validGroup (size : Nat) (g : List Nat) : Prop :=
  g.length = size ∧ g.Nodup ∧ ∀ i, i ∈ g → i < 10

instance (size : Nat) (g : List Nat) : Decidable (validGroup size g) := by
  unfold validGroup; infer_instance

/-- Number of bullets machine `i` gives to the groups of a plan. -/
def usage (plan : List (List Nat)) (i : Nat) : Nat :=
  (plan.filter (fun g => decide (i ∈ g))).length

/-- A withdrawal plan for `triples` groups of 3 and `doubles` groups of 2 bullets in which
no machine gives more than its stock. -/
def isPlan (ammo : Arr) (triples doubles : Nat) (ts ds : List (List Nat)) : Prop :=
  ts.length = triples ∧ ds.length = doubles ∧
  (∀ g, g ∈ ts → validGroup 3 g) ∧ (∀ g, g ∈ ds → validGroup 2 g) ∧
  ∀ i, i < 10 → (usage (ts ++ ds) i : Int) ≤ ammo i

instance (ammo : Arr) (triples doubles : Nat) (ts ds : List (List Nat)) :
    Decidable (isPlan ammo triples doubles ts ds) := by
  unfold isPlan; infer_instance

/-- The quota of `triples` triple fires and `doubles` double fires can be withdrawn from
the per-machine stocks `ammo`. -/
def Feasible (ammo : Arr) (triples doubles : Nat) : Prop :=
  ∃ ts ds, isPlan ammo triples doubles ts ds

/-- The greedy index-order withdrawal of the specification, for `n` groups of `group`
bullets: each group takes one bullet from each of the `group` lowest-indexed machines that
still have stock; the result is `none` when some group cannot be completed. -/
def greedyWithdraw (group : Nat) : Nat → Arr → Option Arr
  | 0, ammo => some ammo
  | n + 1, ammo =>
    if (stocked ammo group).length < group then none
    else greedyWithdraw group n (fun i => ammo i - (if i ∈ stocked ammo group then 1 else 0))

/-- The greedy simulation of the specification completes every group: all the triples
first, then all the doubles. -/
def greedyCompletes (ammo : Arr) (triples doubles : Nat) : Bool :=
  match greedyWithdraw 3 triples ammo with
  | none => false
  | some rest => (greedyWithdraw 2 doubles rest).isSome

/-- A concrete set of globals, for the worked examples. -/
def mkState (usable machine game : List Int) (maxAmmo dbl tpl dly : Int) : State :=
  { usableMachines := ofList usable, ammo_machine := ofList machine, ammo_game := ofList game,
    maxShootableAmmo := maxAmmo, doubleFire := dbl, tripleFire := tpl, delay := dly,
    errorFlag := 0 }

end Calc

namespace Shooter

/-- The global variables of `shooter.c`, together with the two registers LW400 and LW500
that the macro writes directly. Read as the register file, `usableMachines` is LW0-LW9,
`ammo_machine` LW10-LW19, `ammo_game` LW100-LW109, `maxShootableAmmo`, `doubleFire`,
`tripleFire`, `delay`, `fired` LW110-LW114, `nextFires` LW200-LW209 and `remainingDelay`
LW1000. -/
structure State where
  usableMachines : Arr
  nextFires : Arr
  ammo_machine : Arr
  ammo_game : Arr
  maxShootableAmmo : Int
  doubleFire : Int
  tripleFire : Int
  delay : Int
  remainingDelay : Int
  fired : Int
  lw400 : Int
  lw500 : Int

/-- The constant `endWindowID`. -/
def endWindowID : Int := 12

/-- Embedding of `reset_selected_machines` of shooter.c: `nextFires[i] = 0` for `i < 10`. -/
def reset_selected_machines (s : State) : State :=
  forLoop (fun i s => { s with nextFires := setA s.nextFires i 0 }) 10 0 s

/-- Embedding of `delayer`: the returned flag is true when firing is prevented. -/
def delayer (s : State) : Bool × State :=
  if s.delay ≤ 0 then (true, s)
  else if s.remainingDelay = 0 then (false, { s with remainingDelay := s.delay })
  else (true, { s with remainingDelay := wrap16 (s.remainingDelay - 1) })

/-- Embedding of `checkEndGame`. -/
def checkEndGame (s : State) : Bool × State :=
  if s.maxShootableAmmo ≤ 0 then
    (true, forLoop (fun i s => { s with ammo_game := setA s.ammo_game i 0 }) 10 0
      { s with doubleFire := 0, tripleFire := 0 })
  else (false, s)

/-- The `while (1)` loop of `select_mode`. The sequence `rand` lists the values returned by
the successive calls of `rand()` and `pos` counts the calls made so far; `w0`, `w1`, `w2` are
`weights[0..2]`. Returns the mode and the new call count; `none` when the fuel runs out or
when the modulus of `%` is zero. -/
def modeLoop (rand : Nat → Nat) (w0 w1 w2 remainingAmmo doubleFire tripleFire : Int) :
    Nat → Nat → Int → Option (Int × Nat)
  | 0, _, _ => none
  | fuel + 1, pos, unable_to_resolve =>
    if w0 + w1 + w2 = 0 then none
    else if wrap16 (Int.tmod (rand pos) (w0 + w1 + w2)) < w0 ∧ remainingAmmo ≥ 1 then
      some (1, pos + 1)
    else if wrap16 (Int.tmod (rand pos) (w0 + w1 + w2)) < w0 + w1 ∧ remainingAmmo ≥ 2
        ∧ doubleFire > 0 then
      some (2, pos + 1)
    else if wrap16 (Int.tmod (rand pos) (w0 + w1 + w2)) < w0 + w1 + w2 ∧ remainingAmmo ≥ 3
        ∧ tripleFire > 0 then
      some (3, pos + 1)
    else if wrap16 (unable_to_resolve + 1) > 100 then some (1, pos + 1)
    else modeLoop rand w0 w1 w2 remainingAmmo doubleFire tripleFire fuel (pos + 1)
      (wrap16 (unable_to_resolve + 1))

/-- Embedding of `select_mode`. -/
def select_mode (fuel : Nat) (rand : Nat → Nat) (pos : Nat) (s : State) : Option (Int × Nat) :=
  if s.maxShootableAmmo ≤ 0 then some (0, pos)
  else
    modeLoop rand
      (wrap16 (s.maxShootableAmmo - s.doubleFire * 2 - s.tripleFire * 3))
      (wrap16 (s.doubleFire * 2)) (wrap16 (s.tripleFire * 3))
      s.maxShootableAmmo s.doubleFire s.tripleFire fuel pos 0

/-- The first loop of `weighted_random_selection`: the value of `total_weight` (an `int`). -/
def totalWeight (s : State) : Int :=
  forLoop (fun i t => if s.usableMachines i ≠ 0 ∧ s.ammo_game i > 0 then t + s.ammo_game i else t)
    10 0 0

/-- The second loop of `weighted_random_selection`; the state is `cumulative_weight` and the
index returned from inside the loop, if any. -/
def walkWeights (s : State) (random_value : Int) : Int × Option Nat :=
  forLoopWhile (fun p => p.2.isNone)
    (fun i p =>
      if s.usableMachines i ≠ 0 ∧ s.ammo_game i > 0 then
        if random_value < p.1 + s.ammo_game i then (p.1 + s.ammo_game i, some i)
        else (p.1 + s.ammo_game i, none)
      else p)
    10 0 (0, none)

/-- Embedding of `weighted_random_selection`: the selected index or `-1`, and the new count
of `rand()` calls. -/
def weighted_random_selection (rand : Nat → Nat) (pos : Nat) (s : State) : Int × Nat :=
  if totalWeight s = 0 then (-1, pos)
  else
    match (walkWeights s (Int.tmod (rand pos) (totalWeight s))).2 with
    | some i => (i, pos + 1)
    | none => (-1, pos + 1)

/-- The branch `selected != -1` of the loop of `process_fire`: machine `selected` fires. -/
def applyFire (s : State) (selected : Nat) : State :=
  { s with
    ammo_machine := setA s.ammo_machine selected (wrap16 (s.ammo_machine selected - 1))
    ammo_game := setA s.ammo_game selected (wrap16 (s.ammo_game selected - 1))
    maxShootableAmmo := wrap16 (s.maxShootableAmmo - 1)
    nextFires := setA s.nextFires selected 1
    usableMachines := setA s.usableMachines selected 0
    fired := wrap16 (s.fired + 1) }

/-- The body of the loop of `process_fire`; the state is the globals and the count of
`rand()` calls. -/
def fireOnce (rand : Nat → Nat) (p : State × Nat) : State × Nat :=
  if (weighted_random_selection rand p.2 p.1).1 ≠ -1 then
    (applyFire p.1 (weighted_random_selection rand p.2 p.1).1.toNat,
      (weighted_random_selection rand p.2 p.1).2)
  else (p.1, (weighted_random_selection rand p.2 p.1).2)

/-- The `switch (count)` at the end of `process_fire`. -/
def adjustCounters (count : Int) (s : State) : State :=
  if count = 2 then { s with doubleFire := wrap16 (s.doubleFire - 1) }
  else if count = 3 then { s with tripleFire := wrap16 (s.tripleFire - 1) }
  else s

/-- Embedding of `process_fire`: the loop `for (i = 0; i < count; i++)` runs `count` times
(not at all when `count <= 0`); the only call passes the result of `select_mode`, at most 3,
so the `short` counter `i` cannot overflow. -/
def process_fire (rand : Nat → Nat) (count : Int) (p : State × Nat) : State × Nat :=
  (adjustCounters count (forLoop (fun _ q => fireOnce rand q) count.toNat 0 p).1,
    (forLoop (fun _ q => fireOnce rand q) count.toNat 0 p).2)

/-- The end-of-game branch of `MacroEntry`: LW400 is cleared, `nextFires` is cleared and
LW500 receives `endWindowID`. -/
def endGame (s : State) : State :=
  { forLoop (fun i s => { s with nextFires := setA s.nextFires i 0 }) 10 0
      { s with lw400 := 0 } with lw500 := endWindowID }

/-- The first step of `MacroEntry` of shooter.c:
`if (remainingDelay < delay / 2) reset_selected_machines();`. -/
def clearStale (s : State) : State :=
  if s.remainingDelay < Int.tdiv s.delay 2 then reset_selected_machines s else s

/-- The body of `if (!delayer())` in `MacroEntry` of shooter.c: the end-of-game branch when
`checkEndGame()` holds, otherwise `process_fire(select_mode())`. -/
def fireOrEnd (fuel : Nat) (rand : Nat → Nat) (s : State) : Option State :=
  if (checkEndGame s).1 then some (endGame (checkEndGame s).2)
  else
    match select_mode fuel rand 0 (checkEndGame s).2 with
    | none => none
    | some m => some (process_fire rand m.1 ((checkEndGame s).2, m.2)).1

/-- The body of `MacroEntry` of shooter.c between the `ReadLocal` and the `WriteLocal` calls. -/
def cycle (fuel : Nat) (rand : Nat → Nat) (s : State) : Option State :=
  if (delayer (clearStale s)).1 then some (delayer (clearStale s)).2
  else fireOrEnd fuel rand (delayer (clearStale s)).2

/-- Embedding of `MacroEntry` of shooter.c on the register file. `rand` is the sequence the
generator produces after `srand(time(NULL))`. The registers LW0-LW9 (`usableMachines`) and
LW113 (`delay`) are read and never written, so they keep their value. -/
def MacroEntry (fuel : Nat) (rand : Nat → Nat) (r : State) : Option State :=
  match cycle fuel rand r with
  | none => none
  | some s => some { s with usableMachines := r.usableMachines, delay := r.delay }

/-- A machine that `weighted_random_selection` can select: enabled, with game ammo left. -/
def armed (s : State) (i : Nat) : Prop := s.usableMachines i ≠ 0 ∧ s.ammo_game i > 0

instance (s : State) (i : Nat) : Decidable (armed s i) := by unfold armed; infer_instance

/-- Number of armed machines among the machines `0..n-1`. -/
def armedBelow (s : State) : Nat → Nat
  | 0 => 0
  | n + 1 => armedBelow s n + (if armed s n then 1 else 0)

/-- Summed weight (game ammo) of the armed machines among the machines `0..n-1`. -/
def weightBelow (s : State) : Nat → Int
  | 0 => 0
  | n + 1 => weightBelow s n + (if armed s n then s.ammo_game n else 0)

/-- The registers hold 16-bit values. -/
def WellTyped (s : State) : Prop :=
  (∀ i, i < 10 → isShort (s.usableMachines i) ∧ isShort (s.nextFires i) ∧
    isShort (s.ammo_machine i) ∧ isShort (s.ammo_game i)) ∧
  isShort s.maxShootableAmmo ∧ isShort s.doubleFire ∧ isShort s.tripleFire ∧
  isShort s.delay ∧ isShort s.remainingDelay ∧ isShort s.fired

instance (s : State) : Decidable (WellTyped s) := by unfold WellTyped; infer_instance

/-- The three data-model conditions on a register file: the remaining total is not
negative, no enabled machine is allocated more than its capacity, and the allocations sum
to at most the remaining total. -/
def dataModel (s : State) : Prop :=
  0 ≤ s.maxShootableAmmo ∧
  (∀ i, i < 10 → s.usableMachines i ≠ 0 → s.ammo_game i ≤ s.ammo_machine i) ∧
  sum10 s.ammo_game ≤ s.maxShootableAmmo

instance (s : State) : Decidable (dataModel s) := by unfold dataModel; infer_instance

/-- No enabled machine has a negative capacity. -/
def capacitiesNonneg (s : State) : Prop :=
  ∀ i, i < 10 → s.usableMachines i ≠ 0 → 0 ≤ s.ammo_machine i

instance (s : State) : Decidable (capacitiesNonneg s) := by
  unfold capacitiesNonneg; infer_instance

/-- The globals `t` are the globals `s` after each machine of the list `F` has fired once:
its two ammo counts are one lower, it is marked in `nextFires` and disabled; the remaining
total is lower by the number of machines fired; nothing else differs, `fired` apart. -/
def firedFrom (s : State) (F : List Nat) (t : State) : Prop :=
  (∀ i, t.usableMachines i = if i ∈ F then 0 else s.usableMachines i) ∧
  (∀ i, t.ammo_game i = s.ammo_game i - (if i ∈ F then 1 else 0)) ∧
  (∀ i, t.ammo_machine i = s.ammo_machine i - (if i ∈ F then 1 else 0)) ∧
  (∀ i, t.nextFires i = if i ∈ F then 1 else s.nextFires i) ∧
  t.maxShootableAmmo = s.maxShootableAmmo - (F.length : Int) ∧
  sum10 t.ammo_game + (F.length : Int) = sum10 s.ammo_game ∧
  t.doubleFire = s.doubleFire ∧ t.tripleFire = s.tripleFire ∧ t.delay = s.delay ∧
  t.remainingDelay = s.remainingDelay ∧ t.lw400 = s.lw400 ∧ t.lw500 = s.lw500

/-- What `process_fire(m)` is claimed to do, from the globals `s` to the globals `t`:
exactly `min(m, E)` different machines fire, `E` being the number of armed machines of `s`;
each was armed, loses one unit of both ammo counts and is marked in `nextFires`; the ammo
counts of the other machines are unchanged; the remaining total drops by the number of
machines fired; `doubleFire` drops by one iff `m = 2` and `tripleFire` iff `m = 3`. -/
def firesExactly (s : State) (m : Int) (t : State) : Prop :=
  ∃ F : List Nat, F.Nodup ∧ (F.length : Int) = min m (armedBelow s 10 : Int) ∧
    (∀ i, i ∈ F → i < 10 ∧ armed s i) ∧
    (∀ i, i ∈ F → t.ammo_game i = s.ammo_game i - 1 ∧
      t.ammo_machine i = s.ammo_machine i - 1 ∧ t.nextFires i = 1) ∧
    (∀ i, i ∉ F → t.ammo_game i = s.ammo_game i ∧ t.ammo_machine i = s.ammo_machine i) ∧
    t.maxShootableAmmo = s.maxShootableAmmo - (F.length : Int) ∧
    t.doubleFire = s.doubleFire - (if m = 2 then 1 else 0) ∧
    t.tripleFire = s.tripleFire - (if m = 3 then 1 else 0)

/-- The array `weights` of `select_mode`: `simpleFire`, `doubleFire * 2`, `tripleFire * 3`,
each stored in a `short`. -/
def modeWeights (s : State) : Int × Int × Int :=
  (wrap16 (s.maxShootableAmmo - s.doubleFire * 2 - s.tripleFire * 3),
    wrap16 (s.doubleFire * 2), wrap16 (s.tripleFire * 3))

/-- The modulus `weights[0] + weights[1] + weights[2]` of `select_mode`. -/
def modeModulus (s : State) : Int :=
  (modeWeights s).1 + (modeWeights s).2.1 + (modeWeights s).2.2

/-- The value `choice` that `select_mode` computes from the value `r` of `rand()`. -/
def modeChoice (s : State) (r : Nat) : Int := wrap16 (Int.tmod r (modeModulus s))

/-- The draw `r` resolves to no mode: the three tests of `select_mode` fail, so the draw is
retried. -/
def unresolved (s : State) (r : Nat) : Prop :=
  ¬ (modeChoice s r < (modeWeights s).1 ∧ s.maxShootableAmmo ≥ 1) ∧
  ¬ (modeChoice s r < (modeWeights s).1 + (modeWeights s).2.1 ∧ s.maxShootableAmmo ≥ 2 ∧
      s.doubleFire > 0) ∧
  ¬ (modeChoice s r < (modeWeights s).1 + (modeWeights s).2.1 + (modeWeights s).2.2 ∧
      s.maxShootableAmmo ≥ 3 ∧ s.tripleFire > 0)

instance (s : State) (r : Nat) : Decidable (unresolved s r) := by
  unfold unresolved; infer_instance

/-- Successive invocations of `MacroEntry` by the host, one for each sequence of draws of the
list, each invocation reading the register file the previous one wrote back. -/
def invocations (fuel : Nat) : List (Nat → Nat) → State → Option State
  | [], s => some s
  | rand :: rest, s =>
    match MacroEntry fuel rand s with
    | none => none
    | some t => invocations fuel rest t

/-- The globals after `n` consecutive invocations of `delayer`, starting from `s`. -/
def delayerRun (s : State) : Nat → State
  | 0 => s
  | n + 1 => (delayer (delayerRun s n)).2

/-- The part of `firedFrom` that does not depend on 16-bit ranges of `ammo_machine` and
`maxShootableAmmo`: the machines of `F` are disabled, one unit of `ammo_game` lower and
marked in `nextFires`; the other machines keep these three entries. -/
def markedFrom (s : State) (F : List Nat) (t : State) : Prop :=
  (∀ i, t.usableMachines i = if i ∈ F then 0 else s.usableMachines i) ∧
  (∀ i, t.ammo_game i = s.ammo_game i - (if i ∈ F then 1 else 0)) ∧
  (∀ i, t.nextFires i = if i ∈ F then 1 else s.nextFires i)

/-- What is claimed of `nextFires` after an invocation from `s` to `t`: each machine is
either marked 1 with its `ammo_game` one lower than before, or marked 0 with its `ammo_game`
unchanged. -/
def marksFired (s t : State) : Prop :=
  ∀ i, i < 10 →
    (t.nextFires i = 1 ∧ t.ammo_game i = s.ammo_game i - 1) ∨
    (t.nextFires i = 0 ∧ t.ammo_game i = s.ammo_game i)

instance (s t : State) : Decidable (marksFired s t) := by unfold marksFired; infer_instance

/-- The end-of-game condition on a register file: nothing left to fire, no double or
triple fire pending, and an all-zero game allocation. -/
def gameOver (s : State) : Prop :=
  s.maxShootableAmmo ≤ 0 ∧ s.doubleFire = 0 ∧ s.tripleFire = 0 ∧
  ∀ i, i < 10 → s.ammo_game i = 0

instance (s : State) : Decidable (gameOver s) := by unfold gameOver; infer_instance

/-- A concrete register file, for the worked examples. -/
def mkState (usable machine game next : List Int)
    (maxAmmo dbl tpl dly remaining : Int) : State :=
  { usableMachines := ofList usable, nextFires := ofList next, ammo_machine := ofList machine,
    ammo_game := ofList game, maxShootableAmmo := maxAmmo, doubleFire := dbl, tripleFire := tpl,
    delay := dly, remainingDelay := remaining, fired := 0, lw400 := 0, lw500 := 0 }

/-- The observable part of a register file, for the worked examples. -/
def observe (s : State) : List Int × List Int × List Int × List Int :=
  (toList10 s.ammo_machine, toList10 s.ammo_game, toList10 s.nextFires,
    [s.maxShootableAmmo, s.doubleFire, s.tripleFire, s.remainingDelay, s.fired])

end Shooter

/-! ## Loops, arrays and sums -/

theorem setA_same (a : Arr) (i : Nat) (v : Int) : setA a i v i = v := by
  simp [setA]

theorem setA_other (a : Arr) (i j : Nat) (v : Int) (h : j ≠ i) : setA a i v j = a j := by
  simp [setA, h]

theorem wrap16_id (x : Int) (h : isShort x) : wrap16 x = x := by
  unfold isShort at h
  unfold wrap16
  omega

theorem wrap16_isShort (x : Int) : isShort (wrap16 x) := by
  unfold isShort wrap16
  omega

/-- Invariant rule for `forLoop`. -/
theorem forLoop_inv {σ : Type} (body : Nat → σ → σ) (P : Nat → σ → Prop) :
    ∀ (k i : Nat) (s : σ), P i s →
      (∀ j t, i ≤ j → j < i + k → P j t → P (j + 1) (body j t)) →
      P (i + k) (forLoop body k i s) := by
  intro k
  induction k with
  | zero => intro i s h _; simpa [forLoop] using h
  | succ k ih =>
    intro i s h hstep
    have h1 : P (i + 1) (body i s) := hstep i s (Nat.le_refl i) (by omega) h
    have h2 := ih (i + 1) (body i s) h1
      (fun j t hj hlt hP => hstep j t (by omega) (by omega) hP)
    have e : i + (k + 1) = i + 1 + k := by omega
    rw [e]
    simpa [forLoop] using h2

/-- Invariant rule for `forLoopWhile`: the loop stops at some index `j`, either the upper
bound or an index at which the condition fails. -/
theorem forLoopWhile_inv {σ : Type} (cond : σ → Bool) (body : Nat → σ → σ)
    (P : Nat → σ → Prop) :
    ∀ (k i : Nat) (s : σ), P i s →
      (∀ j t, i ≤ j → j < i + k → P j t → cond t = true → P (j + 1) (body j t)) →
      ∃ j, i ≤ j ∧ j ≤ i + k ∧ P j (forLoopWhile cond body k i s) ∧
        (j = i + k ∨ cond (forLoopWhile cond body k i s) = false) := by
  intro k
  induction k with
  | zero =>
    intro i s h _
    exact ⟨i, Nat.le_refl i, by omega, by simpa [forLoopWhile] using h, Or.inl rfl⟩
  | succ k ih =>
    intro i s h hstep
    by_cases hc : cond s = true
    · have h1 : P (i + 1) (body i s) := hstep i s (Nat.le_refl i) (by omega) h hc
      obtain ⟨j, hj1, hj2, hP, hend⟩ := ih (i + 1) (body i s) h1
        (fun j t hj hlt hP hct => hstep j t (by omega) (by omega) hP hct)
      refine ⟨j, by omega, by omega, ?_, ?_⟩
      · simpa [forLoopWhile, hc] using hP
      · rcases hend with hend | hend
        · left; omega
        · right; simpa [forLoopWhile, hc] using hend
    · have hc2 : cond s = false := by simpa using hc
      refine ⟨i, Nat.le_refl i, by omega, ?_, Or.inr ?_⟩
      · simpa [forLoopWhile, hc2] using h
      · simp [forLoopWhile, hc2]

theorem sumTo_setA_ge (a : Arr) (i : Nat) (v : Int) :
    ∀ n, n ≤ i → sumTo (setA a i v) n = sumTo a n := by
  intro n
  induction n with
  | zero => intro _; rfl
  | succ n ih =>
    intro h
    have hne : n ≠ i := by omega
    simp [sumTo, ih (by omega), setA_other a i n v hne]

theorem sumTo_setA_lt (a : Arr) (i : Nat) (v : Int) :
    ∀ n, i < n → sumTo (setA a i v) n = sumTo a n - a i + v := by
  intro n
  induction n with
  | zero => intro h; omega
  | succ n ih =>
    intro h
    by_cases hi : i = n
    · subst hi
      simp [sumTo, sumTo_setA_ge a i v i (Nat.le_refl i), setA_same]
    · have hne : n ≠ i := fun e => hi e.symm
      simp only [sumTo, ih (by omega), setA_other a i n v hne]
      omega

theorem sum10_setA (a : Arr) (i : Nat) (v : Int) (h : i < 10) :
    sum10 (setA a i v) = sum10 a - a i + v :=
  sumTo_setA_lt a i v 10 h

theorem sumTo_congr (a b : Arr) : ∀ n, (∀ i, i < n → a i = b i) → sumTo a n = sumTo b n := by
  intro n
  induction n with
  | zero => intro _; rfl
  | succ n ih =>
    intro h
    simp [sumTo, ih (fun i hi => h i (by omega)), h n (by omega)]

theorem sumTo_le (a b : Arr) : ∀ n, (∀ i, i < n → a i ≤ b i) → sumTo a n ≤ sumTo b n := by
  intro n
  induction n with
  | zero => intro _; exact le_refl _
  | succ n ih =>
    intro h
    have h1 := ih (fun i hi => h i (by omega))
    have h2 := h n (by omega)
    simp only [sumTo]
    omega

theorem sumTo_zero (a : Arr) : ∀ n, (∀ i, i < n → a i = 0) → sumTo a n = 0 := by
  intro n
  induction n with
  | zero => intro _; rfl
  | succ n ih =>
    intro h
    simp [sumTo, ih (fun i hi => h i (by omega)), h n (by omega)]

theorem sumTo_nonneg (a : Arr) : ∀ n, (∀ i, i < n → 0 ≤ a i) → 0 ≤ sumTo a n := by
  intro n
  induction n with
  | zero => intro _; exact le_refl _
  | succ n ih =>
    intro h
    have h1 := ih (fun i hi => h i (by omega))
    have h2 := h n (by omega)
    simp only [sumTo]
    omega

theorem sumTo_mono_len (a : Arr) : ∀ n m, n ≤ m → (∀ i, i < m → 0 ≤ a i) →
    sumTo a n ≤ sumTo a m := by
  intro n m hnm
  induction m with
  | zero =>
    intro _
    have : n = 0 := by omega
    subst this; exact le_refl _
  | succ m ih =>
    intro h
    by_cases e : n = m + 1
    · subst e; exact le_refl _
    · have := ih (by omega) (fun i hi => h i (by omega))
      have h2 := h m (by omega)
      simp only [sumTo]
      omega

namespace Calc

/-! ## Setup macro: one pass of the leftover distribution -/

theorem sameConfig_refl (s : State) : sameConfig s s := ⟨rfl, rfl, rfl, rfl, rfl⟩

theorem fillableBelow_mono (s : State) : ∀ n m, n ≤ m → fillableBelow s n ≤ fillableBelow s m := by
  intro n m hnm
  induction m with
  | zero =>
    have : n = 0 := by omega
    subst this; exact le_refl _
  | succ m ih =>
    by_cases e : n = m + 1
    · subst e; exact le_refl _
    · have := ih (by omega)
      simp only [fillableBelow]
      omega

theorem fillableBelow_zero (s : State) :
    ∀ n, fillableBelow s n = 0 → ∀ i, i < n → ¬ fillable s i := by
  intro n
  induction n with
  | zero => intro _ i hi; omega
  | succ n ih =>
    intro h i hi
    simp only [fillableBelow] at h
    by_cases e : i = n
    · subst e
      intro hf
      simp [hf] at h
    · exact ih (by omega) i (by omega)

/-- Exact effect of one leftover pass. -/
theorem leftoverPass_spec (s : State) (rem : Int) (hrem : 0 < rem) (hremS : rem ≤ 32767)
    (hcap : ∀ i, i < 10 → s.ammo_machine i ≤ 32767)
    (hgame : ∀ i, i < 10 → -32768 ≤ s.ammo_game i) :
    sameConfig s (leftoverPass s rem).1 ∧
    (leftoverPass s rem).1.maxShootableAmmo = s.maxShootableAmmo ∧
    (leftoverPass s rem).1.errorFlag = s.errorFlag ∧
    (∀ i, (leftoverPass s rem).1.ammo_game i = s.ammo_game i +
      (if i < 10 ∧ fillable s i ∧ (fillableBelow s i : Int) < rem then 1 else 0)) ∧
    (leftoverPass s rem).2.1 = rem - min rem (fillableBelow s 10 : Int) ∧
    (leftoverPass s rem).2.2 = (if fillableBelow s 10 = 0 then 1 else 0) ∧
    sum10 (leftoverPass s rem).1.ammo_game + (leftoverPass s rem).2.1
      = sum10 s.ammo_game + rem := by
  have key := forLoopWhile_inv (fun q : State × Int × Int => decide (q.2.1 > 0))
    (fun i q =>
      if q.1.usableMachines i ≠ 0 ∧ q.1.ammo_machine i > q.1.ammo_game i then
        ({ q.1 with ammo_game := setA q.1.ammo_game i (wrap16 (q.1.ammo_game i + 1)) },
          wrap16 (q.2.1 - 1), 0)
      else q)
    (fun j q => sameConfig s q.1 ∧ q.1.maxShootableAmmo = s.maxShootableAmmo ∧
      q.1.errorFlag = s.errorFlag ∧
      (∀ i, q.1.ammo_game i = s.ammo_game i +
        (if i < j ∧ fillable s i ∧ (fillableBelow s i : Int) < rem then 1 else 0)) ∧
      q.2.1 = rem - min rem (fillableBelow s j : Int) ∧
      q.2.2 = (if fillableBelow s j = 0 then 1 else 0) ∧
      sum10 q.1.ammo_game + q.2.1 = sum10 s.ammo_game + rem)
    10 0 (s, rem, 1)
    (by
      refine ⟨sameConfig_refl s, rfl, rfl, ?_, ?_, ?_, ?_⟩
      · intro i; simp
      · simp only [fillableBelow]; omega
      · simp [fillableBelow]
      · rfl)
    (by
      intro j q _ hj hP hc
      obtain ⟨hcfg, hmax, herr, hg, hr, hu, hsum⟩ := hP
      have hc2 : q.2.1 > 0 := by simpa using hc
      have hj10 : j < 10 := by omega
      have hgj : q.1.ammo_game j = s.ammo_game j := by
        rw [hg j]; simp
      have hlt : (fillableBelow s j : Int) < rem := by omega
      by_cases hf : fillable s j
      · have hf2 : q.1.usableMachines j ≠ 0 ∧ q.1.ammo_machine j > q.1.ammo_game j := by
          rw [hcfg.1, hcfg.2.1, hgj]; exact hf
        have hb1 := hcap j hj10
        have hb2 := hgame j hj10
        have hf3 := hf.2
        have hw1 : wrap16 (q.1.ammo_game j + 1) = s.ammo_game j + 1 := by
          rw [hgj]; apply wrap16_id; unfold isShort; omega
        have hw2 : wrap16 (q.2.1 - 1) = q.2.1 - 1 := by
          apply wrap16_id; unfold isShort; omega
        dsimp only
        rw [if_pos hf2, hw1, hw2]
        dsimp only
        refine ⟨hcfg, hmax, herr, ?_, ?_, ?_, ?_⟩
        · intro i
          by_cases e : i = j
          · subst e
            simp [setA_same, hf, hlt]
          · rw [setA_other _ _ _ _ e, hg i]
            have hiff : i < j + 1 ↔ i < j := by
              constructor <;> intro h <;> omega
            simp only [hiff]
        · simp only [fillableBelow, hf, if_true]
          push_cast
          omega
        · simp [fillableBelow, hf]
        · show sum10 (setA q.1.ammo_game j (s.ammo_game j + 1)) + (q.2.1 - 1) = _
          rw [sum10_setA _ _ _ hj10, hgj]
          omega
      · have hf2 : ¬ (q.1.usableMachines j ≠ 0 ∧ q.1.ammo_machine j > q.1.ammo_game j) := by
          rw [hcfg.1, hcfg.2.1, hgj]; exact hf
        dsimp only
        rw [if_neg hf2]
        refine ⟨hcfg, hmax, herr, ?_, ?_, ?_, hsum⟩
        · intro i
          rw [hg i]
          by_cases e : i = j
          · subst e; simp [hf]
          · have hiff : i < j + 1 ↔ i < j := by
              constructor <;> intro h <;> omega
            simp only [hiff]
        · simp only [fillableBelow, hf, if_false]
          simpa using hr
        · simp only [fillableBelow, hf, if_false]
          simpa using hu)
  obtain ⟨j, _, hj10, ⟨hcfg, hmax, herr, hg, hr, hu, hsum⟩, hend⟩ := key
  have hev : forLoopWhile (fun q : State × Int × Int => decide (q.2.1 > 0))
    (fun i q =>
      if q.1.usableMachines i ≠ 0 ∧ q.1.ammo_machine i > q.1.ammo_game i then
        ({ q.1 with ammo_game := setA q.1.ammo_game i (wrap16 (q.1.ammo_game i + 1)) },
          wrap16 (q.2.1 - 1), 0)
      else q) 10 0 (s, rem, 1) = leftoverPass s rem := rfl
  rw [hev] at hcfg hmax herr hg hr hu hsum hend
  rcases hend with hend | hend
  · have : j = 10 := by omega
    subst this
    exact ⟨hcfg, hmax, herr, hg, hr, hu, hsum⟩
  · have hle : (leftoverPass s rem).2.1 ≤ 0 := by simpa using hend
    have h1 : rem ≤ (fillableBelow s j : Int) := by omega
    have hm := fillableBelow_mono s j 10 (by omega)
    refine ⟨hcfg, hmax, herr, ?_, ?_, ?_, hsum⟩
    · intro i
      rw [hg i]
      by_cases hij : i < j
      · have : i < 10 := by omega
        simp [hij, this]
      · have hm2 := fillableBelow_mono s j i (by omega)
        have : ¬ ((fillableBelow s i : Int) < rem) := by omega
        simp [hij, this]
    · omega
    · rw [hu]
      have : fillableBelow s j ≠ 0 := by omega
      have : fillableBelow s 10 ≠ 0 := by omega
      simp [*]


/-! ## Setup macro: reset, machine count and primary distribution -/

theorem eligibleBelow_mono (s : State) : ∀ n m, n ≤ m → eligibleBelow s n ≤ eligibleBelow s m := by
  intro n m hnm
  induction m with
  | zero =>
    have : n = 0 := by omega
    subst this; exact le_refl _
  | succ m ih =>
    by_cases e : n = m + 1
    · subst e; exact le_refl _
    · have := ih (by omega)
      simp only [eligibleBelow]
      omega

theorem eligibleBelow_le (s : State) : ∀ n, eligibleBelow s n ≤ n := by
  intro n
  induction n with
  | zero => simp [eligibleBelow]
  | succ n ih =>
    simp only [eligibleBelow]
    split <;> omega

theorem eligibleBelow_zero (s : State) :
    ∀ n, eligibleBelow s n = 0 → ∀ i, i < n → ¬ eligible s i := by
  intro n
  induction n with
  | zero => intro _ i hi; omega
  | succ n ih =>
    intro h i hi
    simp only [eligibleBelow] at h
    by_cases e : i = n
    · subst e
      intro hf
      simp [hf] at h
    · exact ih (by omega) i (by omega)

theorem eligibleBelow_pos (s : State) (n i : Nat) (hi : i < n) (he : eligible s i) :
    0 < eligibleBelow s n := by
  by_contra h
  exact eligibleBelow_zero s n (by omega) i hi he

theorem eligibleBelow_congr (s t : State) (hu : t.usableMachines = s.usableMachines)
    (hm : t.ammo_machine = s.ammo_machine) : ∀ n, eligibleBelow t n = eligibleBelow s n := by
  intro n
  induction n with
  | zero => rfl
  | succ n ih => simp only [eligibleBelow, ih, eligible, hu, hm]

theorem capacityBelow_congr (s t : State) (hu : t.usableMachines = s.usableMachines)
    (hm : t.ammo_machine = s.ammo_machine) : ∀ n, capacityBelow t n = capacityBelow s n := by
  intro n
  induction n with
  | zero => rfl
  | succ n ih => simp only [capacityBelow, ih, eligible, hu, hm]

/-- The zeroing loop of the setup macro clears the ten slots and nothing else. -/
theorem reset_spec (s : State) :
    sameConfig s (reset_selected_machines s) ∧
    (reset_selected_machines s).maxShootableAmmo = s.maxShootableAmmo ∧
    (reset_selected_machines s).errorFlag = s.errorFlag ∧
    ∀ i, (reset_selected_machines s).ammo_game i = if i < 10 then 0 else s.ammo_game i := by
  have key := forLoop_inv (fun i (s : State) => { s with ammo_game := setA s.ammo_game i 0 })
    (fun j t => sameConfig s t ∧ t.maxShootableAmmo = s.maxShootableAmmo ∧
      t.errorFlag = s.errorFlag ∧ ∀ i, t.ammo_game i = if i < j then 0 else s.ammo_game i)
    10 0 s
    ⟨sameConfig_refl s, rfl, rfl, by intro i; simp⟩
    (by
      intro j t _ _ hP
      obtain ⟨hcfg, hmax, herr, hg⟩ := hP
      refine ⟨hcfg, hmax, herr, ?_⟩
      intro i
      by_cases e : i = j
      · subst e; simp [setA_same]
      · have hiff : i < j + 1 ↔ i < j := by
          constructor <;> intro h <;> omega
        show setA t.ammo_game j 0 i = _
        rw [setA_other _ _ _ _ e, hg i]
        simp only [hiff])
  simpa using key

/-- The counting loop computes the number of eligible machines. -/
theorem countMachines_eq (s : State) : countMachines s = (eligibleBelow s 10 : Int) := by
  have key := forLoop_inv
    (fun i (n : Int) => if s.usableMachines i ≠ 0 ∧ s.ammo_machine i > 0 then wrap16 (n + 1) else n)
    (fun j n => n = (eligibleBelow s j : Int)) 10 0 0 (by simp [eligibleBelow])
    (by
      intro j n _ hj hP
      have hle := eligibleBelow_le s j
      subst hP
      by_cases he : eligible s j
      · have he2 : s.usableMachines j ≠ 0 ∧ s.ammo_machine j > 0 := he
        dsimp only
        rw [if_pos he2, wrap16_id _ (by unfold isShort; omega)]
        simp [eligibleBelow, he]
      · have he2 : ¬ (s.usableMachines j ≠ 0 ∧ s.ammo_machine j > 0) := he
        dsimp only
        rw [if_neg he2]
        simp [eligibleBelow, he])
  simpa using key

/-- Effect of the primary distribution on a cleared allocation. -/
theorem primaryDistribution_spec (s : State) (per r0 : Int) (hper : 0 ≤ per) (hr0 : 0 ≤ r0)
    (hbound : r0 + per * (eligibleBelow s 10 : Int) ≤ 32767)
    (hzero : ∀ i, i < 10 → s.ammo_game i = 0) :
    sameConfig s (primaryDistribution per (s, r0)).1 ∧
    (primaryDistribution per (s, r0)).1.maxShootableAmmo = s.maxShootableAmmo ∧
    (primaryDistribution per (s, r0)).1.errorFlag
      = (if hasShort s per 10 then 2 else s.errorFlag) ∧
    (∀ i, (primaryDistribution per (s, r0)).1.ammo_game i
      = if i < 10 ∧ eligible s i then min per (s.ammo_machine i) else s.ammo_game i) ∧
    0 ≤ (primaryDistribution per (s, r0)).2 ∧
    sum10 (primaryDistribution per (s, r0)).1.ammo_game + (primaryDistribution per (s, r0)).2
      = r0 + per * (eligibleBelow s 10 : Int) := by
  have key := forLoop_inv
    (fun i (p : State × Int) =>
      if p.1.usableMachines i ≠ 0 ∧ p.1.ammo_machine i > 0 then
        if p.1.ammo_machine i ≥ per then
          ({ p.1 with ammo_game := setA p.1.ammo_game i per }, p.2)
        else
          ({ p.1 with ammo_game := setA p.1.ammo_game i (p.1.ammo_machine i), errorFlag := 2 },
            wrap16 (p.2 + (per - p.1.ammo_machine i)))
      else p)
    (fun j p => sameConfig s p.1 ∧ p.1.maxShootableAmmo = s.maxShootableAmmo ∧
      p.1.errorFlag = (if hasShort s per j then 2 else s.errorFlag) ∧
      (∀ i, p.1.ammo_game i
        = if i < j ∧ eligible s i then min per (s.ammo_machine i) else s.ammo_game i) ∧
      0 ≤ p.2 ∧
      sum10 p.1.ammo_game + p.2 = r0 + per * (eligibleBelow s j : Int))
    10 0 (s, r0)
    (by
      refine ⟨sameConfig_refl s, rfl, ?_, ?_, hr0, ?_⟩
      · have : ¬ hasShort s per 0 := by
          rintro ⟨i, hi, _⟩; omega
        simp [this]
      · intro i; simp
      · show sum10 s.ammo_game + r0 = _
        have : sum10 s.ammo_game = 0 := sumTo_zero _ 10 hzero
        simp [eligibleBelow, this])
    (by
      intro j p _ hj hP
      obtain ⟨hcfg, hmax, herr, hg, hnn, hsum⟩ := hP
      have hj10 : j < 10 := by omega
      have hgj : p.1.ammo_game j = 0 := by
        rw [hg j]; simp [hzero j hj10]
      have hmono := eligibleBelow_mono s (j + 1) 10 (by omega)
      have hiffs : ∀ i, i ≠ j → (i < j + 1 ↔ i < j) := by
        intro i e; constructor <;> intro h <;> omega
      have hsums : sum10 p.1.ammo_game ≥ 0 := by
        apply sumTo_nonneg
        intro i _
        rw [hg i]
        split
        · rename_i h
          have := h.2.2
          omega
        · by_cases h10 : i < 10
          · rw [hzero i h10]
          · omega
      by_cases he : eligible s j
      · have he2 : p.1.usableMachines j ≠ 0 ∧ p.1.ammo_machine j > 0 := by
          rw [hcfg.1, hcfg.2.1]; exact he
        have hcnt : ((eligibleBelow s (j + 1) : Nat) : Int) = (eligibleBelow s j : Int) + 1 := by
          simp [eligibleBelow, he]
        have hprod : per * ((eligibleBelow s (j + 1) : Nat) : Int)
            = per * (eligibleBelow s j : Int) + per := by
          rw [hcnt]; ring
        have hprod2 : per * ((eligibleBelow s (j + 1) : Nat) : Int)
            ≤ per * ((eligibleBelow s 10 : Nat) : Int) :=
          Int.mul_le_mul_of_nonneg_left (by exact_mod_cast hmono) hper
        dsimp only
        rw [if_pos he2]
        by_cases hge : p.1.ammo_machine j ≥ per
        · rw [if_pos hge]
          dsimp only
          have hge2 : s.ammo_machine j ≥ per := by rw [← hcfg.2.1]; exact hge
          refine ⟨hcfg, hmax, ?_, ?_, hnn, ?_⟩
          · rw [herr]
            have : hasShort s per (j + 1) ↔ hasShort s per j := by
              constructor
              · rintro ⟨i, hi, hei, hlt⟩
                by_cases e : i = j
                · subst e; omega
                · exact ⟨i, by omega, hei, hlt⟩
              · rintro ⟨i, hi, hei, hlt⟩
                exact ⟨i, by omega, hei, hlt⟩
            simp only [this]
          · intro i
            by_cases e : i = j
            · subst e
              rw [setA_same]
              simp [he, min_eq_left hge2]
            · rw [setA_other _ _ _ _ e, hg i]
              simp only [hiffs i e]
          · rw [sum10_setA _ _ _ hj10, hgj, hprod]
            omega
        · rw [if_neg hge]
          dsimp only
          have hlt2 : s.ammo_machine j < per := by rw [← hcfg.2.1]; omega
          have hpos : s.ammo_machine j > 0 := he.2
          have hw : wrap16 (p.2 + (per - p.1.ammo_machine j))
              = p.2 + (per - s.ammo_machine j) := by
            rw [hcfg.2.1]
            apply wrap16_id
            unfold isShort
            omega
          rw [hw]
          refine ⟨hcfg, hmax, ?_, ?_, by omega, ?_⟩
          · have : hasShort s per (j + 1) := ⟨j, by omega, he, hlt2⟩
            simp [this]
          · intro i
            by_cases e : i = j
            · subst e
              rw [setA_same, hcfg.2.1]
              simp [he, min_eq_right (le_of_lt hlt2)]
            · rw [setA_other _ _ _ _ e, hg i]
              simp only [hiffs i e]
          · rw [sum10_setA _ _ _ hj10, hgj, hprod, hcfg.2.1]
            omega
      · have he2 : ¬ (p.1.usableMachines j ≠ 0 ∧ p.1.ammo_machine j > 0) := by
          rw [hcfg.1, hcfg.2.1]; exact he
        dsimp only
        rw [if_neg he2]
        refine ⟨hcfg, hmax, ?_, ?_, hnn, ?_⟩
        · rw [herr]
          have : hasShort s per (j + 1) ↔ hasShort s per j := by
            constructor
            · rintro ⟨i, hi, hei, hlt⟩
              by_cases e : i = j
              · subst e; exact absurd hei he
              · exact ⟨i, by omega, hei, hlt⟩
            · rintro ⟨i, hi, hei, hlt⟩
              exact ⟨i, by omega, hei, hlt⟩
          simp only [this]
        · intro i
          rw [hg i]
          by_cases e : i = j
          · subst e; simp [he]
          · simp only [hiffs i e]
        · rw [hsum]
          simp [eligibleBelow, he])
  simpa [primaryDistribution] using key


/-! ## Setup macro: the leftover loop -/

theorem state_ext (s t : State) (h1 : t.usableMachines = s.usableMachines)
    (h2 : t.ammo_machine = s.ammo_machine) (h3 : t.ammo_game = s.ammo_game)
    (h4 : t.maxShootableAmmo = s.maxShootableAmmo) (h5 : t.doubleFire = s.doubleFire)
    (h6 : t.tripleFire = s.tripleFire) (h7 : t.delay = s.delay)
    (h8 : t.errorFlag = s.errorFlag) : t = s := by
  cases s; cases t
  simp only [State.mk.injEq]
  exact ⟨h1, h2, h3, h4, h5, h6, h7, h8⟩

theorem sameConfig_trans (s t u : State) (h1 : sameConfig s t) (h2 : sameConfig t u) :
    sameConfig s u := by
  obtain ⟨a1, a2, a3, a4, a5⟩ := h1
  obtain ⟨b1, b2, b3, b4, b5⟩ := h2
  exact ⟨b1.trans a1, b2.trans a2, b3.trans a3, b4.trans a4, b5.trans a5⟩

theorem capacityBelow_eq_sumTo (s : State) :
    ∀ n, capacityBelow s n = sumTo (fun i => if eligible s i then s.ammo_machine i else 0) n := by
  intro n
  induction n with
  | zero => rfl
  | succ n ih => simp only [capacityBelow, sumTo, ih]

/-- The summation loop on a `short` computes the true sum when that sum fits. -/
theorem sumDistributed_eq (a : Arr) (hnn : ∀ i, i < 10 → 0 ≤ a i) (hle : sum10 a ≤ 32767) :
    sumDistributed a = sum10 a := by
  have key := forLoop_inv (fun i (d : Int) => wrap16 (d + a i))
    (fun j d => d = sumTo a j) 10 0 0 rfl
    (by
      intro j d _ hj hP
      subst hP
      have h1 := sumTo_mono_len a (j + 1) 10 (by omega) hnn
      have h2 := sumTo_nonneg a (j + 1) (fun i hi => hnn i (by omega))
      have e : sumTo a (j + 1) = sumTo a j + a j := rfl
      rw [e] at h1 h2
      show wrap16 (sumTo a j + a j) = sumTo a j + a j
      apply wrap16_id
      unfold isShort
      unfold sum10 at hle
      omega)
  simpa [sumDistributed, sum10] using key

theorem Filling_sum_nonneg (s0 t : State) (r : Int) (h : Filling s0 t r) :
    0 ≤ sum10 t.ammo_game := by
  obtain ⟨_, _, _, _, he, hn⟩ := h
  apply sumTo_nonneg
  intro i hi
  by_cases e : eligible s0 i
  · exact (he i hi e).1
  · rw [hn i hi e]

theorem Filling_sum_le (s0 t : State) (r : Int) (h : Filling s0 t r) :
    sum10 t.ammo_game ≤ capacityBelow s0 10 := by
  obtain ⟨_, _, _, _, he, hn⟩ := h
  rw [capacityBelow_eq_sumTo]
  apply sumTo_le
  intro i hi
  by_cases e : eligible s0 i
  · simpa [e] using (he i hi e).2
  · simp [e, hn i hi e]

theorem Filling_not_fillable (s0 t : State) (r : Int) (h : Filling s0 t r) (i : Nat)
    (hi : i < 10) (he : ¬ eligible s0 i) : ¬ fillable t i := by
  obtain ⟨hcfg, _, _, _, _, hn⟩ := h
  intro hf
  apply he
  have h1 := hf.1
  have h2 := hf.2
  rw [hcfg.1] at h1
  rw [hcfg.2.1, hn i hi he] at h2
  exact ⟨h1, h2⟩

/-- A leftover pass that finds a fillable machine keeps the invariant and lowers
`remainingAmmo`. -/
theorem Filling_pass (s0 t : State) (r : Int) (hcap : ∀ i, i < 10 → s0.ammo_machine i ≤ 32767)
    (hmaxS : s0.maxShootableAmmo ≤ 32767) (h : Filling s0 t r) (hr : 0 < r) :
    Filling s0 (leftoverPass t r).1 (leftoverPass t r).2.1 ∧
    (leftoverPass t r).1.errorFlag = t.errorFlag ∧
    (leftoverPass t r).2.2 = (if fillableBelow t 10 = 0 then 1 else 0) ∧
    (fillableBelow t 10 = 0 → (leftoverPass t r).1 = t ∧ (leftoverPass t r).2.1 = r) ∧
    (fillableBelow t 10 ≠ 0 → (leftoverPass t r).2.1 < r) := by
  have hsn := Filling_sum_nonneg s0 t r h
  have hnf := Filling_not_fillable s0 t r h
  obtain ⟨hcfg, hmax, hsum, hr0, he, hn⟩ := h
  have hspec := leftoverPass_spec t r hr (by omega)
    (by intro i hi; rw [hcfg.2.1]; exact hcap i hi)
    (by
      intro i hi
      by_cases e : eligible s0 i
      · have := (he i hi e).1; omega
      · rw [hn i hi e]; omega)
  obtain ⟨qcfg, qmax, qerr, qg, qr, qu, qsum⟩ := hspec
  refine ⟨⟨sameConfig_trans _ _ _ hcfg qcfg, by rw [qmax, hmax], by rw [qsum]; exact hsum,
    by rw [qr]; omega, ?_, ?_⟩, qerr, qu, ?_, ?_⟩
  · intro i hi e
    rw [qg i]
    have := he i hi e
    split
    · rename_i hf
      have h2 := hf.2.1.2
      rw [hcfg.2.1] at h2
      omega
    · omega
  · intro i hi e
    rw [qg i, hn i hi e]
    have := hnf i hi e
    simp [this]
  · intro hz
    have hno := fillableBelow_zero t 10 hz
    have hgame : (leftoverPass t r).1.ammo_game = t.ammo_game := by
      funext i
      rw [qg i]
      by_cases hi : i < 10
      · simp [hno i hi]
      · simp [hi]
    refine ⟨state_ext _ _ qcfg.1 qcfg.2.1 hgame qmax qcfg.2.2.1 qcfg.2.2.2.1 qcfg.2.2.2.2 qerr, ?_⟩
    rw [qr, hz]
    simp
    omega
  · intro hnz
    rw [qr]
    have : 0 < fillableBelow t 10 := by omega
    omega

/-- The leftover loop terminates with enough fuel, either with `remainingAmmo = 0` or stuck
with every machine filled up, in which case the requested total is replaced. Any property
`J` kept by the productive passes holds at the end. -/
theorem leftoverLoop_spec (s0 : State) (hcap : ∀ i, i < 10 → s0.ammo_machine i ≤ 32767)
    (hmaxS : s0.maxShootableAmmo ≤ 32767) (J : State → Int → Prop)
    (hJ : ∀ t r, Filling s0 t r → J t r → 0 < r → fillableBelow t 10 ≠ 0 →
      J (leftoverPass t r).1 (leftoverPass t r).2.1) :
    ∀ (fuel : Nat) (t : State) (r : Int), Filling s0 t r → J t r → r < fuel →
      ∃ t' r', Filling s0 t' r' ∧ J t' r' ∧ t'.errorFlag = t.errorFlag ∧
        ((r' = 0 ∧ leftoverLoop fuel t r = some t') ∨
         (0 < r' ∧ fillableBelow t' 10 = 0 ∧
           leftoverLoop fuel t r = some { t' with
             errorFlag := 3, maxShootableAmmo := sumDistributed t'.ammo_game })) := by
  intro fuel
  induction fuel with
  | zero =>
    intro t r h _ hf
    have := h.2.2.2.1
    omega
  | succ fuel ih =>
    intro t r h hj hf
    by_cases hr : r > 0
    · obtain ⟨hF, herr, hu, hstuck, hprog⟩ := Filling_pass s0 t r hcap hmaxS h hr
      by_cases hz : fillableBelow t 10 = 0
      · obtain ⟨e1, _⟩ := hstuck hz
        refine ⟨t, r, h, hj, rfl, Or.inr ⟨hr, hz, ?_⟩⟩
        have hu2 : (leftoverPass t r).2.2 ≠ 0 := by rw [hu]; simp [hz]
        simp only [leftoverLoop, hr, if_true, hu2, ne_eq, not_false_eq_true, e1]
      · have hlt := hprog hz
        obtain ⟨t', r', hF', hJ', herr', hres⟩ := ih (leftoverPass t r).1 (leftoverPass t r).2.1 hF
          (hJ t r h hj hr hz) (by omega)
        have hu2 : ¬ (leftoverPass t r).2.2 ≠ 0 := by rw [hu]; simp [hz]
        refine ⟨t', r', hF', hJ', by rw [herr', herr], ?_⟩
        simpa only [leftoverLoop, hr, if_true, hu2, if_false] using hres
    · have h0 : r = 0 := by
        have := h.2.2.2.1
        omega
      subst h0
      exact ⟨t, 0, h, hj, rfl, Or.inl ⟨rfl, by simp [leftoverLoop]⟩⟩


/-! ## Setup macro: `distribute_ammo` -/

/-- The base share and the remainder computed by `distribute_ammo` are the mathematical
quotient and remainder, and fit a `short`. -/
theorem share_eq (m : Int) (n : Nat) (hm0 : 0 ≤ m) (hm : m ≤ 32767) (hn : 0 < n) :
    wrap16 (Int.tdiv m (n : Int)) = m / (n : Int) ∧ wrap16 (Int.tmod m (n : Int)) = m % (n : Int) ∧
    0 ≤ m / (n : Int) ∧ 0 ≤ m % (n : Int) ∧ m % (n : Int) < n ∧
    m % (n : Int) + (m / (n : Int)) * (n : Int) = m := by
  have hn0 : (0 : Int) ≤ (n : Int) := by omega
  have hnpos : (0 : Int) < (n : Int) := by omega
  have h1 : Int.tdiv m (n : Int) = m / (n : Int) := Int.tdiv_eq_ediv hm0 hn0
  have h2 : Int.tmod m (n : Int) = m % (n : Int) := Int.tmod_eq_emod hm0 hn0
  have h3 : 0 ≤ m / (n : Int) := Int.ediv_nonneg hm0 hn0
  have h4 : m / (n : Int) ≤ m := Int.ediv_le_self _ hm0
  have h5 : 0 ≤ m % (n : Int) := Int.emod_nonneg _ (by omega)
  have h6 : m % (n : Int) < n := Int.emod_lt_of_pos _ hnpos
  have h7 : m % (n : Int) + (m / (n : Int)) * (n : Int) = m := by
    have := Int.emod_add_ediv m (n : Int)
    rw [mul_comm]; exact this
  have h8 : 0 ≤ m / (n : Int) * (n : Int) := Int.mul_nonneg h3 hn0
  refine ⟨?_, ?_, h3, h5, h6, h7⟩
  · rw [h1]; apply wrap16_id; unfold isShort; omega
  · rw [h2]; apply wrap16_id; unfold isShort; omega

/-- Result of `distribute_ammo` on a cleared allocation with a positive request and at least
one eligible machine. -/
theorem distribute_spec (s : State) (hwt : WellTyped s)
    (hzero : ∀ i, i < 10 → s.ammo_game i = 0) (hmax : 0 < s.maxShootableAmmo)
    (hN : 0 < eligibleBelow s 10) (fuel : Nat) (hfuel : s.maxShootableAmmo < fuel) :
    ∃ t, distribute_ammo fuel s = some t ∧ sameConfig s t ∧
      sum10 t.ammo_game = t.maxShootableAmmo ∧
      (∀ i, i < 10 → eligible s i → 0 ≤ t.ammo_game i ∧ t.ammo_game i ≤ s.ammo_machine i) ∧
      (∀ i, i < 10 → ¬ eligible s i → t.ammo_game i = 0) ∧
      ((capacityBelow s 10 < s.maxShootableAmmo ∧ t.maxShootableAmmo = capacityBelow s 10 ∧
          t.errorFlag = 3 ∧ ∀ i, i < 10 → eligible s i → t.ammo_game i = s.ammo_machine i) ∨
       (s.maxShootableAmmo ≤ capacityBelow s 10 ∧ t.maxShootableAmmo = s.maxShootableAmmo ∧
          t.errorFlag = (if hasShort s (s.maxShootableAmmo / (eligibleBelow s 10 : Int)) 10
            then 2 else s.errorFlag))) := by
  obtain ⟨harr, hmS, _⟩ := hwt
  have hcap : ∀ i, i < 10 → s.ammo_machine i ≤ 32767 := fun i hi => (harr i hi).2.1.2
  have hmS2 : s.maxShootableAmmo ≤ 32767 := hmS.2
  obtain ⟨e1, e2, hp0, hr0, _, hdiv⟩ :=
    share_eq s.maxShootableAmmo (eligibleBelow s 10) (le_of_lt hmax) hmS2 hN
  have hcnt := countMachines_eq s
  have hcond : ¬ (countMachines s = 0 ∨ s.maxShootableAmmo = 0) := by
    rw [hcnt]; omega
  have hprim := primaryDistribution_spec s (s.maxShootableAmmo / (eligibleBelow s 10 : Int))
    (s.maxShootableAmmo % (eligibleBelow s 10 : Int)) hp0 hr0 (by rw [hdiv]; exact hmS2) hzero
  obtain ⟨pcfg, pmax, perr, pg, pr, psum⟩ := hprim
  rw [hdiv] at psum
  have hF : Filling s (primaryDistribution (s.maxShootableAmmo / (eligibleBelow s 10 : Int))
      (s, s.maxShootableAmmo % (eligibleBelow s 10 : Int))).1
      (primaryDistribution (s.maxShootableAmmo / (eligibleBelow s 10 : Int))
      (s, s.maxShootableAmmo % (eligibleBelow s 10 : Int))).2 := by
    refine ⟨pcfg, pmax, psum, pr, ?_, ?_⟩
    · intro i hi e
      rw [pg i]
      have := e.2
      simp only [hi, e, and_self, if_true]
      omega
    · intro i hi e
      rw [pg i]
      simp [e, hzero i hi]
  have hsn := Filling_sum_nonneg _ _ _ hF
  obtain ⟨t, r, hFt, _, herr, hres⟩ := leftoverLoop_spec s hcap hmS2 (fun _ _ => True)
    (fun _ _ _ _ _ _ => trivial) fuel _ _ hF trivial (by omega)
  have hdist : distribute_ammo fuel s = leftoverLoop fuel
      (primaryDistribution (s.maxShootableAmmo / (eligibleBelow s 10 : Int))
        (s, s.maxShootableAmmo % (eligibleBelow s 10 : Int))).1
      (primaryDistribution (s.maxShootableAmmo / (eligibleBelow s 10 : Int))
        (s, s.maxShootableAmmo % (eligibleBelow s 10 : Int))).2 := by
    unfold distribute_ammo
    rw [if_neg hcond, hcnt, e1, e2]
  have hle := Filling_sum_le _ _ _ hFt
  have hnn := Filling_sum_nonneg _ _ _ hFt
  obtain ⟨tcfg, tmax, tsum, tr0, te, tn⟩ := hFt
  rcases hres with ⟨hr, hloop⟩ | ⟨hr, hz, hloop⟩
  · subst hr
    refine ⟨t, by rw [hdist]; exact hloop, tcfg, by rw [tmax]; omega, te, tn, Or.inr ⟨by omega, tmax, ?_⟩⟩
    rw [herr, perr]
  · have hno := fillableBelow_zero t 10 hz
    have hfull : ∀ i, i < 10 → eligible s i → t.ammo_game i = s.ammo_machine i := by
      intro i hi e
      have h1 := te i hi e
      have h2 := hno i hi
      unfold fillable at h2
      rw [tcfg.1, tcfg.2.1] at h2
      have h3 := e.1
      have : ¬ (s.ammo_machine i > t.ammo_game i) := fun h => h2 ⟨h3, h⟩
      omega
    have hsumC : sum10 t.ammo_game = capacityBelow s 10 := by
      rw [capacityBelow_eq_sumTo]
      apply sumTo_congr
      intro i hi
      by_cases e : eligible s i
      · simp [e, hfull i hi e]
      · simp [e, tn i hi e]
    have hgnn : ∀ i, i < 10 → 0 ≤ t.ammo_game i := by
      intro i hi
      by_cases e : eligible s i
      · exact (te i hi e).1
      · rw [tn i hi e]
    have hsd : sumDistributed t.ammo_game = sum10 t.ammo_game :=
      sumDistributed_eq _ hgnn (by omega)
    refine ⟨{ t with errorFlag := 3, maxShootableAmmo := sumDistributed t.ammo_game },
      by rw [hdist]; exact hloop, tcfg, ?_, te, tn, Or.inl ⟨by omega, ?_, rfl, hfull⟩⟩
    · exact hsd.symm
    · show sumDistributed t.ammo_game = _
      rw [hsd, hsumC]

/-- The degenerate return of `distribute_ammo`: only `errorFlag` changes. -/
theorem distribute_degenerate (s : State) (fuel : Nat)
    (h : eligibleBelow s 10 = 0 ∨ s.maxShootableAmmo = 0) :
    distribute_ammo fuel s = some { s with errorFlag := 3 } := by
  have hcnt := countMachines_eq s
  have hcond : countMachines s = 0 ∨ s.maxShootableAmmo = 0 := by
    rw [hcnt]; omega
  unfold distribute_ammo
  rw [if_pos hcond]


/-! ## Setup macro: the scans of `can_fire_x_times` -/

/-- The machines with stock among `0..j-1`, in index order. -/
theorem stockedBelow_succ (ammo : Arr) (j : Nat) :
    (List.range (j + 1)).filter (fun i => decide (ammo i > 0))
      = (List.range j).filter (fun i => decide (ammo i > 0))
        ++ (if ammo j > 0 then [j] else []) := by
  rw [List.range_succ, List.filter_append]
  by_cases h : ammo j > 0
  · simp [h]
  · simp [h]

theorem stockedBelow_lt (ammo : Arr) (j i : Nat)
    (h : i ∈ (List.range j).filter (fun i => decide (ammo i > 0))) : i < j ∧ ammo i > 0 := by
  simpa using h

theorem stockedBelow_append (ammo : Arr) (j n : Nat) (hjn : j ≤ n) :
    ∃ l, (List.range n).filter (fun i => decide (ammo i > 0))
      = (List.range j).filter (fun i => decide (ammo i > 0)) ++ l := by
  induction n with
  | zero =>
    have : j = 0 := by omega
    subst this
    exact ⟨[], by simp⟩
  | succ n ih =>
    by_cases e : j = n + 1
    · subst e; exact ⟨[], by simp⟩
    · obtain ⟨l, hl⟩ := ih (by omega)
      refine ⟨l ++ (if ammo n > 0 then [n] else []), ?_⟩
      rw [stockedBelow_succ, hl, List.append_assoc]

theorem stocked_mem (ammo : Arr) (n i : Nat) (h : i ∈ stocked ammo n) : i < 10 ∧ ammo i > 0 := by
  unfold stocked at h
  exact stockedBelow_lt ammo 10 i (List.mem_of_mem_take h)

theorem stocked_nodup (ammo : Arr) (n : Nat) : (stocked ammo n).Nodup := by
  unfold stocked
  exact ((List.nodup_range 10).filter _).sublist (List.take_sublist _ _)

theorem stocked_length_le (ammo : Arr) (n : Nat) : (stocked ammo n).length ≤ n := by
  unfold stocked
  simp

/-- Exact effect of one scan for a group: one bullet is taken from each of the
lowest-indexed machines with stock, up to the size of the group. -/
theorem takeBullets_spec (g : Int) (ammo : Arr) (hg0 : 0 ≤ g) (hg : g ≤ 32767)
    (hS : ∀ i, i < 10 → ammo i ≤ 32767) :
    (takeBullets g ammo).2 = ((stocked ammo g.toNat).length : Int) ∧
    (∀ i, (takeBullets g ammo).1 i = ammo i - (if i ∈ stocked ammo g.toNat then 1 else 0)) ∧
    sum10 (takeBullets g ammo).1 + (takeBullets g ammo).2 = sum10 ammo := by
  have key := forLoopWhile_inv (fun p : Arr × Int => decide (p.2 < g))
    (fun i p => if p.1 i > 0 then (setA p.1 i (wrap16 (p.1 i - 1)), wrap16 (p.2 + 1)) else p)
    (fun j p =>
      p.2 = (((List.range j).filter (fun i => decide (ammo i > 0))).length : Int) ∧ p.2 ≤ g ∧
      (∀ i, p.1 i = ammo i -
        (if i ∈ (List.range j).filter (fun i => decide (ammo i > 0)) then 1 else 0)) ∧
      sum10 p.1 + p.2 = sum10 ammo)
    10 0 (ammo, 0)
    (by
      refine ⟨by simp, hg0, ?_, by simp⟩
      intro i; simp)
    (by
      intro j p _ hj hP hc
      obtain ⟨hc1, _, ha, hsum⟩ := hP
      have hc2 : p.2 < g := by simpa using hc
      have hj10 : j < 10 := by omega
      have hnot : j ∉ (List.range j).filter (fun i => decide (ammo i > 0)) := by
        intro h; have := (stockedBelow_lt ammo j j h).1; omega
      have haj : p.1 j = ammo j := by rw [ha j]; simp [hnot]
      by_cases hpos : ammo j > 0
      · have hpos2 : p.1 j > 0 := by rw [haj]; exact hpos
        have hb := hS j hj10
        have hw1 : wrap16 (p.1 j - 1) = ammo j - 1 := by
          rw [haj]; apply wrap16_id; unfold isShort; omega
        have hw2 : wrap16 (p.2 + 1) = p.2 + 1 := by
          apply wrap16_id; unfold isShort; omega
        dsimp only
        rw [if_pos hpos2, hw1, hw2, stockedBelow_succ, if_pos hpos]
        refine ⟨?_, by omega, ?_, ?_⟩
        · rw [hc1]; simp
        · intro i
          by_cases e : i = j
          · subst e
            show setA p.1 i (ammo i - 1) i = _
            simp [setA_same]
          · show setA p.1 j (ammo j - 1) i = _
            rw [setA_other _ _ _ _ e, ha i]
            simp [e]
        · show sum10 (setA p.1 j (ammo j - 1)) + (p.2 + 1) = _
          rw [sum10_setA _ _ _ hj10, haj]
          omega
      · have hpos2 : ¬ p.1 j > 0 := by rw [haj]; exact hpos
        dsimp only
        rw [if_neg hpos2, stockedBelow_succ, if_neg hpos]
        simp only [List.append_nil]
        exact ⟨hc1, by omega, ha, hsum⟩)
  obtain ⟨j, _, hj10, ⟨hc1, hle, ha, hsum⟩, hend⟩ := key
  have hev : forLoopWhile (fun p : Arr × Int => decide (p.2 < g))
    (fun i p => if p.1 i > 0 then (setA p.1 i (wrap16 (p.1 i - 1)), wrap16 (p.2 + 1)) else p)
    10 0 (ammo, 0) = takeBullets g ammo := rfl
  rw [hev] at hc1 hle ha hsum hend
  have hst : stocked ammo g.toNat = (List.range j).filter (fun i => decide (ammo i > 0)) := by
    unfold stocked
    rcases hend with hend | hend
    · have : j = 10 := by omega
      subst this
      apply List.take_of_length_le
      omega
    · have hge : ¬ (takeBullets g ammo).2 < g := by simpa using hend
      obtain ⟨l, hl⟩ := stockedBelow_append ammo j 10 (by omega)
      rw [hl]
      have hlen : ((List.range j).filter (fun i => decide (ammo i > 0))).length = g.toNat := by
        omega
      rw [← hlen, List.take_left]
  rw [hst]
  exact ⟨hc1, ha, hsum⟩

theorem usage_nil (i : Nat) : usage [] i = 0 := rfl

theorem usage_cons (g : List Nat) (plan : List (List Nat)) (i : Nat) :
    usage (g :: plan) i = usage plan i + (if i ∈ g then 1 else 0) := by
  unfold usage
  by_cases h : i ∈ g
  · simp [List.filter_cons, h]
  · simp [List.filter_cons, h]

theorem usage_append (p q : List (List Nat)) (i : Nat) :
    usage (p ++ q) i = usage p i + usage q i := by
  unfold usage
  simp [List.filter_append]

/-- The copy loop copies the ten slots. -/
theorem copyAmmo_spec (s : State) :
    ∀ i, copyAmmo s i = if i < 10 then s.ammo_game i else 0 := by
  have key := forLoop_inv (fun i (a : Arr) => setA a i (s.ammo_game i))
    (fun j a => ∀ i, a i = if i < j then s.ammo_game i else 0) 10 0 (fun _ => 0)
    (by intro i; simp)
    (by
      intro j a _ _ hP i
      by_cases e : i = j
      · subst e; simp [setA_same]
      · have hiff : i < j + 1 ↔ i < j := by
          constructor <;> intro h <;> omega
        show setA a j (s.ammo_game j) i = _
        rw [setA_other _ _ _ _ e, hP i]
        simp only [hiff])
  simpa [copyAmmo] using key

theorem sum10_copyAmmo (s : State) : sum10 (copyAmmo s) = sum10 s.ammo_game := by
  apply sumTo_congr
  intro i hi
  rw [copyAmmo_spec]
  simp [hi]


/-! ## Setup macro: the two loops of `can_fire_x_times` -/

theorem wrap16_add_wrap16 (x y : Int) : wrap16 (wrap16 x + y) = wrap16 (x + y) := by
  unfold wrap16
  omega

/-- A completed run of one of the two `while` loops of `can_fire_x_times` yields the
groups it withdrew. -/
theorem fireLoop_sound (g quota : Int) (hg0 : 0 ≤ g) (hg : g ≤ 32767) (hq : quota ≤ 32767) :
    ∀ (fuel : Nat) (ammo : Arr) (used rem : Int) (a' : Arr) (u' r' : Int),
      (∀ i, i < 10 → ammo i ≤ 32767) → -32768 ≤ used →
      fireLoop g quota fuel ammo used rem = some (some (a', u', r')) →
      ∃ groups : List (List Nat),
        (groups.length : Int) = max 0 (quota - used) ∧
        (∀ x, x ∈ groups → validGroup g.toNat x) ∧
        (∀ i, a' i + usage groups i = ammo i) ∧
        (∀ i, 0 ≤ ammo i → 0 ≤ a' i) ∧
        sum10 a' + g * (groups.length : Int) = sum10 ammo ∧
        u' = max used quota ∧
        wrap16 r' = wrap16 (rem - g * (groups.length : Int)) := by
  intro fuel
  induction fuel with
  | zero =>
    intro ammo used rem a' u' r' _ _ h
    simp [fireLoop] at h
  | succ fuel ih =>
    intro ammo used rem a' u' r' hS hu h
    obtain ⟨tc, ta, tsum⟩ := takeBullets_spec g ammo hg0 hg hS
    by_cases hlt : used < quota
    · by_cases hc : (takeBullets g ammo).2 < g
      · simp [fireLoop, hlt, hc] at h
      · have hw : wrap16 (used + 1) = used + 1 := by
          apply wrap16_id; unfold isShort; omega
        have h2 : fireLoop g quota fuel (takeBullets g ammo).1 (used + 1) (wrap16 (rem - g))
            = some (some (a', u', r')) := by
          simpa [fireLoop, hlt, hc, hw] using h
        have hS2 : ∀ i, i < 10 → (takeBullets g ammo).1 i ≤ 32767 := by
          intro i hi
          rw [ta i]
          have := hS i hi
          split <;> omega
        obtain ⟨groups, hlen, hval, huse, hnn, hsum, hu', hr'⟩ :=
          ih (takeBullets g ammo).1 (used + 1) (wrap16 (rem - g)) a' u' r' hS2 (by omega) h2
        have hl := stocked_length_le ammo g.toNat
        have hcg : ((stocked ammo g.toNat).length : Int) = g := by omega
        refine ⟨stocked ammo g.toNat :: groups, ?_, ?_, ?_, ?_, ?_, by omega, ?_⟩
        · simp only [List.length_cons]
          push_cast
          omega
        · intro x hx
          rcases List.mem_cons.mp hx with e | hx
          · subst e
            exact ⟨by omega, stocked_nodup ammo _, fun i hi => (stocked_mem ammo _ i hi).1⟩
          · exact hval x hx
        · intro i
          have h1 := huse i
          rw [ta i] at h1
          rw [usage_cons]
          by_cases hm : i ∈ stocked ammo g.toNat
          · simp only [hm, if_true] at h1 ⊢
            push_cast
            omega
          · simp only [hm, if_false] at h1 ⊢
            push_cast
            omega
        · intro i hi
          apply hnn i
          rw [ta i]
          by_cases hm : i ∈ stocked ammo g.toNat
          · have := (stocked_mem ammo _ i hm).2
            simp [hm]; omega
          · simp [hm]; exact hi
        · simp only [List.length_cons]
          push_cast
          rw [tc, hcg] at tsum
          have e : g * ((groups.length : Int) + 1) = g * (groups.length : Int) + g := by ring
          rw [e]
          omega
        · simp only [List.length_cons]
          push_cast
          have e : g * ((groups.length : Int) + 1) = g * (groups.length : Int) + g := by ring
          rw [e, hr']
          have := wrap16_add_wrap16 (rem - g) (- (g * (groups.length : Int)))
          have e2 : wrap16 (rem - g) + -(g * (groups.length : Int))
              = wrap16 (rem - g) - g * (groups.length : Int) := by ring
          have e3 : rem - g + -(g * (groups.length : Int))
              = rem - (g * (groups.length : Int) + g) := by ring
          rw [e2, e3] at this
          exact this
    · have h2 : (ammo, used, rem) = (a', u', r') := by
        simpa [fireLoop, hlt] using h
      simp only [Prod.mk.injEq] at h2
      obtain ⟨e1, e2, e3⟩ := h2
      subst e1 e2 e3
      refine ⟨[], ?_, ?_, ?_, ?_, ?_, by omega, ?_⟩
      · simp; omega
      · intro x hx; simp at hx
      · intro i; simp [usage_nil]
      · intro i hi; exact hi
      · simp
      · simp

/-- With enough fuel the `while` loops of `can_fire_x_times` do not run out of it. -/
theorem fireLoop_terminates (g quota : Int) (hq : quota ≤ 32767) :
    ∀ (fuel : Nat) (ammo : Arr) (used rem : Int), -32768 ≤ used →
      max 0 (quota - used) < fuel → fireLoop g quota fuel ammo used rem ≠ none := by
  intro fuel
  induction fuel with
  | zero =>
    intro ammo used rem _ hf
    omega
  | succ fuel ih =>
    intro ammo used rem hu hf
    by_cases hlt : used < quota
    · by_cases hc : (takeBullets g ammo).2 < g
      · simp [fireLoop, hlt, hc]
      · have hw : wrap16 (used + 1) = used + 1 := by
          apply wrap16_id; unfold isShort; omega
        have := ih (takeBullets g ammo).1 (used + 1) (wrap16 (rem - g)) (by omega)
          (by push_cast at hf; omega)
        simpa [fireLoop, hlt, hc, hw] using this
    · simp [fireLoop, hlt]


/-! ## Setup macro: the allocation pass and the feasibility check -/

theorem eligible_congr (s t : State) (h : sameConfig s t) (i : Nat) :
    eligible t i ↔ eligible s i := by
  unfold eligible
  rw [h.1, h.2.1]

theorem hasShort_congr (s t : State) (h : sameConfig s t) (b : Int) (n : Nat) :
    hasShort t b n ↔ hasShort s b n := by
  unfold hasShort eligible
  rw [h.1, h.2.1]

theorem eligibleBelow_eq_zero (s : State) :
    ∀ n, (∀ i, i < n → ¬ eligible s i) → eligibleBelow s n = 0 := by
  intro n
  induction n with
  | zero => intro _; rfl
  | succ n ih =>
    intro h
    simp [eligibleBelow, ih (fun i hi => h i (by omega)), h n (by omega)]

/-- The degenerate return of the allocation pass: the allocation is cleared and only the
error flag changes. -/
theorem allocate_degenerate (s : State) (fuel : Nat)
    (h : eligibleBelow s 10 = 0 ∨ s.maxShootableAmmo = 0) :
    ∃ t, allocate fuel s = some t ∧ sameConfig s t ∧ (∀ i, i < 10 → t.ammo_game i = 0) ∧
      t.maxShootableAmmo = s.maxShootableAmmo ∧ t.errorFlag = 3 := by
  obtain ⟨rcfg, rmax, _, rg⟩ := reset_spec s
  have h2 : eligibleBelow (reset_selected_machines s) 10 = 0 ∨
      (reset_selected_machines s).maxShootableAmmo = 0 := by
    rw [eligibleBelow_congr s _ rcfg.1 rcfg.2.1, rmax]; exact h
  refine ⟨{ reset_selected_machines s with errorFlag := 3 },
    distribute_degenerate _ fuel h2, rcfg, ?_, rmax, rfl⟩
  intro i hi
  show (reset_selected_machines s).ammo_game i = 0
  rw [rg i]; simp [hi]

/-- Result of the allocation pass for a positive request and at least one eligible machine. -/
theorem allocate_spec (s : State) (hwt : WellTyped s) (hmax : 0 < s.maxShootableAmmo)
    (hN : 0 < eligibleBelow s 10) (fuel : Nat) (hfuel : s.maxShootableAmmo < fuel) :
    ∃ t, allocate fuel s = some t ∧ sameConfig s t ∧
      sum10 t.ammo_game = t.maxShootableAmmo ∧
      (∀ i, i < 10 → eligible s i → 0 ≤ t.ammo_game i ∧ t.ammo_game i ≤ s.ammo_machine i) ∧
      (∀ i, i < 10 → ¬ eligible s i → t.ammo_game i = 0) ∧
      ((capacityBelow s 10 < s.maxShootableAmmo ∧ t.maxShootableAmmo = capacityBelow s 10 ∧
          t.errorFlag = 3 ∧ ∀ i, i < 10 → eligible s i → t.ammo_game i = s.ammo_machine i) ∨
       (s.maxShootableAmmo ≤ capacityBelow s 10 ∧ t.maxShootableAmmo = s.maxShootableAmmo ∧
          t.errorFlag = (if hasShort s (s.maxShootableAmmo / (eligibleBelow s 10 : Int)) 10
            then 2 else s.errorFlag))) := by
  obtain ⟨rcfg, rmax, rerr, rg⟩ := reset_spec s
  have hEB := eligibleBelow_congr s _ rcfg.1 rcfg.2.1 10
  have hCB := capacityBelow_congr s _ rcfg.1 rcfg.2.1 10
  have hwt2 : WellTyped (reset_selected_machines s) := by
    obtain ⟨harr, h1, h2, h3, h4, h5⟩ := hwt
    refine ⟨?_, by rw [rmax]; exact h1, by rw [rcfg.2.2.1]; exact h2,
      by rw [rcfg.2.2.2.1]; exact h3, by rw [rcfg.2.2.2.2]; exact h4, by rw [rerr]; exact h5⟩
    intro i hi
    rw [rcfg.1, rcfg.2.1, rg i]
    refine ⟨(harr i hi).1, (harr i hi).2.1, ?_⟩
    simp [hi, isShort]
  obtain ⟨t, hd, tcfg, tsum, te, tn, tcase⟩ := distribute_spec (reset_selected_machines s) hwt2
    (by intro i hi; rw [rg i]; simp [hi]) (by rw [rmax]; exact hmax) (by rw [hEB]; exact hN)
    fuel (by rw [rmax]; exact hfuel)
  refine ⟨t, hd, sameConfig_trans _ _ _ rcfg tcfg, tsum, ?_, ?_, ?_⟩
  · intro i hi e
    have := te i hi ((eligible_congr s _ rcfg i).mpr e)
    rw [rcfg.2.1] at this
    exact this
  · intro i hi e
    exact tn i hi (fun h => e ((eligible_congr s _ rcfg i).mp h))
  · rw [hEB, hCB, rmax, rerr, rcfg.2.1] at tcase
    rcases tcase with ⟨h1, h2, h3, h4⟩ | ⟨h1, h2, h3⟩
    · exact Or.inl ⟨h1, h2, h3, fun i hi e => h4 i hi ((eligible_congr s _ rcfg i).mpr e)⟩
    · refine Or.inr ⟨h1, h2, ?_⟩
      rw [h3]
      simp only [hasShort_congr s _ rcfg]

/-- The feasibility check returns 0 or 1 and does not touch the globals, given enough fuel. -/
theorem can_fire_total (s : State) (x y z : Int) (fuel : Nat)
    (ht : s.tripleFire ≤ 32767) (hd : s.doubleFire ≤ 32767)
    (hf1 : max 0 s.tripleFire < fuel) (hf2 : max 0 s.doubleFire < fuel) :
    ∃ c, can_fire_x_times fuel x y z s = some (c, s) ∧ (c = 0 ∨ c = 1) := by
  have t1 := fireLoop_terminates 3 s.tripleFire ht fuel (copyAmmo s) 0 s.maxShootableAmmo
    (by omega) (by simpa using hf1)
  unfold can_fire_x_times
  cases h1 : fireLoop 3 s.tripleFire fuel (copyAmmo s) 0 s.maxShootableAmmo with
  | none => exact absurd h1 t1
  | some o1 =>
    cases o1 with
    | none => exact ⟨0, rfl, Or.inl rfl⟩
    | some v1 =>
      obtain ⟨a1, u1, r1⟩ := v1
      have t2 := fireLoop_terminates 2 s.doubleFire hd fuel a1 0 r1 (by omega) (by simpa using hf2)
      dsimp only
      cases h2 : fireLoop 2 s.doubleFire fuel a1 0 r1 with
      | none => exact absurd h2 t2
      | some o2 =>
        cases o2 with
        | none => exact ⟨0, rfl, Or.inl rfl⟩
        | some v2 =>
          obtain ⟨a2, u2, r2⟩ := v2
          dsimp only
          by_cases hc : r2 + u2 * 2 + u1 * 3 = s.maxShootableAmmo
          · exact ⟨1, by rw [if_pos hc], Or.inr rfl⟩
          · exact ⟨0, by rw [if_neg hc], Or.inl rfl⟩

/-- When the feasibility check returns 1, both of its loops ran to completion. -/
theorem can_fire_one (s s' : State) (x y z : Int) (fuel : Nat)
    (h : can_fire_x_times fuel x y z s = some (1, s')) :
    s' = s ∧ ∃ a1 u1 r1 a2 u2 r2,
      fireLoop 3 s.tripleFire fuel (copyAmmo s) 0 s.maxShootableAmmo = some (some (a1, u1, r1)) ∧
      fireLoop 2 s.doubleFire fuel a1 0 r1 = some (some (a2, u2, r2)) ∧
      r2 + u2 * 2 + u1 * 3 = s.maxShootableAmmo := by
  unfold can_fire_x_times at h
  cases h1 : fireLoop 3 s.tripleFire fuel (copyAmmo s) 0 s.maxShootableAmmo with
  | none => rw [h1] at h; simp at h
  | some o1 =>
    cases o1 with
    | none => rw [h1] at h; simp at h
    | some v1 =>
      obtain ⟨a1, u1, r1⟩ := v1
      rw [h1] at h
      dsimp only at h
      cases h2 : fireLoop 2 s.doubleFire fuel a1 0 r1 with
      | none => rw [h2] at h; simp at h
      | some o2 =>
        cases o2 with
        | none => rw [h2] at h; simp at h
        | some v2 =>
          obtain ⟨a2, u2, r2⟩ := v2
          rw [h2] at h
          dsimp only at h
          by_cases hc : r2 + u2 * 2 + u1 * 3 = s.maxShootableAmmo
          · rw [if_pos hc] at h
            simp only [Option.some.injEq, Prod.mk.injEq, true_and] at h
            exact ⟨h.symm, a1, u1, r1, a2, u2, r2, rfl, h2, hc⟩
          · rw [if_neg hc] at h
            simp at h


/-! ## Setup macro: conservation, capacity bound and error code -/

/-- C1 (conservation on every return path of `distribute_ammo`), evaluated on the degenerate
return: with no machine enabled and a request of 5, the allocation pass returns an all-zero
allocation (sum 0) and leaves `maxShootableAmmo` at 5, so the sum of the allocation differs
from the requested total on that return path. -/
theorem C1_degenerate_return_breaks_conservation :
    ∀ fuel : Nat, ∃ t, allocate fuel (mkState [] [5, 5, 5] [] 5 0 0 0) = some t ∧
      sum10 t.ammo_game = 0 ∧ t.maxShootableAmmo = 5 ∧ t.errorFlag = 3 ∧
      sum10 t.ammo_game ≠ t.maxShootableAmmo := by
  intro fuel
  obtain ⟨t, h, _, hg, hm, he⟩ :=
    allocate_degenerate (mkState [] [5, 5, 5] [] 5 0 0 0) fuel (Or.inl (by decide))
  have hs : sum10 t.ammo_game = 0 := sumTo_zero _ 10 hg
  refine ⟨t, h, hs, hm, he, ?_⟩
  rw [hs, hm]
  decide

/-- C2 (capacity bound): for 16-bit globals with non-negative capacities and a non-negative
request, the allocation pass returns, and every enabled machine is then allocated between 0
and its capacity. -/
theorem C2_capacity_bound (s : State) (hwt : WellTyped s)
    (hcap : ∀ i, i < 10 → 0 ≤ s.ammo_machine i) (hmax : 0 ≤ s.maxShootableAmmo)
    (fuel : Nat) (hfuel : s.maxShootableAmmo < fuel) :
    ∃ t, allocate fuel s = some t ∧ t.usableMachines = s.usableMachines ∧
      t.ammo_machine = s.ammo_machine ∧
      ∀ i, i < 10 → t.usableMachines i ≠ 0 →
        0 ≤ t.ammo_game i ∧ t.ammo_game i ≤ t.ammo_machine i := by
  by_cases hdeg : eligibleBelow s 10 = 0 ∨ s.maxShootableAmmo = 0
  · obtain ⟨t, h, tcfg, hg, _, _⟩ := allocate_degenerate s fuel hdeg
    refine ⟨t, h, tcfg.1, tcfg.2.1, ?_⟩
    intro i hi _
    rw [hg i hi, tcfg.2.1]
    exact ⟨le_refl _, hcap i hi⟩
  · obtain ⟨t, h, tcfg, _, te, tn, _⟩ :=
      allocate_spec s hwt (by omega) (by omega) fuel hfuel
    refine ⟨t, h, tcfg.1, tcfg.2.1, ?_⟩
    intro i hi _
    rw [tcfg.2.1]
    by_cases e : eligible s i
    · exact te i hi e
    · rw [tn i hi e]
      exact ⟨le_refl _, hcap i hi⟩

/-- C2 on capacities [1,5,5], three machines enabled, request 10. -/
theorem C2_capacity_bound_witness :
    ∃ t, allocate 11 (mkState [1, 1, 1] [1, 5, 5] [7, 7, 7, 7] 10 0 0 0) = some t ∧
      t.usableMachines = (mkState [1, 1, 1] [1, 5, 5] [7, 7, 7, 7] 10 0 0 0).usableMachines ∧
      t.ammo_machine = (mkState [1, 1, 1] [1, 5, 5] [7, 7, 7, 7] 10 0 0 0).ammo_machine ∧
      ∀ i, i < 10 → t.usableMachines i ≠ 0 →
        0 ≤ t.ammo_game i ∧ t.ammo_game i ≤ t.ammo_machine i :=
  C2_capacity_bound (mkState [1, 1, 1] [1, 5, 5] [7, 7, 7, 7] 10 0 0 0) (by decide) (by decide)
    (by decide) 11 (by decide)

/-- C3 (error code of the setup macro): for 16-bit globals and a non-negative request, with
`N` the number of eligible machines, `C` their summed capacity and `base = request / N`, the
setup `MacroEntry` returns and writes to LW300 the value 3 if `N = 0`, the request is 0 or
`C` is below the request; otherwise 2 if some eligible machine has a capacity below `base`;
otherwise 1 if `can_fire_x_times` returns 0 on the resulting allocation; otherwise 0. -/
theorem C3_error_code (s : State) (hwt : WellTyped s) (hmax : 0 ≤ s.maxShootableAmmo)
    (fuel : Nat) (hfuel : 32767 < fuel) :
    ∃ t c r, allocate fuel { s with errorFlag := 0 } = some t ∧
      can_fire_x_times fuel t.maxShootableAmmo t.doubleFire t.tripleFire t = some (c, t) ∧
      MacroEntry fuel s = some r ∧ r.lw100 = t.ammo_game ∧ r.lw110 = t.maxShootableAmmo ∧
      r.lw300 =
        (if eligibleBelow s 10 = 0 ∨ s.maxShootableAmmo = 0 ∨
            capacityBelow s 10 < s.maxShootableAmmo then 3
         else if hasShort s (s.maxShootableAmmo / (eligibleBelow s 10 : Int)) 10 then 2
         else if c = 0 then 1 else 0) := by
  have hcfg0 : sameConfig s { s with errorFlag := 0 } := ⟨rfl, rfl, rfl, rfl, rfl⟩
  have hEB := eligibleBelow_congr s _ hcfg0.1 hcfg0.2.1 10
  have hCB := capacityBelow_congr s _ hcfg0.1 hcfg0.2.1 10
  have hwt0 : WellTyped { s with errorFlag := 0 } := by
    obtain ⟨harr, h1, h2, h3, h4, _⟩ := hwt
    exact ⟨harr, h1, h2, h3, h4, by simp [isShort]⟩
  obtain ⟨_, hmS, hdS, htS, _, _⟩ := hwt
  have key : ∃ t, allocate fuel { s with errorFlag := 0 } = some t ∧
      sameConfig s t ∧
      t.errorFlag =
        (if eligibleBelow s 10 = 0 ∨ s.maxShootableAmmo = 0 ∨
            capacityBelow s 10 < s.maxShootableAmmo then 3
         else if hasShort s (s.maxShootableAmmo / (eligibleBelow s 10 : Int)) 10 then 2
         else 0) := by
    by_cases hdeg : eligibleBelow s 10 = 0 ∨ s.maxShootableAmmo = 0
    · obtain ⟨t, h, tcfg, _, _, he⟩ := allocate_degenerate { s with errorFlag := 0 } fuel
        (by rw [hEB]; exact hdeg)
      refine ⟨t, h, sameConfig_trans _ _ _ hcfg0 tcfg, ?_⟩
      have : eligibleBelow s 10 = 0 ∨ s.maxShootableAmmo = 0 ∨
          capacityBelow s 10 < s.maxShootableAmmo := by
        rcases hdeg with h | h
        · exact Or.inl h
        · exact Or.inr (Or.inl h)
      rw [he, if_pos this]
    · have hpos : 0 < s.maxShootableAmmo := by omega
      obtain ⟨t, h, tcfg, _, _, _, tcase⟩ := allocate_spec { s with errorFlag := 0 } hwt0
        hpos (by rw [hEB]; omega) fuel (by
          have := hmS.2
          show s.maxShootableAmmo < (fuel : Int)
          omega)
      refine ⟨t, h, sameConfig_trans _ _ _ hcfg0 tcfg, ?_⟩
      rw [hEB, hCB] at tcase
      simp only [hasShort_congr s _ hcfg0] at tcase
      rcases tcase with ⟨h1, _, h3, _⟩ | ⟨h1, _, h3⟩
      · rw [h3, if_pos (Or.inr (Or.inr h1))]
      · have hn : ¬ (eligibleBelow s 10 = 0 ∨ s.maxShootableAmmo = 0 ∨
            capacityBelow s 10 < s.maxShootableAmmo) := by
          intro h
          rcases h with h | h | h
          · exact hdeg (Or.inl h)
          · exact hdeg (Or.inr h)
          · have h1' : s.maxShootableAmmo ≤ capacityBelow s 10 := h1
            omega
        rw [h3, if_neg hn]
  obtain ⟨t, halloc, tcfg, terr⟩ := key
  have hdS2 := hdS.2
  have htS2 := htS.2
  obtain ⟨c, hc, hc01⟩ := can_fire_total t t.maxShootableAmmo t.doubleFire t.tripleFire fuel
    (by rw [tcfg.2.2.2.1]; exact htS2) (by rw [tcfg.2.2.1]; exact hdS2)
    (by rw [tcfg.2.2.2.1]; omega) (by rw [tcfg.2.2.1]; omega)
  by_cases he0 : t.errorFlag = 0
  · refine ⟨t, c, writeBack (floorDelay { t with errorFlag := if c = 0 then 1 else 0 }),
      halloc, hc, ?_, ?_, ?_, ?_⟩
    · unfold MacroEntry
      rw [halloc]
      dsimp only
      unfold checkFires
      rw [if_pos he0, hc]
    · unfold writeBack floorDelay
      dsimp only
      split <;> rfl
    · unfold writeBack floorDelay
      dsimp only
      split <;> rfl
    · have hl : (writeBack (floorDelay { t with errorFlag := if c = 0 then 1 else 0 })).lw300
          = (if c = 0 then 1 else 0) := by
        unfold writeBack floorDelay
        dsimp only
        split <;> rfl
      rw [hl]
      rw [he0] at terr
      by_cases c1 : eligibleBelow s 10 = 0 ∨ s.maxShootableAmmo = 0 ∨
          capacityBelow s 10 < s.maxShootableAmmo
      · rw [if_pos c1] at terr; omega
      · rw [if_neg c1] at terr ⊢
        by_cases c2 : hasShort s (s.maxShootableAmmo / (eligibleBelow s 10 : Int)) 10
        · rw [if_pos c2] at terr; omega
        · rw [if_neg c2]
  · refine ⟨t, c, writeBack (floorDelay t), halloc, hc, ?_, ?_, ?_, ?_⟩
    · unfold MacroEntry
      rw [halloc]
      dsimp only
      unfold checkFires
      rw [if_neg he0]
    · unfold writeBack floorDelay
      dsimp only
      split <;> rfl
    · unfold writeBack floorDelay
      dsimp only
      split <;> rfl
    · have hl : (writeBack (floorDelay t)).lw300 = t.errorFlag := by
        unfold writeBack floorDelay
        dsimp only
        split <;> rfl
      rw [hl, terr]
      rw [terr] at he0
      by_cases c1 : eligibleBelow s 10 = 0 ∨ s.maxShootableAmmo = 0 ∨
          capacityBelow s 10 < s.maxShootableAmmo
      · rw [if_pos c1, if_pos c1]
      · rw [if_neg c1] at he0
        rw [if_neg c1, if_neg c1]
        by_cases c2 : hasShort s (s.maxShootableAmmo / (eligibleBelow s 10 : Int)) 10
        · rw [if_pos c2, if_pos c2]
        · rw [if_neg c2] at he0
          exact absurd rfl he0


/-! ## Setup macro: feasibility, degenerate setup and clamp -/

/-- C3 on capacities [1,5,5], three machines enabled, request 10: allocation [1,5,4] and
error code 2. -/
theorem C3_error_code_witness :
    (∃ t c r, allocate 32768 { mkState [1, 1, 1] [1, 5, 5] [] 10 0 0 0 with errorFlag := 0 }
        = some t ∧
      can_fire_x_times 32768 t.maxShootableAmmo t.doubleFire t.tripleFire t = some (c, t) ∧
      MacroEntry 32768 (mkState [1, 1, 1] [1, 5, 5] [] 10 0 0 0) = some r ∧
      r.lw100 = t.ammo_game ∧ r.lw110 = t.maxShootableAmmo ∧
      r.lw300 =
        (if eligibleBelow (mkState [1, 1, 1] [1, 5, 5] [] 10 0 0 0) 10 = 0 ∨
            (mkState [1, 1, 1] [1, 5, 5] [] 10 0 0 0).maxShootableAmmo = 0 ∨
            capacityBelow (mkState [1, 1, 1] [1, 5, 5] [] 10 0 0 0) 10
              < (mkState [1, 1, 1] [1, 5, 5] [] 10 0 0 0).maxShootableAmmo then 3
         else if hasShort (mkState [1, 1, 1] [1, 5, 5] [] 10 0 0 0)
            ((mkState [1, 1, 1] [1, 5, 5] [] 10 0 0 0).maxShootableAmmo /
              (eligibleBelow (mkState [1, 1, 1] [1, 5, 5] [] 10 0 0 0) 10 : Int)) 10 then 2
         else if c = 0 then 1 else 0)) ∧
    (MacroEntry 32768 (mkState [1, 1, 1] [1, 5, 5] [] 10 0 0 0)).map
      (fun r => (toList10 r.lw100, r.lw110, r.lw300))
      = some ([1, 5, 4, 0, 0, 0, 0, 0, 0, 0], 10, 2) :=
  ⟨C3_error_code (mkState [1, 1, 1] [1, 5, 5] [] 10 0 0 0) (by decide) (by decide) 32768
    (by decide), by decide⟩

/-- C4 (completeness of the feasibility check), evaluated on a failing input: with the
allocation [1,1,2], two double fires and no triple fire, the plan that pairs machine 2 with
machine 0 and then with machine 1 withdraws both doubles, yet `can_fire_x_times` returns 0;
the setup macro reaches this allocation from capacities [1,1,2] and a request of 4, and
reports error 1. -/
theorem C4_feasible_quota_rejected :
    isPlan (mkState [1, 1, 1] [1, 1, 2] [1, 1, 2] 4 2 0 0).ammo_game 0 2 [] [[0, 2], [1, 2]] ∧
    sum10 (mkState [1, 1, 1] [1, 1, 2] [1, 1, 2] 4 2 0 0).ammo_game = 4 ∧
    (can_fire_x_times 32768 4 2 0 (mkState [1, 1, 1] [1, 1, 2] [1, 1, 2] 4 2 0 0)).map Prod.fst
      = some 0 ∧
    (MacroEntry 32768 (mkState [1, 1, 1] [1, 1, 2] [] 4 2 0 0)).map
      (fun r => (toList10 r.lw100, r.lw110, r.lw300))
      = some ([1, 1, 2, 0, 0, 0, 0, 0, 0, 0], 4, 1) := by
  refine ⟨by decide, by decide, by decide, by decide⟩

/-- The feasibility check hands back the globals it was given. -/
theorem can_fire_snd (s : State) (x y z : Int) (fuel : Nat) (r : Int × State)
    (h : can_fire_x_times fuel x y z s = some r) : r.2 = s := by
  unfold can_fire_x_times at h
  split at h
  · simp at h
  · simp only [Option.some.injEq] at h; rw [← h]
  · split at h
    · simp at h
    · simp only [Option.some.injEq] at h; rw [← h]
    · simp only [Option.some.injEq] at h; rw [← h]

theorem can_fire_of_fst (s : State) (x y z : Int) (fuel : Nat) (c : Int)
    (h : (can_fire_x_times fuel x y z s).map Prod.fst = some c) :
    can_fire_x_times fuel x y z s = some (c, s) := by
  cases hr : can_fire_x_times fuel x y z s with
  | none => rw [hr] at h; simp at h
  | some r =>
    rw [hr] at h
    have h2 := can_fire_snd s x y z fuel r hr
    simp only [Option.map_some', Option.some.injEq] at h
    obtain ⟨a, b⟩ := r
    simp only at h h2
    rw [h, h2]

/-- C5 (soundness of the feasibility check): for 16-bit globals with a non-negative
allocation and non-negative `doubleFire`, `tripleFire`, if `can_fire_x_times` returns 1 then
a withdrawal plan exists (`tripleFire` groups of three different machines, `doubleFire`
groups of two different machines, no machine giving more than its allocation), the quota
`3*tripleFire + 2*doubleFire` is at most the sum of the allocation, and the globals,
`ammo_game` included, are returned unchanged. -/
theorem C5_feasibility_sound (s s' : State) (hwt : WellTyped s)
    (hnn : ∀ i, i < 10 → 0 ≤ s.ammo_game i) (hd : 0 ≤ s.doubleFire) (ht : 0 ≤ s.tripleFire)
    (fuel : Nat) (x y z : Int) (h : can_fire_x_times fuel x y z s = some (1, s')) :
    Feasible s.ammo_game s.tripleFire.toNat s.doubleFire.toNat ∧
    3 * s.tripleFire + 2 * s.doubleFire ≤ sum10 s.ammo_game ∧
    s'.ammo_game = s.ammo_game ∧ s' = s := by
  obtain ⟨hs, a1, u1, r1, a2, u2, r2, h1, h2, _⟩ := can_fire_one s s' x y z fuel h
  obtain ⟨harr, _, hdS, htS, _, _⟩ := hwt
  have hc := copyAmmo_spec s
  have hS0 : ∀ i, i < 10 → copyAmmo s i ≤ 32767 := by
    intro i hi
    rw [hc i]
    simp only [hi, if_true]
    exact (harr i hi).2.2.2
  obtain ⟨ts, tlen, tval, tuse, tnn, tsum, _, _⟩ :=
    fireLoop_sound 3 s.tripleFire (by omega) (by omega) htS.2 fuel (copyAmmo s) 0
      s.maxShootableAmmo a1 u1 r1 hS0 (by omega) h1
  have hS1 : ∀ i, i < 10 → a1 i ≤ 32767 := by
    intro i hi
    have := tuse i
    have := hS0 i hi
    omega
  obtain ⟨ds, dlen, dval, duse, dnn, dsum, _, _⟩ :=
    fireLoop_sound 2 s.doubleFire (by omega) (by omega) hdS.2 fuel a1 0 r1 a2 u2 r2 hS1
      (by omega) h2
  have hnn0 : ∀ i, i < 10 → 0 ≤ copyAmmo s i := by
    intro i hi
    rw [hc i]
    simp only [hi, if_true]
    exact hnn i hi
  refine ⟨⟨ts, ds, by omega, by omega, tval, dval, ?_⟩, ?_, by rw [hs], hs⟩
  · intro i hi
    rw [usage_append]
    have e1 := tuse i
    have e2 := duse i
    have e3 := dnn i (tnn i (hnn0 i hi))
    have e4 := hc i
    simp only [hi, if_true] at e4
    push_cast
    omega
  · have e1 : sum10 a2 ≥ 0 :=
      sumTo_nonneg a2 10 (fun i hi => dnn i (tnn i (hnn0 i hi)))
    have e2 := sum10_copyAmmo s
    have e3 : (ts.length : Int) = s.tripleFire := by omega
    have e4 : (ds.length : Int) = s.doubleFire := by omega
    rw [e3] at tsum
    rw [e4] at dsum
    omega

/-- C5 on the allocation [2,2,2] with one triple and one double fire, where
`can_fire_x_times` returns 1. -/
theorem C5_feasibility_sound_witness :
    Feasible (mkState [1, 1, 1] [5, 5, 5] [2, 2, 2] 6 1 1 0).ammo_game
      (mkState [1, 1, 1] [5, 5, 5] [2, 2, 2] 6 1 1 0).tripleFire.toNat
      (mkState [1, 1, 1] [5, 5, 5] [2, 2, 2] 6 1 1 0).doubleFire.toNat ∧
    3 * (mkState [1, 1, 1] [5, 5, 5] [2, 2, 2] 6 1 1 0).tripleFire
      + 2 * (mkState [1, 1, 1] [5, 5, 5] [2, 2, 2] 6 1 1 0).doubleFire
      ≤ sum10 (mkState [1, 1, 1] [5, 5, 5] [2, 2, 2] 6 1 1 0).ammo_game ∧
    (mkState [1, 1, 1] [5, 5, 5] [2, 2, 2] 6 1 1 0).ammo_game
      = (mkState [1, 1, 1] [5, 5, 5] [2, 2, 2] 6 1 1 0).ammo_game ∧
    mkState [1, 1, 1] [5, 5, 5] [2, 2, 2] 6 1 1 0 = mkState [1, 1, 1] [5, 5, 5] [2, 2, 2] 6 1 1 0 :=
  C5_feasibility_sound (mkState [1, 1, 1] [5, 5, 5] [2, 2, 2] 6 1 1 0)
    (mkState [1, 1, 1] [5, 5, 5] [2, 2, 2] 6 1 1 0) (by decide) (by decide) (by decide)
    (by decide) 10 6 1 1 (can_fire_of_fst _ 6 1 1 10 1 (by decide))

/-- C6 (degenerate setup): when no machine is both enabled and of capacity above zero, or
the request is zero, the allocation pass returns an all-zero allocation with error flag 3,
and the setup `MacroEntry` writes back an all-zero allocation and error code 3. -/
theorem C6_degenerate_setup (s : State) (fuel : Nat)
    (h : (∀ i, i < 10 → ¬ eligible s i) ∨ s.maxShootableAmmo = 0) :
    (∃ t, allocate fuel s = some t ∧ (∀ i, i < 10 → t.ammo_game i = 0) ∧ t.errorFlag = 3) ∧
    ∃ r, MacroEntry fuel s = some r ∧ (∀ i, i < 10 → r.lw100 i = 0) ∧ r.lw300 = 3 := by
  have hdeg : eligibleBelow s 10 = 0 ∨ s.maxShootableAmmo = 0 := by
    rcases h with h | h
    · exact Or.inl (eligibleBelow_eq_zero s 10 h)
    · exact Or.inr h
  constructor
  · obtain ⟨t, ht, _, hg, _, he⟩ := allocate_degenerate s fuel hdeg
    exact ⟨t, ht, hg, he⟩
  · have hcfg0 : sameConfig s { s with errorFlag := 0 } := ⟨rfl, rfl, rfl, rfl, rfl⟩
    have hEB := eligibleBelow_congr s _ hcfg0.1 hcfg0.2.1 10
    obtain ⟨t, ht, _, hg, _, he⟩ := allocate_degenerate { s with errorFlag := 0 } fuel
      (by rw [hEB]; exact hdeg)
    have he0 : ¬ t.errorFlag = 0 := by rw [he]; decide
    refine ⟨writeBack (floorDelay t), ?_, ?_, ?_⟩
    · unfold MacroEntry
      rw [ht]
      dsimp only
      unfold checkFires
      rw [if_neg he0]
    · intro i hi
      have : (writeBack (floorDelay t)).lw100 = t.ammo_game := by
        unfold writeBack floorDelay
        dsimp only
        split <;> rfl
      rw [this]
      exact hg i hi
    · have : (writeBack (floorDelay t)).lw300 = t.errorFlag := by
        unfold writeBack floorDelay
        dsimp only
        split <;> rfl
      rw [this, he]

/-- C6 with no machine enabled and a request of 5. -/
theorem C6_degenerate_setup_witness :
    (∃ t, allocate 1 (mkState [] [5, 5, 5] [7, 7] 5 0 0 0) = some t ∧
      (∀ i, i < 10 → t.ammo_game i = 0) ∧ t.errorFlag = 3) ∧
    ∃ r, MacroEntry 1 (mkState [] [5, 5, 5] [7, 7] 5 0 0 0) = some r ∧
      (∀ i, i < 10 → r.lw100 i = 0) ∧ r.lw300 = 3 :=
  C6_degenerate_setup (mkState [] [5, 5, 5] [7, 7] 5 0 0 0) 1 (Or.inl (by decide))

/-- C7 (clamp of the requested total): for 16-bit globals with at least one eligible
machine and a positive request, the allocation pass returns with `maxShootableAmmo` equal to
the minimum of the request and the summed capacity of the eligible machines; when that
capacity is below the request, every eligible machine is allocated its full capacity. -/
theorem C7_clamp (s : State) (hwt : WellTyped s) (hN : ∃ i, i < 10 ∧ eligible s i)
    (hmax : 0 < s.maxShootableAmmo) (fuel : Nat) (hfuel : s.maxShootableAmmo < fuel) :
    ∃ t, allocate fuel s = some t ∧
      t.maxShootableAmmo = min s.maxShootableAmmo (capacityBelow s 10) ∧
      (capacityBelow s 10 < s.maxShootableAmmo →
        ∀ i, i < 10 → eligible s i → t.ammo_game i = s.ammo_machine i) := by
  obtain ⟨i0, hi0, he0⟩ := hN
  obtain ⟨t, h, _, _, _, _, tcase⟩ :=
    allocate_spec s hwt hmax (eligibleBelow_pos s 10 i0 hi0 he0) fuel hfuel
  refine ⟨t, h, ?_, ?_⟩
  · rcases tcase with ⟨h1, h2, _, _⟩ | ⟨h1, h2, _⟩
    · rw [h2]; omega
    · rw [h2]; omega
  · intro hlt
    rcases tcase with ⟨_, _, _, h4⟩ | ⟨h1, _, _⟩
    · exact h4
    · omega

/-- C7 on a request of 20 with eligible capacities 3 and 4. -/
theorem C7_clamp_witness :
    ∃ t, allocate 21 (mkState [1, 1, 0, 1] [3, 4, 9, 0] [] 20 0 0 0) = some t ∧
      t.maxShootableAmmo = min (mkState [1, 1, 0, 1] [3, 4, 9, 0] [] 20 0 0 0).maxShootableAmmo
        (capacityBelow (mkState [1, 1, 0, 1] [3, 4, 9, 0] [] 20 0 0 0) 10) ∧
      (capacityBelow (mkState [1, 1, 0, 1] [3, 4, 9, 0] [] 20 0 0 0) 10
          < (mkState [1, 1, 0, 1] [3, 4, 9, 0] [] 20 0 0 0).maxShootableAmmo →
        ∀ i, i < 10 → eligible (mkState [1, 1, 0, 1] [3, 4, 9, 0] [] 20 0 0 0) i →
          t.ammo_game i = (mkState [1, 1, 0, 1] [3, 4, 9, 0] [] 20 0 0 0).ammo_machine i) :=
  C7_clamp (mkState [1, 1, 0, 1] [3, 4, 9, 0] [] 20 0 0 0) (by decide) ⟨0, by decide, by decide⟩
    (by decide) 21 (by decide)


/-! ## Setup macro: the even split -/

theorem sumTo_eligible_const (s : State) (b : Int) :
    ∀ n, sumTo (fun i => if eligible s i then b else 0) n = b * (eligibleBelow s n : Int) := by
  intro n
  induction n with
  | zero => simp [sumTo, eligibleBelow]
  | succ n ih =>
    simp only [sumTo, eligibleBelow, ih]
    by_cases e : eligible s n
    · simp only [e, if_true]; push_cast; ring
    · simp only [e, if_false]; push_cast; ring

theorem fillableBelow_eq_eligibleBelow (t s : State) :
    ∀ n, (∀ i, i < n → (fillable t i ↔ eligible s i)) →
      fillableBelow t n = eligibleBelow s n := by
  intro n
  induction n with
  | zero => intro _; rfl
  | succ n ih =>
    intro h
    simp only [fillableBelow, eligibleBelow, ih (fun i hi => h i (by omega)), h n (by omega)]

/-- For a positive request and at least one eligible machine, `distribute_ammo` is the
leftover loop run on the result of the primary distribution. -/
theorem distribute_eq (s : State) (hmS : s.maxShootableAmmo ≤ 32767)
    (hmax : 0 < s.maxShootableAmmo) (hN : 0 < eligibleBelow s 10) (fuel : Nat) :
    distribute_ammo fuel s = leftoverLoop fuel
      (primaryDistribution (s.maxShootableAmmo / (eligibleBelow s 10 : Int))
        (s, s.maxShootableAmmo % (eligibleBelow s 10 : Int))).1
      (primaryDistribution (s.maxShootableAmmo / (eligibleBelow s 10 : Int))
        (s, s.maxShootableAmmo % (eligibleBelow s 10 : Int))).2 := by
  obtain ⟨e1, e2, _, _, _, _⟩ :=
    share_eq s.maxShootableAmmo (eligibleBelow s 10) (le_of_lt hmax) hmS hN
  have hcnt := countMachines_eq s
  have hcond : ¬ (countMachines s = 0 ∨ s.maxShootableAmmo = 0) := by
    rw [hcnt]; omega
  unfold distribute_ammo
  rw [if_neg hcond, hcnt, e1, e2]

/-- Even split on a cleared allocation when every eligible machine has room for one unit
above the base share. -/
theorem distribute_even (s : State) (hwt : WellTyped s)
    (hzero : ∀ i, i < 10 → s.ammo_game i = 0) (hmax : 0 < s.maxShootableAmmo)
    (hN : 0 < eligibleBelow s 10)
    (hroom : ∀ i, i < 10 → eligible s i →
      s.maxShootableAmmo / (eligibleBelow s 10 : Int) + 1 ≤ s.ammo_machine i)
    (fuel : Nat) (hfuel : s.maxShootableAmmo < fuel) :
    ∃ t, distribute_ammo fuel s = some t ∧
      (∀ i, i < 10 → t.ammo_game i =
        if eligible s i then
          (if (eligibleBelow s i : Int) < s.maxShootableAmmo % (eligibleBelow s 10 : Int)
            then s.maxShootableAmmo / (eligibleBelow s 10 : Int) + 1
            else s.maxShootableAmmo / (eligibleBelow s 10 : Int))
        else 0) ∧
      t.maxShootableAmmo = s.maxShootableAmmo ∧ t.errorFlag = s.errorFlag := by
  obtain ⟨harr, hmS, _⟩ := hwt
  have hmS2 : s.maxShootableAmmo ≤ 32767 := hmS.2
  obtain ⟨_, _, hp0, hr0, hrN, hdiv⟩ :=
    share_eq s.maxShootableAmmo (eligibleBelow s 10) (le_of_lt hmax) hmS2 hN
  have hprim := primaryDistribution_spec s (s.maxShootableAmmo / (eligibleBelow s 10 : Int))
    (s.maxShootableAmmo % (eligibleBelow s 10 : Int)) hp0 hr0 (by rw [hdiv]; exact hmS2) hzero
  rw [distribute_eq s hmS2 hmax hN fuel]
  generalize primaryDistribution (s.maxShootableAmmo / (eligibleBelow s 10 : Int))
    (s, s.maxShootableAmmo % (eligibleBelow s 10 : Int)) = p at hprim ⊢
  obtain ⟨pcfg, pmax, perr, pg, _, psum⟩ := hprim
  have hg1 : ∀ i, i < 10 → p.1.ammo_game i =
      if eligible s i then s.maxShootableAmmo / (eligibleBelow s 10 : Int) else 0 := by
    intro i hi
    rw [pg i]
    by_cases e : eligible s i
    · have := hroom i hi e
      simp only [hi, e, and_self, if_true]
      omega
    · simp [e, hzero i hi]
  have hsum1 : sum10 p.1.ammo_game
      = s.maxShootableAmmo / (eligibleBelow s 10 : Int) * (eligibleBelow s 10 : Int) := by
    rw [← sumTo_eligible_const s _ 10]
    exact sumTo_congr _ _ 10 hg1
  have hp2 : p.2 = s.maxShootableAmmo % (eligibleBelow s 10 : Int) := by
    rw [hsum1] at psum
    omega
  have hns : ¬ hasShort s (s.maxShootableAmmo / (eligibleBelow s 10 : Int)) 10 := by
    rintro ⟨i, hi, e, hlt⟩
    have := hroom i hi e
    omega
  rw [if_neg hns] at perr
  rw [hp2]
  by_cases hr : s.maxShootableAmmo % (eligibleBelow s 10 : Int) = 0
  · obtain ⟨k, rfl⟩ : ∃ k, fuel = k + 1 := ⟨fuel - 1, by omega⟩
    refine ⟨p.1, by simp [leftoverLoop, hr], ?_, pmax, perr⟩
    intro i hi
    rw [hg1 i hi, hr]
    have : ¬ ((eligibleBelow s i : Int) < 0) := by omega
    simp only [this, if_false]
  · have hrpos : 0 < s.maxShootableAmmo % (eligibleBelow s 10 : Int) := by omega
    have hN10 := eligibleBelow_le s 10
    obtain ⟨k, rfl⟩ : ∃ k, fuel = k + 2 := ⟨fuel - 2, by omega⟩
    have hfill : ∀ i, i < 10 → (fillable p.1 i ↔ eligible s i) := by
      intro i hi
      unfold fillable
      rw [pcfg.1, pcfg.2.1, hg1 i hi]
      constructor
      · intro h
        by_cases e : eligible s i
        · exact e
        · simp only [e, if_false] at h
          exact ⟨h.1, h.2⟩
      · intro e
        have := hroom i hi e
        simp only [e, if_true]
        exact ⟨e.1, by omega⟩
    have hFB : ∀ n, n ≤ 10 → fillableBelow p.1 n = eligibleBelow s n := fun n hn =>
      fillableBelow_eq_eligibleBelow p.1 s n (fun i hi => hfill i (by omega))
    obtain ⟨_, qmax, qerr, qg, qr, qu, _⟩ := leftoverPass_spec p.1
      (s.maxShootableAmmo % (eligibleBelow s 10 : Int)) hrpos (by omega)
      (by intro i hi; rw [pcfg.2.1]; exact (harr i hi).2.1.2)
      (by
        intro i hi
        rw [hg1 i hi]
        split <;> omega)
    rw [hFB 10 (le_refl _)] at qr qu
    have hq0 : (leftoverPass p.1 (s.maxShootableAmmo % (eligibleBelow s 10 : Int))).2.1 = 0 := by
      rw [qr]; omega
    have hu0 : ¬ (leftoverPass p.1 (s.maxShootableAmmo % (eligibleBelow s 10 : Int))).2.2 ≠ 0 := by
      rw [qu]
      have : eligibleBelow s 10 ≠ 0 := by omega
      simp [this]
    refine ⟨(leftoverPass p.1 (s.maxShootableAmmo % (eligibleBelow s 10 : Int))).1, ?_, ?_,
      by rw [qmax, pmax], by rw [qerr, perr]⟩
    · have h1 : leftoverLoop (k + 2) p.1 (s.maxShootableAmmo % (eligibleBelow s 10 : Int))
          = leftoverLoop (k + 1)
            (leftoverPass p.1 (s.maxShootableAmmo % (eligibleBelow s 10 : Int))).1
            (leftoverPass p.1 (s.maxShootableAmmo % (eligibleBelow s 10 : Int))).2.1 := by
        rw [leftoverLoop, if_pos hrpos, if_neg hu0]
      rw [h1, hq0]
      simp [leftoverLoop]
    · intro i hi
      rw [qg i, hg1 i hi, hFB i (by omega)]
      by_cases e : eligible s i
      · have hf := (hfill i hi).mpr e
        simp only [e, hi, hf, true_and, if_true]
        split <;> omega
      · have hf : ¬ fillable p.1 i := fun h => e ((hfill i hi).mp h)
        simp [e, hf]

/-- C8 (even split with the remainder to the first machines): for 16-bit globals with
`N >= 1` eligible machines, a positive request, `base = request / N` and
`r = request % N`, if every eligible machine has a capacity of at least `base + 1`, the
allocation pass returns; an eligible machine preceded by fewer than `r` eligible machines
holds `base + 1`, every other eligible machine holds `base`, every other machine holds 0,
and `maxShootableAmmo` and `errorFlag` are unchanged (so `errorFlag` stays 0 in the macro). -/
theorem C8_even_split (s : State) (hwt : WellTyped s) (hN : ∃ i, i < 10 ∧ eligible s i)
    (hmax : 0 < s.maxShootableAmmo)
    (hroom : ∀ i, i < 10 → eligible s i →
      s.maxShootableAmmo / (eligibleBelow s 10 : Int) + 1 ≤ s.ammo_machine i)
    (fuel : Nat) (hfuel : s.maxShootableAmmo < fuel) :
    ∃ t, allocate fuel s = some t ∧
      (∀ i, i < 10 → t.ammo_game i =
        if eligible s i then
          (if (eligibleBelow s i : Int) < s.maxShootableAmmo % (eligibleBelow s 10 : Int)
            then s.maxShootableAmmo / (eligibleBelow s 10 : Int) + 1
            else s.maxShootableAmmo / (eligibleBelow s 10 : Int))
        else 0) ∧
      t.maxShootableAmmo = s.maxShootableAmmo ∧ t.errorFlag = s.errorFlag := by
  obtain ⟨i0, hi0, he0⟩ := hN
  have hNpos := eligibleBelow_pos s 10 i0 hi0 he0
  obtain ⟨rcfg, rmax, rerr, rg⟩ := reset_spec s
  have hEB := eligibleBelow_congr s _ rcfg.1 rcfg.2.1
  have hwt2 : WellTyped (reset_selected_machines s) := by
    obtain ⟨harr, h1, h2, h3, h4, h5⟩ := hwt
    refine ⟨?_, by rw [rmax]; exact h1, by rw [rcfg.2.2.1]; exact h2,
      by rw [rcfg.2.2.2.1]; exact h3, by rw [rcfg.2.2.2.2]; exact h4, by rw [rerr]; exact h5⟩
    intro i hi
    rw [rcfg.1, rcfg.2.1, rg i]
    refine ⟨(harr i hi).1, (harr i hi).2.1, ?_⟩
    simp [hi, isShort]
  obtain ⟨t, hd, tg, tmax, terr⟩ := distribute_even (reset_selected_machines s) hwt2
    (by intro i hi; rw [rg i]; simp [hi]) (by rw [rmax]; exact hmax) (by rw [hEB]; exact hNpos)
    (by
      intro i hi e
      rw [hEB, rmax, rcfg.2.1]
      exact hroom i hi ((eligible_congr s _ rcfg i).mp e))
    fuel (by rw [rmax]; exact hfuel)
  refine ⟨t, hd, ?_, by rw [tmax, rmax], by rw [terr, rerr]⟩
  intro i hi
  rw [tg i hi, hEB, hEB, rmax]
  simp only [eligible_congr s _ rcfg i]

/-- C8 on capacities [5,5,5], three machines enabled, request 10: allocation [4,3,3]. -/
theorem C8_even_split_witness :
    (∃ t, allocate 11 (mkState [1, 1, 1] [5, 5, 5] [] 10 0 0 0) = some t ∧
      (∀ i, i < 10 → t.ammo_game i =
        if eligible (mkState [1, 1, 1] [5, 5, 5] [] 10 0 0 0) i then
          (if (eligibleBelow (mkState [1, 1, 1] [5, 5, 5] [] 10 0 0 0) i : Int)
              < (mkState [1, 1, 1] [5, 5, 5] [] 10 0 0 0).maxShootableAmmo
                % (eligibleBelow (mkState [1, 1, 1] [5, 5, 5] [] 10 0 0 0) 10 : Int)
            then (mkState [1, 1, 1] [5, 5, 5] [] 10 0 0 0).maxShootableAmmo
                / (eligibleBelow (mkState [1, 1, 1] [5, 5, 5] [] 10 0 0 0) 10 : Int) + 1
            else (mkState [1, 1, 1] [5, 5, 5] [] 10 0 0 0).maxShootableAmmo
                / (eligibleBelow (mkState [1, 1, 1] [5, 5, 5] [] 10 0 0 0) 10 : Int))
        else 0) ∧
      t.maxShootableAmmo = (mkState [1, 1, 1] [5, 5, 5] [] 10 0 0 0).maxShootableAmmo ∧
      t.errorFlag = (mkState [1, 1, 1] [5, 5, 5] [] 10 0 0 0).errorFlag) ∧
    (allocate 11 (mkState [1, 1, 1] [5, 5, 5] [] 10 0 0 0)).map
      (fun t => (toList10 t.ammo_game, t.maxShootableAmmo, t.errorFlag))
      = some ([4, 3, 3, 0, 0, 0, 0, 0, 0, 0], 10, 0) :=
  ⟨C8_even_split (mkState [1, 1, 1] [5, 5, 5] [] 10 0 0 0) (by decide)
    ⟨0, by decide, by decide⟩ (by decide) (by decide) 11 (by decide), by decide⟩


/-! ## Setup macro: termination on every 16-bit input and the delay floor -/

/-- The primary distribution only writes `ammo_game` and `errorFlag`, and keeps the
allocation and `remainingAmmo` inside the 16-bit range. -/
theorem primaryDistribution_frame (s : State) (per r0 : Int) (hper : -32768 ≤ per)
    (hr0 : r0 ≤ 32767) (hg : ∀ i, i < 10 → -32768 ≤ s.ammo_game i)
    (hm : ∀ i, i < 10 → -32768 ≤ s.ammo_machine i) :
    sameConfig s (primaryDistribution per (s, r0)).1 ∧
    (∀ i, i < 10 → -32768 ≤ (primaryDistribution per (s, r0)).1.ammo_game i) ∧
    (primaryDistribution per (s, r0)).2 ≤ 32767 := by
  have key := forLoop_inv
    (fun i (p : State × Int) =>
      if p.1.usableMachines i ≠ 0 ∧ p.1.ammo_machine i > 0 then
        if p.1.ammo_machine i ≥ per then
          ({ p.1 with ammo_game := setA p.1.ammo_game i per }, p.2)
        else
          ({ p.1 with ammo_game := setA p.1.ammo_game i (p.1.ammo_machine i), errorFlag := 2 },
            wrap16 (p.2 + (per - p.1.ammo_machine i)))
      else p)
    (fun _ p => sameConfig s p.1 ∧ (∀ i, i < 10 → -32768 ≤ p.1.ammo_game i) ∧ p.2 ≤ 32767)
    10 0 (s, r0) ⟨sameConfig_refl s, hg, hr0⟩
    (by
      intro j p _ _ hP
      obtain ⟨hcfg, hgp, hrp⟩ := hP
      dsimp only
      split
      · split
        · refine ⟨hcfg, ?_, hrp⟩
          intro i hi
          show -32768 ≤ setA p.1.ammo_game j per i
          by_cases e : i = j
          · subst e; rw [setA_same]; exact hper
          · rw [setA_other _ _ _ _ e]; exact hgp i hi
        · refine ⟨hcfg, ?_, ?_⟩
          · intro i hi
            show -32768 ≤ setA p.1.ammo_game j (p.1.ammo_machine j) i
            by_cases e : i = j
            · subst e; rw [setA_same, hcfg.2.1]; exact hm i hi
            · rw [setA_other _ _ _ _ e]; exact hgp i hi
          · show wrap16 (p.2 + (per - p.1.ammo_machine j)) ≤ 32767
            exact (wrap16_isShort _).2
      · exact ⟨hcfg, hgp, hrp⟩)
  simpa [primaryDistribution] using key

/-- The leftover loop returns on every 16-bit input, given fuel above `remainingAmmo`. -/
theorem leftoverLoop_total (s : State) (hcap : ∀ i, i < 10 → s.ammo_machine i ≤ 32767) :
    ∀ (fuel : Nat) (t : State) (rem : Int), sameConfig s t →
      (∀ i, i < 10 → -32768 ≤ t.ammo_game i) → rem ≤ 32767 → max 0 rem < fuel →
      ∃ t', leftoverLoop fuel t rem = some t' ∧ sameConfig s t' := by
  intro fuel
  induction fuel with
  | zero =>
    intro t rem _ _ _ hf
    omega
  | succ fuel ih =>
    intro t rem hcfg hg hrS hf
    by_cases hr : rem > 0
    · obtain ⟨qcfg, _, _, qg, qr, qu, _⟩ := leftoverPass_spec t rem hr hrS
        (by intro i hi; rw [hcfg.2.1]; exact hcap i hi) hg
      by_cases hz : fillableBelow t 10 = 0
      · have hu2 : (leftoverPass t rem).2.2 ≠ 0 := by rw [qu]; simp [hz]
        refine ⟨{ (leftoverPass t rem).1 with
            errorFlag := 3
            maxShootableAmmo := sumDistributed (leftoverPass t rem).1.ammo_game },
          by simp only [leftoverLoop, hr, if_true, hu2, ne_eq, not_false_eq_true], ?_⟩
        exact sameConfig_trans _ _ _ hcfg qcfg
      · have hu2 : ¬ (leftoverPass t rem).2.2 ≠ 0 := by rw [qu]; simp [hz]
        have hlt : (leftoverPass t rem).2.1 < rem := by
          rw [qr]
          have : 0 < fillableBelow t 10 := by omega
          omega
        obtain ⟨t', ht', hcfg'⟩ := ih (leftoverPass t rem).1 (leftoverPass t rem).2.1
          (sameConfig_trans _ _ _ hcfg qcfg)
          (by
            intro i hi
            rw [qg i]
            have := hg i hi
            split <;> omega)
          (by omega) (by omega)
        exact ⟨t', by simpa only [leftoverLoop, hr, if_true, hu2, if_false] using ht', hcfg'⟩
    · exact ⟨t, by simp [leftoverLoop, hr], hcfg⟩

/-- The allocation pass returns on every 16-bit input, given fuel above 32767, and leaves
the globals it only reads untouched. -/
theorem allocate_total (s : State) (hwt : WellTyped s) (fuel : Nat) (hfuel : 32767 < fuel) :
    ∃ t, allocate fuel s = some t ∧ sameConfig s t := by
  obtain ⟨rcfg, _, _, rg⟩ := reset_spec s
  obtain ⟨harr, _⟩ := hwt
  unfold allocate distribute_ammo
  split
  · exact ⟨_, rfl, rcfg⟩
  · obtain ⟨pcfg, pg, pr⟩ := primaryDistribution_frame (reset_selected_machines s)
      (wrap16 (Int.tdiv (reset_selected_machines s).maxShootableAmmo
        (countMachines (reset_selected_machines s))))
      (wrap16 (Int.tmod (reset_selected_machines s).maxShootableAmmo
        (countMachines (reset_selected_machines s))))
      (wrap16_isShort _).1 (wrap16_isShort _).2
      (by intro i hi; rw [rg i]; simp [hi])
      (by intro i hi; rw [rcfg.2.1]; exact (harr i hi).2.1.1)
    obtain ⟨t', ht', hcfg'⟩ := leftoverLoop_total (reset_selected_machines s)
      (by intro i hi; rw [rcfg.2.1]; exact (harr i hi).2.1.2) fuel _ _ pcfg pg pr
      (by omega)
    exact ⟨t', ht', sameConfig_trans _ _ _ rcfg hcfg'⟩

/-- C16 (delay floor): for 16-bit inputs and fuel above 32767, the setup `MacroEntry`
returns whatever the allocation and its error code are, and writes `max(delay, 4)` both to
LW113 (the configured delay) and to LW1000 (the initial `remainingDelay`). -/
theorem C16_delay_floor (s : State) (hwt : WellTyped s) (fuel : Nat) (hfuel : 32767 < fuel) :
    ∃ r, MacroEntry fuel s = some r ∧ r.lw113 = max s.delay 4 ∧ r.lw1000 = max s.delay 4 := by
  have hwt0 : WellTyped { s with errorFlag := 0 } := by
    obtain ⟨harr, h1, h2, h3, h4, _⟩ := hwt
    exact ⟨harr, h1, h2, h3, h4, by simp [isShort]⟩
  obtain ⟨_, _, hdS, htS, _, _⟩ := hwt
  obtain ⟨t, ht, tcfg⟩ := allocate_total { s with errorFlag := 0 } hwt0 fuel hfuel
  have td : t.delay = s.delay := tcfg.2.2.2.2
  have hchk : ∃ u, checkFires fuel t = some u ∧ u.delay = s.delay := by
    unfold checkFires
    split
    · have hdS2 := hdS.2
      have htS2 := htS.2
      have e1 : t.doubleFire = s.doubleFire := tcfg.2.2.1
      have e2 : t.tripleFire = s.tripleFire := tcfg.2.2.2.1
      obtain ⟨c, hc, _⟩ := can_fire_total t t.maxShootableAmmo t.doubleFire t.tripleFire fuel
        (by rw [e2]; exact htS2) (by rw [e1]; exact hdS2) (by rw [e2]; omega) (by rw [e1]; omega)
      rw [hc]
      exact ⟨_, rfl, td⟩
    · exact ⟨t, rfl, td⟩
  obtain ⟨u, hu, ud⟩ := hchk
  refine ⟨writeBack (floorDelay u), ?_, ?_, ?_⟩
  · unfold MacroEntry
    rw [ht]
    dsimp only
    rw [hu]
  · unfold writeBack floorDelay
    dsimp only
    split
    · show (4 : Int) = max s.delay 4
      omega
    · show u.delay = max s.delay 4
      omega
  · unfold writeBack floorDelay
    dsimp only
    split
    · show (4 : Int) = max s.delay 4
      omega
    · show u.delay = max s.delay 4
      omega

/-- C16 on a negative request with delay 2 and on a failing allocation with delay 9. -/
theorem C16_delay_floor_witness :
    (∃ r, MacroEntry 32768 (mkState [1, 1] [3, 4] [] (-7) 0 0 2) = some r ∧
      r.lw113 = max (mkState [1, 1] [3, 4] [] (-7) 0 0 2).delay 4 ∧
      r.lw1000 = max (mkState [1, 1] [3, 4] [] (-7) 0 0 2).delay 4) ∧
    (MacroEntry 32768 (mkState [1, 1] [3, 4] [] (-7) 0 0 2)).map
      (fun r => (r.lw113, r.lw1000, r.lw300)) = some (4, 4, 0) ∧
    (MacroEntry 32768 (mkState [] [3, 4] [] 5 0 0 9)).map
      (fun r => (r.lw113, r.lw1000, r.lw300)) = some (9, 9, 3) :=
  ⟨C16_delay_floor (mkState [1, 1] [3, 4] [] (-7) 0 0 2) (by decide) 32768 (by decide),
    by decide, by decide⟩


/-! ## Setup macro: `can_fire_x_times` against the greedy simulation -/

theorem stocked_congr (a b : Arr) (n : Nat) (h : ∀ i, i < 10 → a i = b i) :
    stocked a n = stocked b n := by
  unfold stocked
  congr 1
  apply List.filter_congr
  intro i hi
  rw [h i (List.mem_range.mp hi)]

/-- The greedy withdrawal only looks at the ten slots. -/
theorem greedyWithdraw_congr (g : Nat) :
    ∀ (n : Nat) (a b : Arr), (∀ i, i < 10 → a i = b i) →
      ((greedyWithdraw g n a).isSome = (greedyWithdraw g n b).isSome) ∧
      ∀ a' b', greedyWithdraw g n a = some a' → greedyWithdraw g n b = some b' →
        ∀ i, i < 10 → a' i = b' i := by
  intro n
  induction n with
  | zero =>
    intro a b h
    refine ⟨rfl, ?_⟩
    intro a' b' ha hb
    simp only [greedyWithdraw, Option.some.injEq] at ha hb
    rw [← ha, ← hb]
    exact h
  | succ n ih =>
    intro a b h
    have hst := stocked_congr a b g h
    simp only [greedyWithdraw, hst]
    by_cases hc : (stocked b g).length < g
    · simp [hc]
    · simp only [hc, if_false]
      exact ih _ _ (by
        intro i hi
        rw [h i hi])

/-- A `while` loop of `can_fire_x_times` computes the greedy withdrawal of the groups that
are left to take. -/
theorem fireLoop_greedy (g quota : Int) (hg0 : 0 ≤ g) (hg : g ≤ 32767) (hq : quota ≤ 32767) :
    ∀ (fuel : Nat) (ammo : Arr) (used rem : Int),
      (∀ i, i < 10 → ammo i ≤ 32767) → -32768 ≤ used → isShort rem →
      max 0 (quota - used) < fuel →
      fireLoop g quota fuel ammo used rem =
        (match greedyWithdraw g.toNat (quota - used).toNat ammo with
          | none => some none
          | some a' => some (some (a', max used quota,
              wrap16 (rem - g * ((quota - used).toNat : Int))))) := by
  intro fuel
  induction fuel with
  | zero => intro ammo used rem _ _ _ hf; omega
  | succ fuel ih =>
    intro ammo used rem hS hu hrem hf
    obtain ⟨tc, ta, _⟩ := takeBullets_spec g ammo hg0 hg hS
    by_cases hlt : used < quota
    · have hn : (quota - used).toNat = (quota - (used + 1)).toNat + 1 := by omega
      have hta : (takeBullets g ammo).1
          = fun i => ammo i - (if i ∈ stocked ammo g.toNat then 1 else 0) := funext ta
      rw [hn]
      simp only [greedyWithdraw]
      by_cases hc : (takeBullets g ammo).2 < g
      · have hc2 : (stocked ammo g.toNat).length < g.toNat := by omega
        simp only [fireLoop, hlt, if_true, hc, hc2]
      · have hc2 : ¬ (stocked ammo g.toNat).length < g.toNat := by omega
        have hw : wrap16 (used + 1) = used + 1 := by
          apply wrap16_id; unfold isShort; omega
        simp only [fireLoop, hlt, if_true, hc, hc2, if_false, hw]
        have hS2 : ∀ i, i < 10 → (takeBullets g ammo).1 i ≤ 32767 := by
          intro i hi
          rw [ta i]
          have := hS i hi
          split <;> omega
        rw [ih (takeBullets g ammo).1 (used + 1) (wrap16 (rem - g)) hS2 (by omega)
          (wrap16_isShort _) (by push_cast at hf; omega), hta]
        have hmx : max (used + 1) quota = max used quota := by omega
        have hwr : wrap16 (wrap16 (rem - g) - g * ((quota - (used + 1)).toNat : Int))
            = wrap16 (rem - g * (((quota - (used + 1)).toNat + 1 : Nat) : Int)) := by
          have e1 := wrap16_add_wrap16 (rem - g) (- (g * ((quota - (used + 1)).toNat : Int)))
          have e2 : wrap16 (rem - g) + -(g * ((quota - (used + 1)).toNat : Int))
              = wrap16 (rem - g) - g * ((quota - (used + 1)).toNat : Int) := by ring
          have e3 : rem - g + -(g * ((quota - (used + 1)).toNat : Int))
              = rem - g * (((quota - (used + 1)).toNat + 1 : Nat) : Int) := by
            push_cast; ring
          rw [e2, e3] at e1
          exact e1
        rw [hmx, hwr]
    · have hn : (quota - used).toNat = 0 := by omega
      rw [hn]
      simp only [greedyWithdraw, fireLoop, hlt, if_false]
      have hmx : max used quota = used := by omega
      have hwr : wrap16 (rem - g * ((0 : Nat) : Int)) = rem := by
        simp only [Nat.cast_zero, mul_zero, sub_zero]
        exact wrap16_id rem hrem
      rw [hmx, hwr]

/-- C17 (the consistency check of the feasibility simulation never fails): for 16-bit
globals with a non-negative allocation of total at most 32767, `maxShootableAmmo >= 0`,
non-negative `doubleFire` and `tripleFire` and fuel above both, `can_fire_x_times` returns
0 or 1, and returns 1 iff the greedy simulation of the specification completes every group
(all the triples, then all the doubles, each group taking one bullet from each of the
lowest-indexed machines that still have stock); and whenever both loops complete, the
final test `remaining_ammo + 2*used_double + 3*used_triple == maxShootableAmmo` is true. -/
theorem C17_consistency_check (s : State) (hwt : WellTyped s)
    (hnn : ∀ i, i < 10 → 0 ≤ s.ammo_game i) (htot : sum10 s.ammo_game ≤ 32767)
    (hmax : 0 ≤ s.maxShootableAmmo) (hd : 0 ≤ s.doubleFire) (ht : 0 ≤ s.tripleFire)
    (fuel : Nat) (hf1 : s.tripleFire < fuel) (hf2 : s.doubleFire < fuel) (x y z : Int) :
    (∃ c, can_fire_x_times fuel x y z s = some (c, s) ∧ (c = 0 ∨ c = 1) ∧
      (c = 1 ↔ greedyCompletes s.ammo_game s.tripleFire.toNat s.doubleFire.toNat = true)) ∧
    (∀ a1 u1 r1 a2 u2 r2,
      fireLoop 3 s.tripleFire fuel (copyAmmo s) 0 s.maxShootableAmmo = some (some (a1, u1, r1)) →
      fireLoop 2 s.doubleFire fuel a1 0 r1 = some (some (a2, u2, r2)) →
      r2 + u2 * 2 + u1 * 3 = s.maxShootableAmmo) := by
  obtain ⟨harr, hmS, hdS, htS, _, _⟩ := hwt
  have hc := copyAmmo_spec s
  have hagree : ∀ i, i < 10 → copyAmmo s i = s.ammo_game i := by
    intro i hi
    rw [hc i]; simp [hi]
  have hS0 : ∀ i, i < 10 → copyAmmo s i ≤ 32767 := by
    intro i hi
    rw [hagree i hi]
    exact (harr i hi).2.2.2
  have hnn0 : ∀ i, i < 10 → 0 ≤ copyAmmo s i := by
    intro i hi
    rw [hagree i hi]
    exact hnn i hi
  have hsum0 := sum10_copyAmmo s
  have hT : ((s.tripleFire - 0).toNat : Int) = s.tripleFire := by omega
  have hD : ((s.doubleFire - 0).toNat : Int) = s.doubleFire := by omega
  have hTn : (s.tripleFire - 0).toNat = s.tripleFire.toNat := by simp
  have hDn : (s.doubleFire - 0).toNat = s.doubleFire.toNat := by simp
  have g1 := fireLoop_greedy 3 s.tripleFire (by omega) (by omega) htS.2 fuel (copyAmmo s) 0
    s.maxShootableAmmo hS0 (by omega) hmS (by omega)
  rw [hT, hTn] at g1
  have i3 : ((3 : Int)).toNat = 3 := rfl
  have i2 : ((2 : Int)).toNat = 2 := rfl
  rw [i3] at g1
  obtain ⟨c3some, c3rel⟩ := greedyWithdraw_congr 3 s.tripleFire.toNat (copyAmmo s) s.ammo_game
    hagree
  -- the facts shared by both parts, once the two loops have completed
  have hfinal : ∀ a1 u1 r1 a2 u2 r2,
      fireLoop 3 s.tripleFire fuel (copyAmmo s) 0 s.maxShootableAmmo = some (some (a1, u1, r1)) →
      fireLoop 2 s.doubleFire fuel a1 0 r1 = some (some (a2, u2, r2)) →
      r2 + u2 * 2 + u1 * 3 = s.maxShootableAmmo := by
    intro a1 u1 r1 a2 u2 r2 h1 h2
    obtain ⟨ts, tlen, _, tuse, tnn, tsum, tu, _⟩ :=
      fireLoop_sound 3 s.tripleFire (by omega) (by omega) htS.2 fuel (copyAmmo s) 0
        s.maxShootableAmmo a1 u1 r1 hS0 (by omega) h1
    have hS1 : ∀ i, i < 10 → a1 i ≤ 32767 := by
      intro i hi
      have := tuse i
      have := hS0 i hi
      omega
    obtain ⟨ds, dlen, _, _, dnn, dsum, du, _⟩ :=
      fireLoop_sound 2 s.doubleFire (by omega) (by omega) hdS.2 fuel a1 0 r1 a2 u2 r2 hS1
        (by omega) h2
    have e1 : sum10 a2 ≥ 0 :=
      sumTo_nonneg a2 10 (fun i hi => dnn i (tnn i (hnn0 i hi)))
    have e3 : (ts.length : Int) = s.tripleFire := by omega
    have e4 : (ds.length : Int) = s.doubleFire := by omega
    rw [e3] at tsum
    rw [e4] at dsum
    -- exact values of the counters from the greedy form of the loops
    rw [g1] at h1
    cases hgw : greedyWithdraw 3 s.tripleFire.toNat (copyAmmo s) with
    | none => rw [hgw] at h1; simp at h1
    | some b1 =>
      rw [hgw] at h1
      simp only [Option.some.injEq, Prod.mk.injEq] at h1
      obtain ⟨hb1, hu1, hr1⟩ := h1
      have hr1S : isShort r1 := by rw [← hr1]; exact wrap16_isShort _
      have g2 := fireLoop_greedy 2 s.doubleFire (by omega) (by omega) hdS.2 fuel a1 0 r1 hS1
        (by omega) hr1S (by omega)
      rw [hD, hDn, i2] at g2
      rw [g2] at h2
      cases hgw2 : greedyWithdraw 2 s.doubleFire.toNat a1 with
      | none => rw [hgw2] at h2; simp at h2
      | some b2 =>
        rw [hgw2] at h2
        simp only [Option.some.injEq, Prod.mk.injEq] at h2
        obtain ⟨_, hu2, hr2⟩ := h2
        have hmS2 := hmS.2
        have hr1v : r1 = s.maxShootableAmmo - 3 * s.tripleFire := by
          rw [← hr1]; apply wrap16_id; unfold isShort; omega
        have hr2v : r2 = r1 - 2 * s.doubleFire := by
          rw [← hr2]; apply wrap16_id; unfold isShort; omega
        omega
  refine ⟨?_, hfinal⟩
  unfold can_fire_x_times greedyCompletes
  rw [g1]
  cases hgw : greedyWithdraw 3 s.tripleFire.toNat (copyAmmo s) with
  | none =>
    have hnone : greedyWithdraw 3 s.tripleFire.toNat s.ammo_game = none := by
      rw [hgw] at c3some
      cases h : greedyWithdraw 3 s.tripleFire.toNat s.ammo_game with
      | none => rfl
      | some v => rw [h] at c3some; simp at c3some
    rw [hnone]
    exact ⟨0, rfl, Or.inl rfl, by simp⟩
  | some a1 =>
    have hsome : ∃ b1, greedyWithdraw 3 s.tripleFire.toNat s.ammo_game = some b1 := by
      rw [hgw] at c3some
      cases h : greedyWithdraw 3 s.tripleFire.toNat s.ammo_game with
      | none => rw [h] at c3some; simp at c3some
      | some v => exact ⟨v, rfl⟩
    obtain ⟨b1, hb1⟩ := hsome
    rw [hb1]
    dsimp only
    have hab : ∀ i, i < 10 → a1 i = b1 i := c3rel a1 b1 hgw hb1
    obtain ⟨c2some, _⟩ := greedyWithdraw_congr 2 s.doubleFire.toNat a1 b1 hab
    have h1 : fireLoop 3 s.tripleFire fuel (copyAmmo s) 0 s.maxShootableAmmo
        = some (some (a1, max 0 s.tripleFire,
            wrap16 (s.maxShootableAmmo - 3 * s.tripleFire))) := by
      rw [g1, hgw]
    obtain ⟨_, _, _, tuse, _, _, _, _⟩ :=
      fireLoop_sound 3 s.tripleFire (by omega) (by omega) htS.2 fuel (copyAmmo s) 0
        s.maxShootableAmmo a1 _ _ hS0 (by omega) h1
    have hS1 : ∀ i, i < 10 → a1 i ≤ 32767 := by
      intro i hi
      have := tuse i
      have := hS0 i hi
      omega
    have g2 := fireLoop_greedy 2 s.doubleFire (by omega) (by omega) hdS.2 fuel a1 0
      (wrap16 (s.maxShootableAmmo - 3 * s.tripleFire)) hS1 (by omega) (wrap16_isShort _)
      (by omega)
    rw [hD, hDn, i2] at g2
    rw [g2]
    cases hgw2 : greedyWithdraw 2 s.doubleFire.toNat a1 with
    | none =>
      have hnone : greedyWithdraw 2 s.doubleFire.toNat b1 = none := by
        rw [hgw2] at c2some
        cases h : greedyWithdraw 2 s.doubleFire.toNat b1 with
        | none => rfl
        | some v => rw [h] at c2some; simp at c2some
      rw [hnone]
      exact ⟨0, rfl, Or.inl rfl, by simp⟩
    | some a2 =>
      have hsome2 : (greedyWithdraw 2 s.doubleFire.toNat b1).isSome = true := by
        rw [hgw2] at c2some
        rw [← c2some]; rfl
      rw [hsome2]
      dsimp only
      have h2 : fireLoop 2 s.doubleFire fuel a1 0
          (wrap16 (s.maxShootableAmmo - 3 * s.tripleFire))
          = some (some (a2, max 0 s.doubleFire,
            wrap16 (wrap16 (s.maxShootableAmmo - 3 * s.tripleFire) - 2 * s.doubleFire))) := by
        rw [g2, hgw2]
      have hchk := hfinal a1 _ _ a2 _ _ h1 h2
      rw [if_pos hchk]
      exact ⟨1, rfl, Or.inr rfl, by simp⟩

/-- C17 on the allocation [2,2,2] with one triple and one double fire, which the greedy
simulation completes. -/
theorem C17_consistency_check_witness :
    ((∃ c, can_fire_x_times 10 6 1 1 (mkState [1, 1, 1] [5, 5, 5] [2, 2, 2] 6 1 1 0)
        = some (c, mkState [1, 1, 1] [5, 5, 5] [2, 2, 2] 6 1 1 0) ∧ (c = 0 ∨ c = 1) ∧
      (c = 1 ↔ greedyCompletes (mkState [1, 1, 1] [5, 5, 5] [2, 2, 2] 6 1 1 0).ammo_game
        (mkState [1, 1, 1] [5, 5, 5] [2, 2, 2] 6 1 1 0).tripleFire.toNat
        (mkState [1, 1, 1] [5, 5, 5] [2, 2, 2] 6 1 1 0).doubleFire.toNat = true)) ∧
    (∀ a1 u1 r1 a2 u2 r2,
      fireLoop 3 (mkState [1, 1, 1] [5, 5, 5] [2, 2, 2] 6 1 1 0).tripleFire 10
        (copyAmmo (mkState [1, 1, 1] [5, 5, 5] [2, 2, 2] 6 1 1 0)) 0
        (mkState [1, 1, 1] [5, 5, 5] [2, 2, 2] 6 1 1 0).maxShootableAmmo
        = some (some (a1, u1, r1)) →
      fireLoop 2 (mkState [1, 1, 1] [5, 5, 5] [2, 2, 2] 6 1 1 0).doubleFire 10 a1 0 r1
        = some (some (a2, u2, r2)) →
      r2 + u2 * 2 + u1 * 3
        = (mkState [1, 1, 1] [5, 5, 5] [2, 2, 2] 6 1 1 0).maxShootableAmmo)) ∧
    greedyCompletes (mkState [1, 1, 1] [5, 5, 5] [2, 2, 2] 6 1 1 0).ammo_game 1 1 = true ∧
    (can_fire_x_times 10 6 1 1 (mkState [1, 1, 1] [5, 5, 5] [2, 2, 2] 6 1 1 0)).map Prod.fst
      = some 1 :=
  ⟨C17_consistency_check (mkState [1, 1, 1] [5, 5, 5] [2, 2, 2] 6 1 1 0) (by decide) (by decide)
    (by decide) (by decide) (by decide) (by decide) 10 (by decide) (by decide) 6 1 1,
    by decide, by decide⟩


/-! ## Setup macro: fairness of the distribution -/

/-- A productive leftover pass keeps the allocation levelled: when every eligible machine
holds at most `L` and the unfilled ones exactly `L`, then after the pass every eligible
machine holds at most `L' + 1` and the unfilled ones at least `L'`, where `L' = L + 1` if
ammo is left to distribute (the pass served every unfilled machine) and `L' = L` if not. -/
theorem levelled_pass (s0 t : State) (r : Int) (hcap : ∀ i, i < 10 → s0.ammo_machine i ≤ 32767)
    (hmaxS : s0.maxShootableAmmo ≤ 32767) (h : Filling s0 t r) (hr : 0 < r) (L : Int)
    (hL : ∀ i, i < 10 → eligible s0 i →
      t.ammo_game i ≤ L ∧ (t.ammo_game i < s0.ammo_machine i → L ≤ t.ammo_game i)) :
    ∃ L' : Int, ∀ i, i < 10 → eligible s0 i →
      (leftoverPass t r).1.ammo_game i ≤ L' + 1 ∧
      ((leftoverPass t r).1.ammo_game i < s0.ammo_machine i →
        L' ≤ (leftoverPass t r).1.ammo_game i) ∧
      (0 < (leftoverPass t r).2.1 → (leftoverPass t r).1.ammo_game i ≤ L') := by
  have hsn := Filling_sum_nonneg s0 t r h
  obtain ⟨hcfg, hmax, hsum, hr0, he, hn⟩ := h
  have hspec := leftoverPass_spec t r hr (by omega)
    (by intro i hi; rw [hcfg.2.1]; exact hcap i hi)
    (by
      intro i hi
      by_cases e : eligible s0 i
      · have := (he i hi e).1; omega
      · rw [hn i hi e]; omega)
  obtain ⟨_, _, _, qg, qr, _, _⟩ := hspec
  have hfill : ∀ i, eligible s0 i → (fillable t i ↔ t.ammo_game i < s0.ammo_machine i) := by
    intro i e
    unfold fillable
    rw [hcfg.1, hcfg.2.1]
    constructor
    · intro hf; exact hf.2
    · intro hlt; exact ⟨e.1, hlt⟩
  by_cases hrest : 0 < r - min r (fillableBelow t 10 : Int)
  · refine ⟨L + 1, ?_⟩
    intro i hi e
    obtain ⟨a, b⟩ := hL i hi e
    have hmono := fillableBelow_mono t i 10 (by omega)
    rw [qg i, qr]
    by_cases hf : fillable t i
    · have hlt := (hfill i e).mp hf
      have hb := b hlt
      have hcond : i < 10 ∧ fillable t i ∧ (fillableBelow t i : Int) < r := ⟨hi, hf, by omega⟩
      rw [if_pos hcond]
      refine ⟨by omega, fun _ => by omega, fun _ => by omega⟩
    · have hnlt : ¬ t.ammo_game i < s0.ammo_machine i := fun hlt => hf ((hfill i e).mpr hlt)
      have hcond : ¬ (i < 10 ∧ fillable t i ∧ (fillableBelow t i : Int) < r) :=
        fun hc => hf hc.2.1
      rw [if_neg hcond]
      refine ⟨by omega, fun hlt => by omega, fun _ => by omega⟩
  · refine ⟨L, ?_⟩
    intro i hi e
    obtain ⟨a, b⟩ := hL i hi e
    rw [qg i, qr]
    by_cases hf : fillable t i
    · have hlt := (hfill i e).mp hf
      have hb := b hlt
      by_cases hcond : i < 10 ∧ fillable t i ∧ (fillableBelow t i : Int) < r
      · rw [if_pos hcond]
        refine ⟨by omega, fun _ => by omega, fun hp => by omega⟩
      · rw [if_neg hcond]
        refine ⟨by omega, fun _ => by omega, fun hp => by omega⟩
    · have hnlt : ¬ t.ammo_game i < s0.ammo_machine i := fun hlt => hf ((hfill i e).mpr hlt)
      have hcond : ¬ (i < 10 ∧ fillable t i ∧ (fillableBelow t i : Int) < r) :=
        fun hc => hf hc.2.1
      rw [if_neg hcond]
      refine ⟨by omega, fun hlt => by omega, fun hp => by omega⟩

/-- On a cleared allocation with a positive request and at least one eligible machine,
`distribute_ammo` returns a levelled allocation: some level `L` bounds every eligible
machine by `L + 1` and every unfilled eligible machine from below. -/
theorem distribute_levelled (s : State) (hwt : WellTyped s)
    (hzero : ∀ i, i < 10 → s.ammo_game i = 0) (hmax : 0 < s.maxShootableAmmo)
    (hN : 0 < eligibleBelow s 10) (fuel : Nat) (hfuel : s.maxShootableAmmo < fuel) :
    ∃ t, distribute_ammo fuel s = some t ∧
      (∀ i, i < 10 → ¬ eligible s i → t.ammo_game i = 0) ∧
      ∃ L : Int, ∀ i, i < 10 → eligible s i →
        t.ammo_game i ≤ L + 1 ∧ (t.ammo_game i < s.ammo_machine i → L ≤ t.ammo_game i) := by
  obtain ⟨harr, hmS, _⟩ := hwt
  have hcap : ∀ i, i < 10 → s.ammo_machine i ≤ 32767 := fun i hi => (harr i hi).2.1.2
  have hmS2 : s.maxShootableAmmo ≤ 32767 := hmS.2
  obtain ⟨_, _, hp0, hr0, _, hdiv⟩ :=
    share_eq s.maxShootableAmmo (eligibleBelow s 10) (le_of_lt hmax) hmS2 hN
  have hprim := primaryDistribution_spec s (s.maxShootableAmmo / (eligibleBelow s 10 : Int))
    (s.maxShootableAmmo % (eligibleBelow s 10 : Int)) hp0 hr0 (by rw [hdiv]; exact hmS2) hzero
  obtain ⟨pcfg, pmax, _, pg, pr, psum⟩ := hprim
  rw [hdiv] at psum
  have hF : Filling s (primaryDistribution (s.maxShootableAmmo / (eligibleBelow s 10 : Int))
      (s, s.maxShootableAmmo % (eligibleBelow s 10 : Int))).1
      (primaryDistribution (s.maxShootableAmmo / (eligibleBelow s 10 : Int))
      (s, s.maxShootableAmmo % (eligibleBelow s 10 : Int))).2 := by
    refine ⟨pcfg, pmax, psum, pr, ?_, ?_⟩
    · intro i hi e
      rw [pg i]
      have := e.2
      simp only [hi, e, and_self, if_true]
      omega
    · intro i hi e
      rw [pg i]
      simp [e, hzero i hi]
  have hsn := Filling_sum_nonneg _ _ _ hF
  have hJ0 : ∃ L : Int, ∀ i, i < 10 → eligible s i →
      (primaryDistribution (s.maxShootableAmmo / (eligibleBelow s 10 : Int))
        (s, s.maxShootableAmmo % (eligibleBelow s 10 : Int))).1.ammo_game i ≤ L + 1 ∧
      ((primaryDistribution (s.maxShootableAmmo / (eligibleBelow s 10 : Int))
        (s, s.maxShootableAmmo % (eligibleBelow s 10 : Int))).1.ammo_game i
          < s.ammo_machine i →
        L ≤ (primaryDistribution (s.maxShootableAmmo / (eligibleBelow s 10 : Int))
          (s, s.maxShootableAmmo % (eligibleBelow s 10 : Int))).1.ammo_game i) ∧
      (0 < (primaryDistribution (s.maxShootableAmmo / (eligibleBelow s 10 : Int))
          (s, s.maxShootableAmmo % (eligibleBelow s 10 : Int))).2 →
        (primaryDistribution (s.maxShootableAmmo / (eligibleBelow s 10 : Int))
          (s, s.maxShootableAmmo % (eligibleBelow s 10 : Int))).1.ammo_game i ≤ L) := by
    refine ⟨s.maxShootableAmmo / (eligibleBelow s 10 : Int), ?_⟩
    intro i hi e
    rw [pg i]
    simp only [hi, e, and_self, if_true]
    refine ⟨by omega, fun _ => by omega, fun _ => by omega⟩
  obtain ⟨t, r, hFt, hJt, _, hres⟩ := leftoverLoop_spec s hcap hmS2
    (fun t r => ∃ L : Int, ∀ i, i < 10 → eligible s i →
      t.ammo_game i ≤ L + 1 ∧ (t.ammo_game i < s.ammo_machine i → L ≤ t.ammo_game i) ∧
      (0 < r → t.ammo_game i ≤ L))
    (by
      intro t r hFill hJ hr _
      obtain ⟨L, hL⟩ := hJ
      exact levelled_pass s t r hcap hmS2 hFill hr L
        (fun i hi e => ⟨(hL i hi e).2.2 hr, (hL i hi e).2.1⟩))
    fuel _ _ hF hJ0 (by omega)
  have hdist := distribute_eq s hmS2 hmax hN fuel
  obtain ⟨L, hL⟩ := hJt
  obtain ⟨_, _, _, _, _, tn⟩ := hFt
  rcases hres with ⟨_, hloop⟩ | ⟨_, _, hloop⟩
  · exact ⟨t, by rw [hdist]; exact hloop, tn, L, fun i hi e => ⟨(hL i hi e).1, (hL i hi e).2.1⟩⟩
  · exact ⟨{ t with errorFlag := 3, maxShootableAmmo := sumDistributed t.ammo_game },
      by rw [hdist]; exact hloop, tn, L, fun i hi e => ⟨(hL i hi e).1, (hL i hi e).2.1⟩⟩

/-- C24 (fairness of the distribution): for 16-bit globals and a non-negative request, the
allocation pass (`reset_selected_machines` then `distribute_ammo`) returns; afterwards, for
any two eligible machines `i` and `j` (enabled, capacity above zero), if `i` is not filled
to its capacity then `ammo_game[j] <= ammo_game[i] + 1`, and every machine that is disabled
or has no capacity above zero is allocated 0. -/
theorem C24_fair_distribution (s : State) (hwt : WellTyped s) (hmax : 0 ≤ s.maxShootableAmmo)
    (fuel : Nat) (hfuel : s.maxShootableAmmo < fuel) :
    ∃ t, allocate fuel s = some t ∧
      (∀ i j, i < 10 → j < 10 → eligible s i → eligible s j →
        t.ammo_game i < s.ammo_machine i → t.ammo_game j ≤ t.ammo_game i + 1) ∧
      (∀ i, i < 10 → (s.usableMachines i = 0 ∨ s.ammo_machine i ≤ 0) → t.ammo_game i = 0) := by
  by_cases hdeg : eligibleBelow s 10 = 0 ∨ s.maxShootableAmmo = 0
  · obtain ⟨t, h, _, hz, _, _⟩ := allocate_degenerate s fuel hdeg
    refine ⟨t, h, ?_, fun i hi _ => hz i hi⟩
    intro i j hi hj _ _ _
    rw [hz i hi, hz j hj]
    omega
  · obtain ⟨rcfg, rmax, rerr, rg⟩ := reset_spec s
    have hEB := eligibleBelow_congr s _ rcfg.1 rcfg.2.1 10
    have hwt2 : WellTyped (reset_selected_machines s) := by
      obtain ⟨harr, h1, h2, h3, h4, h5⟩ := hwt
      refine ⟨?_, by rw [rmax]; exact h1, by rw [rcfg.2.2.1]; exact h2,
        by rw [rcfg.2.2.2.1]; exact h3, by rw [rcfg.2.2.2.2]; exact h4, by rw [rerr]; exact h5⟩
      intro i hi
      rw [rcfg.1, rcfg.2.1, rg i]
      refine ⟨(harr i hi).1, (harr i hi).2.1, ?_⟩
      simp [hi, isShort]
    obtain ⟨t, hd, tn, L, hL⟩ := distribute_levelled (reset_selected_machines s) hwt2
      (by intro i hi; rw [rg i]; simp [hi]) (by rw [rmax]; omega) (by rw [hEB]; omega)
      fuel (by rw [rmax]; exact hfuel)
    refine ⟨t, hd, ?_, ?_⟩
    · intro i j hi hj ei ej hlt
      have h1 := hL i hi ((eligible_congr s _ rcfg i).mpr ei)
      have h2 := hL j hj ((eligible_congr s _ rcfg j).mpr ej)
      rw [rcfg.2.1] at h1
      have := h1.2 hlt
      omega
    · intro i hi hne
      apply tn i hi
      intro e
      have e2 := (eligible_congr s _ rcfg i).mp e
      unfold eligible at e2
      rcases hne with h | h
      · exact e2.1 h
      · omega

/-- C24 on capacities [2,9,9,9], machine 2 disabled, request 12: the allocation is
[2,5,0,5]; machine 0 is filled, the unfilled machines 1 and 3 hold the same amount. -/
theorem C24_fair_distribution_witness :
    (∃ t, allocate 13 (mkState [1, 1, 0, 1] [2, 9, 9, 9] [7, 7, 7] 12 0 0 0) = some t ∧
      (∀ i j, i < 10 → j < 10 → eligible (mkState [1, 1, 0, 1] [2, 9, 9, 9] [7, 7, 7] 12 0 0 0) i →
        eligible (mkState [1, 1, 0, 1] [2, 9, 9, 9] [7, 7, 7] 12 0 0 0) j →
        t.ammo_game i < (mkState [1, 1, 0, 1] [2, 9, 9, 9] [7, 7, 7] 12 0 0 0).ammo_machine i →
        t.ammo_game j ≤ t.ammo_game i + 1) ∧
      (∀ i, i < 10 →
        ((mkState [1, 1, 0, 1] [2, 9, 9, 9] [7, 7, 7] 12 0 0 0).usableMachines i = 0 ∨
          (mkState [1, 1, 0, 1] [2, 9, 9, 9] [7, 7, 7] 12 0 0 0).ammo_machine i ≤ 0) →
        t.ammo_game i = 0)) ∧
    (allocate 13 (mkState [1, 1, 0, 1] [2, 9, 9, 9] [7, 7, 7] 12 0 0 0)).map
      (fun t => toList10 t.ammo_game) = some [2, 5, 0, 5, 0, 0, 0, 0, 0, 0] :=
  ⟨C24_fair_distribution (mkState [1, 1, 0, 1] [2, 9, 9, 9] [7, 7, 7] 12 0 0 0) (by decide)
    (by decide) 13 (by decide), by decide⟩


/-! ## Setup macro: what a clean setup hands to the scheduler -/

/-- When the feasibility check returns 1 on a non-negative allocation, the bullets of the
configured triple and double fires fit the sum of the allocation. -/
theorem can_fire_quota (s s' : State) (hS : ∀ i, i < 10 → s.ammo_game i ≤ 32767)
    (hnn : ∀ i, i < 10 → 0 ≤ s.ammo_game i) (hdS : s.doubleFire ≤ 32767)
    (htS : s.tripleFire ≤ 32767) (fuel : Nat) (x y z : Int)
    (h : can_fire_x_times fuel x y z s = some (1, s')) :
    3 * max 0 s.tripleFire + 2 * max 0 s.doubleFire ≤ sum10 s.ammo_game := by
  obtain ⟨_, a1, u1, r1, a2, u2, r2, h1, h2, _⟩ := can_fire_one s s' x y z fuel h
  have hc := copyAmmo_spec s
  have hS0 : ∀ i, i < 10 → copyAmmo s i ≤ 32767 := by
    intro i hi
    rw [hc i]
    simp only [hi, if_true]
    exact hS i hi
  have hnn0 : ∀ i, i < 10 → 0 ≤ copyAmmo s i := by
    intro i hi
    rw [hc i]
    simp only [hi, if_true]
    exact hnn i hi
  obtain ⟨ts, tlen, _, tuse, tnn, tsum, _, _⟩ :=
    fireLoop_sound 3 s.tripleFire (by omega) (by omega) htS fuel (copyAmmo s) 0
      s.maxShootableAmmo a1 u1 r1 hS0 (by omega) h1
  have hS1 : ∀ i, i < 10 → a1 i ≤ 32767 := by
    intro i hi
    have := tuse i
    have := hS0 i hi
    omega
  obtain ⟨ds, dlen, _, _, dnn, dsum, _, _⟩ :=
    fireLoop_sound 2 s.doubleFire (by omega) (by omega) hdS fuel a1 0 r1 a2 u2 r2 hS1
      (by omega) h2
  have e1 : sum10 a2 ≥ 0 :=
    sumTo_nonneg a2 10 (fun i hi => dnn i (tnn i (hnn0 i hi)))
  have e2 := sum10_copyAmmo s
  have e3 : (ts.length : Int) = max 0 s.tripleFire := by omega
  have e4 : (ds.length : Int) = max 0 s.doubleFire := by omega
  rw [e3] at tsum
  rw [e4] at dsum
  omega

/-- C23 (a clean setup establishes the preconditions of the scheduler): for 16-bit
registers with non-negative capacities and a non-negative request, the setup `MacroEntry`
returns (fuel above 32767), and if it writes the error code 0 then the registers it writes
satisfy `maxShootableAmmo > 0`, `sum(ammo_game) = maxShootableAmmo`,
`ammo_game[i] <= ammo_machine[i]` for each of the ten machines, and
`2*doubleFire + 3*tripleFire <= maxShootableAmmo`. -/
theorem C23_clean_setup (s : State) (hwt : WellTyped s)
    (hcap : ∀ i, i < 10 → 0 ≤ s.ammo_machine i) (hmax : 0 ≤ s.maxShootableAmmo)
    (hd : 0 ≤ s.doubleFire) (ht : 0 ≤ s.tripleFire) (fuel : Nat) (hfuel : 32767 < fuel) :
    ∃ r, MacroEntry fuel s = some r ∧
      (r.lw300 = 0 →
        0 < r.lw110 ∧ sum10 r.lw100 = r.lw110 ∧ (∀ i, i < 10 → r.lw100 i ≤ r.lw10 i) ∧
        2 * r.lw111 + 3 * r.lw112 ≤ r.lw110) := by
  have hcfg0 : sameConfig s { s with errorFlag := 0 } := ⟨rfl, rfl, rfl, rfl, rfl⟩
  have hEB := eligibleBelow_congr s _ hcfg0.1 hcfg0.2.1 10
  have hwt0 : WellTyped { s with errorFlag := 0 } := by
    obtain ⟨harr, h1, h2, h3, h4, _⟩ := hwt
    exact ⟨harr, h1, h2, h3, h4, by simp [isShort]⟩
  obtain ⟨harr, hmS, hdS, htS, _, _⟩ := hwt
  have hwb : ∀ u : State, (writeBack (floorDelay u)).lw300 = u.errorFlag ∧
      (writeBack (floorDelay u)).lw110 = u.maxShootableAmmo ∧
      (writeBack (floorDelay u)).lw100 = u.ammo_game ∧
      (writeBack (floorDelay u)).lw10 = u.ammo_machine ∧
      (writeBack (floorDelay u)).lw111 = u.doubleFire ∧
      (writeBack (floorDelay u)).lw112 = u.tripleFire := by
    intro u
    unfold writeBack floorDelay
    dsimp only
    split <;> exact ⟨rfl, rfl, rfl, rfl, rfl, rfl⟩
  by_cases hdeg : eligibleBelow s 10 = 0 ∨ s.maxShootableAmmo = 0
  · obtain ⟨t, halloc, _, _, _, he⟩ := allocate_degenerate { s with errorFlag := 0 } fuel
      (by rw [hEB]; exact hdeg)
    refine ⟨writeBack (floorDelay t), ?_, ?_⟩
    · unfold MacroEntry
      rw [halloc]
      dsimp only
      unfold checkFires
      rw [if_neg (by rw [he]; decide)]
    · intro h0
      rw [(hwb t).1, he] at h0
      exact absurd h0 (by decide)
  · have hpos : 0 < s.maxShootableAmmo := by omega
    obtain ⟨t, halloc, tcfg, tsum, te, tn, tcase⟩ := allocate_spec { s with errorFlag := 0 }
      hwt0 hpos (by rw [hEB]; omega) fuel (by
        have := hmS.2
        show s.maxShootableAmmo < (fuel : Int)
        omega)
    have tD : t.doubleFire = s.doubleFire := tcfg.2.2.1
    have tT : t.tripleFire = s.tripleFire := tcfg.2.2.2.1
    have tM : t.ammo_machine = s.ammo_machine := tcfg.2.1
    have hdS2 := hdS.2
    have htS2 := htS.2
    obtain ⟨c, hc, hc01⟩ := can_fire_total t t.maxShootableAmmo t.doubleFire t.tripleFire fuel
      (by rw [tT]; exact htS2) (by rw [tD]; exact hdS2)
      (by rw [tT]; omega) (by rw [tD]; omega)
    by_cases he0 : t.errorFlag = 0
    · refine ⟨writeBack (floorDelay { t with errorFlag := if c = 0 then 1 else 0 }), ?_, ?_⟩
      · unfold MacroEntry
        rw [halloc]
        dsimp only
        unfold checkFires
        rw [if_pos he0, hc]
      · intro h0
        obtain ⟨w1, w2, w3, w4, w5, w6⟩ := hwb { t with errorFlag := if c = 0 then 1 else 0 }
        rw [w1] at h0
        rw [w2, w3, w4, w5, w6]
        dsimp only at h0 ⊢
        have hc1 : c = 1 := by
          rcases hc01 with h | h
          · rw [h] at h0
            simp at h0
          · exact h
        rw [hc1] at hc
        have hmax' : t.maxShootableAmmo = s.maxShootableAmmo := by
          rcases tcase with ⟨_, _, h3, _⟩ | ⟨_, h2, _⟩
          · rw [h3] at he0
            exact absurd he0 (by decide)
          · exact h2
        have hbound : ∀ i, i < 10 → 0 ≤ t.ammo_game i ∧ t.ammo_game i ≤ s.ammo_machine i := by
          intro i hi
          by_cases e : eligible s i
          · exact te i hi ((eligible_congr s _ hcfg0 i).mpr e)
          · rw [tn i hi (fun h => e ((eligible_congr s _ hcfg0 i).mp h))]
            exact ⟨le_refl _, hcap i hi⟩
        have hq := can_fire_quota t t
          (fun i hi => by
            have := (hbound i hi).2
            have := (harr i hi).2.1.2
            omega)
          (fun i hi => (hbound i hi).1) (by rw [tD]; exact hdS2) (by rw [tT]; exact htS2)
          fuel _ _ _ hc
        rw [tsum, tD, tT] at hq
        refine ⟨by rw [hmax']; exact hpos, tsum, ?_, ?_⟩
        · intro i hi
          rw [tM]
          exact (hbound i hi).2
        · rw [tD, tT]
          omega
    · refine ⟨writeBack (floorDelay t), ?_, ?_⟩
      · unfold MacroEntry
        rw [halloc]
        dsimp only
        unfold checkFires
        rw [if_neg he0]
      · intro h0
        rw [(hwb t).1] at h0
        exact absurd h0 he0

/-- C23 on capacities [5,5,5], three machines enabled, request 10 with one double and one
triple fire: the setup writes the allocation [4,3,3] with error code 0. -/
theorem C23_clean_setup_witness :
    (∃ r, MacroEntry 32768 (mkState [1, 1, 1] [5, 5, 5] [] 10 1 1 0) = some r ∧
      (r.lw300 = 0 →
        0 < r.lw110 ∧ sum10 r.lw100 = r.lw110 ∧ (∀ i, i < 10 → r.lw100 i ≤ r.lw10 i) ∧
        2 * r.lw111 + 3 * r.lw112 ≤ r.lw110)) ∧
    (MacroEntry 32768 (mkState [1, 1, 1] [5, 5, 5] [] 10 1 1 0)).map
      (fun r => (toList10 r.lw100, r.lw110, r.lw111, r.lw112, r.lw300))
      = some ([4, 3, 3, 0, 0, 0, 0, 0, 0, 0], 10, 1, 1, 0) :=
  ⟨C23_clean_setup (mkState [1, 1, 1] [5, 5, 5] [] 10 1 1 0) (by decide) (by decide)
    (by decide) (by decide) (by decide) 32768 (by decide), by decide⟩

end Calc

namespace Shooter

/-! ## Shooter macro: weights and machine selection -/

theorem armedBelow_le (s : State) : ∀ n, armedBelow s n ≤ n := by
  intro n
  induction n with
  | zero => simp [armedBelow]
  | succ n ih =>
    simp only [armedBelow]
    split <;> omega

theorem armedBelow_mono (s : State) : ∀ n m, n ≤ m → armedBelow s n ≤ armedBelow s m := by
  intro n m hnm
  induction m with
  | zero =>
    have : n = 0 := by omega
    subst this; exact le_refl _
  | succ m ih =>
    by_cases e : n = m + 1
    · subst e; exact le_refl _
    · have := ih (by omega)
      simp only [armedBelow]
      omega

theorem armedBelow_zero (s : State) :
    ∀ n, armedBelow s n = 0 → ∀ i, i < n → ¬ armed s i := by
  intro n
  induction n with
  | zero => intro _ i hi; omega
  | succ n ih =>
    intro h i hi
    simp only [armedBelow] at h
    by_cases e : i = n
    · subst e
      intro hf
      simp [hf] at h
    · exact ih (by omega) i (by omega)

theorem armedBelow_pos (s : State) (n i : Nat) (hi : i < n) (ha : armed s i) :
    0 < armedBelow s n := by
  by_contra h
  exact armedBelow_zero s n (by omega) i hi ha

/-- Disarming one armed machine lowers the count of armed machines by one. -/
theorem armedBelow_remove (s t : State) (x : Nat) (hx : armed s x)
    (h : ∀ i, armed t i ↔ (armed s i ∧ i ≠ x)) :
    ∀ n, armedBelow t n + (if x < n then 1 else 0) = armedBelow s n := by
  intro n
  induction n with
  | zero => simp [armedBelow]
  | succ n ih =>
    simp only [armedBelow]
    by_cases e : n = x
    · subst e
      have h1 : ¬ armed t n := fun ht => ((h n).mp ht).2 rfl
      have h2 : ¬ n < n := by omega
      simp only [h2, if_false] at ih
      simp only [h1, hx, if_true, if_false]
      have : n < n + 1 := by omega
      simp only [this, if_true]
      omega
    · have hiff : armed t n ↔ armed s n := by
        rw [h n]
        constructor
        · intro a; exact a.1
        · intro a; exact ⟨a, e⟩
      have hlt : x < n + 1 ↔ x < n := by
        constructor <;> intro h <;> omega
      simp only [hiff, hlt]
      omega

theorem weightBelow_nonneg (s : State) : ∀ n, 0 ≤ weightBelow s n := by
  intro n
  induction n with
  | zero => simp [weightBelow]
  | succ n ih =>
    simp only [weightBelow]
    by_cases e : armed s n
    · have := e.2
      simp only [e, if_true]
      omega
    · simp only [e, if_false]
      omega

theorem weightBelow_mono (s : State) : ∀ n m, n ≤ m → weightBelow s n ≤ weightBelow s m := by
  intro n m hnm
  induction m with
  | zero =>
    have : n = 0 := by omega
    subst this; exact le_refl _
  | succ m ih =>
    by_cases e : n = m + 1
    · subst e; exact le_refl _
    · have := ih (by omega)
      simp only [weightBelow]
      by_cases a : armed s m
      · have := a.2
        simp only [a, if_true]
        omega
      · simp only [a, if_false]
        omega

theorem weightBelow_ge_armed (s : State) : ∀ n, (armedBelow s n : Int) ≤ weightBelow s n := by
  intro n
  induction n with
  | zero => simp [weightBelow, armedBelow]
  | succ n ih =>
    simp only [weightBelow, armedBelow]
    by_cases a : armed s n
    · have := a.2
      simp only [a, if_true]
      push_cast
      omega
    · simp only [a, if_false]
      push_cast
      omega

theorem weightBelow_zero_of_armed_zero (s : State) :
    ∀ n, armedBelow s n = 0 → weightBelow s n = 0 := by
  intro n
  induction n with
  | zero => intro _; rfl
  | succ n ih =>
    intro h
    simp only [armedBelow] at h
    by_cases a : armed s n
    · simp [a] at h
    · simp only [a, if_false] at h
      simp only [weightBelow, a, if_false]
      rw [ih (by omega)]
      rfl

/-- The first loop of `weighted_random_selection` computes the summed weight. -/
theorem totalWeight_eq (s : State) : totalWeight s = weightBelow s 10 := by
  have key := forLoop_inv
    (fun i (t : Int) =>
      if s.usableMachines i ≠ 0 ∧ s.ammo_game i > 0 then t + s.ammo_game i else t)
    (fun j t => t = weightBelow s j) 10 0 0 rfl
    (by
      intro j t _ _ hP
      subst hP
      by_cases a : armed s j
      · have a2 : s.usableMachines j ≠ 0 ∧ s.ammo_game j > 0 := a
        dsimp only
        rw [if_pos a2]
        simp [weightBelow, a]
      · have a2 : ¬ (s.usableMachines j ≠ 0 ∧ s.ammo_game j > 0) := a
        dsimp only
        rw [if_neg a2]
        simp [weightBelow, a])
  simpa [totalWeight] using key

/-- The walk of `weighted_random_selection` returns the machine whose weight band contains
the drawn value. -/
theorem walkWeights_spec (s : State) (rv : Int) (h0 : 0 ≤ rv) (hlt : rv < weightBelow s 10) :
    ∃ i, (walkWeights s rv).2 = some i ∧ i < 10 ∧ armed s i ∧
      weightBelow s i ≤ rv ∧ rv < weightBelow s (i + 1) := by
  have key := forLoopWhile_inv (fun p : Int × Option Nat => p.2.isNone)
    (fun i p =>
      if s.usableMachines i ≠ 0 ∧ s.ammo_game i > 0 then
        if rv < p.1 + s.ammo_game i then (p.1 + s.ammo_game i, some i)
        else (p.1 + s.ammo_game i, none)
      else p)
    (fun j p =>
      (p.2 = none → p.1 = weightBelow s j ∧ p.1 ≤ rv) ∧
      (∀ i, p.2 = some i → i < j ∧ armed s i ∧ weightBelow s i ≤ rv ∧ rv < weightBelow s (i + 1)))
    10 0 (0, none)
    (by
      refine ⟨fun _ => ⟨rfl, h0⟩, ?_⟩
      intro i hi
      simp at hi)
    (by
      intro j p _ _ hP hc
      obtain ⟨hn, _⟩ := hP
      have hc' : p.2.isNone = true := hc
      have hnone : p.2 = none := by
        cases h : p.2 with
        | none => rfl
        | some v => rw [h] at hc'; simp at hc'
      obtain ⟨hcum, hle⟩ := hn hnone
      by_cases a : armed s j
      · have a2 : s.usableMachines j ≠ 0 ∧ s.ammo_game j > 0 := a
        dsimp only
        rw [if_pos a2]
        by_cases hrv : rv < p.1 + s.ammo_game j
        · rw [if_pos hrv]
          refine ⟨fun h => by simp at h, ?_⟩
          intro i hi
          simp only [Option.some.injEq] at hi
          subst hi
          refine ⟨by omega, a, by rw [← hcum]; exact hle, ?_⟩
          simp only [weightBelow, a, if_true]
          rw [← hcum]; exact hrv
        · rw [if_neg hrv]
          refine ⟨fun _ => ⟨?_, by simp only; omega⟩, fun i hi => by simp at hi⟩
          simp only [weightBelow, a, if_true]
          rw [← hcum]
      · have a2 : ¬ (s.usableMachines j ≠ 0 ∧ s.ammo_game j > 0) := a
        dsimp only
        rw [if_neg a2]
        refine ⟨fun _ => ⟨?_, hle⟩, fun i hi => by rw [hnone] at hi; simp at hi⟩
        simp only [weightBelow, a, if_false]
        rw [← hcum]
        simp)
  obtain ⟨j, _, hj10, ⟨hn, hs⟩, hend⟩ := key
  have hev : forLoopWhile (fun p : Int × Option Nat => p.2.isNone)
    (fun i p =>
      if s.usableMachines i ≠ 0 ∧ s.ammo_game i > 0 then
        if rv < p.1 + s.ammo_game i then (p.1 + s.ammo_game i, some i)
        else (p.1 + s.ammo_game i, none)
      else p) 10 0 (0, none) = walkWeights s rv := rfl
  rw [hev] at hn hs hend
  cases hr : (walkWeights s rv).2 with
  | some i =>
    obtain ⟨h1, h2, h3, h4⟩ := hs i hr
    exact ⟨i, rfl, by omega, h2, h3, h4⟩
  | none =>
    exfalso
    obtain ⟨hcum, hle⟩ := hn hr
    rcases hend with hend | hend
    · have : j = 10 := by omega
      subst this
      omega
    · have hend' : (walkWeights s rv).2.isNone = false := hend
      rw [hr] at hend'
      simp at hend'


/-! ## Shooter macro: the loop of `process_fire` -/

/-- Result of `weighted_random_selection`: `-1` without a draw when no machine is armed,
otherwise the armed machine whose weight band contains the draw reduced modulo the total. -/
theorem weighted_random_selection_spec (rand : Nat → Nat) (pos : Nat) (s : State) :
    (armedBelow s 10 = 0 → weighted_random_selection rand pos s = (-1, pos)) ∧
    (armedBelow s 10 ≠ 0 → ∃ i, i < 10 ∧ armed s i ∧
      weighted_random_selection rand pos s = ((i : Int), pos + 1) ∧
      weightBelow s i ≤ (rand pos : Int) % weightBelow s 10 ∧
      (rand pos : Int) % weightBelow s 10 < weightBelow s (i + 1)) := by
  have htw := totalWeight_eq s
  constructor
  · intro h
    have := weightBelow_zero_of_armed_zero s 10 h
    unfold weighted_random_selection
    rw [htw, if_pos this]
  · intro h
    have h1 := weightBelow_ge_armed s 10
    have hpos : 0 < weightBelow s 10 := by omega
    have hne : ¬ weightBelow s 10 = 0 := by omega
    have hr0 : (0 : Int) ≤ (rand pos : Int) := by omega
    have hmod : Int.tmod (rand pos : Int) (weightBelow s 10)
        = (rand pos : Int) % weightBelow s 10 := Int.tmod_eq_emod hr0 (le_of_lt hpos)
    have hm0 : 0 ≤ (rand pos : Int) % weightBelow s 10 := Int.emod_nonneg _ (by omega)
    have hm1 : (rand pos : Int) % weightBelow s 10 < weightBelow s 10 :=
      Int.emod_lt_of_pos _ hpos
    obtain ⟨i, hw, hi, ha, hlo, hhi⟩ := walkWeights_spec s _ hm0 hm1
    refine ⟨i, hi, ha, ?_, hlo, hhi⟩
    unfold weighted_random_selection
    rw [htw, if_neg hne, hmod, hw]

/-- One iteration of the loop of `process_fire`. -/
theorem fireOnce_spec (rand : Nat → Nat) (pos : Nat) (s : State) :
    (armedBelow s 10 = 0 → fireOnce rand (s, pos) = (s, pos)) ∧
    (armedBelow s 10 ≠ 0 → ∃ i, i < 10 ∧ armed s i ∧
      fireOnce rand (s, pos) = (applyFire s i, pos + 1)) := by
  obtain ⟨h0, h1⟩ := weighted_random_selection_spec rand pos s
  constructor
  · intro h
    unfold fireOnce
    rw [h0 h]
    simp
  · intro h
    obtain ⟨i, hi, ha, hw, _, _⟩ := h1 h
    refine ⟨i, hi, ha, ?_⟩
    unfold fireOnce
    rw [hw]
    have hne : ((i : Int), pos + 1).1 ≠ -1 := by
      show (i : Int) ≠ -1
      omega
    rw [if_pos hne]
    simp

theorem firedFrom_nil (s : State) : firedFrom s [] s := by
  refine ⟨?_, ?_, ?_, ?_, ?_, ?_, rfl, rfl, rfl, rfl, rfl, rfl⟩ <;> simp

theorem firedFrom_armed (s t : State) (F : List Nat) (h : firedFrom s F t) (i : Nat) :
    armed t i → armed s i ∧ i ∉ F := by
  obtain ⟨hu, hg, _⟩ := h
  intro a
  have a1 := a.1
  have a2 := a.2
  rw [hu i] at a1
  rw [hg i] at a2
  by_cases hm : i ∈ F
  · simp [hm] at a1
  · simp only [hm, if_false] at a1 a2
    exact ⟨⟨a1, by omega⟩, hm⟩

/-- The loop of `process_fire` after `n` iterations: the machines fired so far form a list
without repetition of `min n E` machines that were armed at the start, `E` being the number
of armed machines at the start. -/
theorem processLoop_spec (rand : Nat → Nat) (s : State) (pos : Nat) (n : Nat)
    (hgS : ∀ i, i < 10 → s.ammo_game i ≤ 32768)
    (hmach : ∀ i, i < 10 → armed s i → -32768 < s.ammo_machine i ∧ s.ammo_machine i ≤ 32768)
    (hmax : -32768 ≤ s.maxShootableAmmo - (min n (armedBelow s 10) : Nat))
    (hmaxS : s.maxShootableAmmo ≤ 32768) :
    ∃ F : List Nat, F.Nodup ∧ F.length = min n (armedBelow s 10) ∧
      (∀ i, i ∈ F → i < 10 ∧ armed s i) ∧
      firedFrom s F (forLoop (fun _ q => fireOnce rand q) n 0 (s, pos)).1 ∧
      (forLoop (fun _ q => fireOnce rand q) n 0 (s, pos)).2 = pos + F.length := by
  have key := forLoop_inv (fun _ q => fireOnce rand q)
    (fun j (q : State × Nat) => ∃ F : List Nat, F.Nodup ∧ F.length = min j (armedBelow s 10) ∧
      (∀ i, i ∈ F → i < 10 ∧ armed s i) ∧ firedFrom s F q.1 ∧
      armedBelow q.1 10 + F.length = armedBelow s 10 ∧ q.2 = pos + F.length)
    n 0 (s, pos)
    ⟨[], List.nodup_nil, by simp, by simp, firedFrom_nil s, by simp, by simp⟩
    (by
      intro j q _ hj hP
      obtain ⟨F, hnd, hlen, hmem, hff, hcnt, hpos⟩ := hP
      by_cases hz : armedBelow q.1 10 = 0
      · have hlen0 : F.length = min (j + 1) (armedBelow s 10) := by omega
        obtain ⟨f0, _⟩ := fireOnce_spec rand q.2 q.1
        refine ⟨F, hnd, hlen0, hmem, ?_, ?_, ?_⟩
        · show firedFrom s F (fireOnce rand q).1
          have : fireOnce rand q = (q.1, q.2) := f0 hz
          rw [this]; exact hff
        · show armedBelow (fireOnce rand q).1 10 + F.length = _
          have : fireOnce rand q = (q.1, q.2) := f0 hz
          rw [this]; exact hcnt
        · show (fireOnce rand q).2 = _
          have : fireOnce rand q = (q.1, q.2) := f0 hz
          rw [this]; exact hpos
      · have hlen' : F.length + 1 = min (j + 1) (armedBelow s 10) := by omega
        have hroom : -32768 ≤ s.maxShootableAmmo - (F.length : Int) - 1 := by
          have : min (j + 1) (armedBelow s 10) ≤ min n (armedBelow s 10) := by omega
          omega
        have hFj : F.length ≤ j := by omega
        obtain ⟨_, f1⟩ := fireOnce_spec rand q.2 q.1
        obtain ⟨i, hi, ha, hfire⟩ := f1 hz
        clear f1
        have hfire' : fireOnce rand q = (applyFire q.1 i, q.2 + 1) := hfire
        unfold applyFire at hfire'
        obtain ⟨has, hnotin⟩ := firedFrom_armed s q.1 F hff i ha
        obtain ⟨hu, hg, hm, hnf, hmx, hsum, hd, ht, hdl, hrd, h4, h5⟩ := hff
        have hgi : q.1.ammo_game i = s.ammo_game i := by rw [hg i]; simp [hnotin]
        have hmi : q.1.ammo_machine i = s.ammo_machine i := by rw [hm i]; simp [hnotin]
        have hb1 := hgS i hi
        have hb2 := hmach i hi has
        have hb3 := has.2
        have hw1 : wrap16 (q.1.ammo_game i - 1) = s.ammo_game i - 1 := by
          rw [hgi]; apply wrap16_id; unfold isShort; omega
        have hw2 : wrap16 (q.1.ammo_machine i - 1) = s.ammo_machine i - 1 := by
          rw [hmi]; apply wrap16_id; unfold isShort; omega
        have hw3 : wrap16 (q.1.maxShootableAmmo - 1) = s.maxShootableAmmo - (F.length : Int) - 1 := by
          rw [hmx]; apply wrap16_id; unfold isShort; omega
        rw [hw1, hw2, hw3] at hfire'
        have hrem := armedBelow_remove q.1 (fireOnce rand q).1 i ha (by
          intro k
          rw [hfire']
          unfold armed
          dsimp only
          by_cases e : k = i
          · subst e
            simp [setA_same]
          · rw [setA_other _ _ _ _ e, setA_other _ _ _ _ e]
            simp [e]) 10
        simp only [hi, if_true] at hrem
        refine ⟨i :: F, List.nodup_cons.mpr ⟨hnotin, hnd⟩, ?_, ?_, ?_, ?_, ?_⟩
        · simp only [List.length_cons]; exact hlen'
        · intro k hk
          rcases List.mem_cons.mp hk with e | hk
          · subst e; exact ⟨hi, has⟩
          · exact hmem k hk
        · show firedFrom s (i :: F) (fireOnce rand q).1
          rw [hfire']
          refine ⟨?_, ?_, ?_, ?_, ?_, ?_, hd, ht, hdl, hrd, h4, h5⟩
          · intro k
            by_cases e : k = i
            · subst e; simp [setA_same]
            · show setA q.1.usableMachines i 0 k = _
              rw [setA_other _ _ _ _ e, hu k]; simp [e]
          · intro k
            by_cases e : k = i
            · subst e
              show setA q.1.ammo_game k (s.ammo_game k - 1) k = _
              simp [setA_same]
            · show setA q.1.ammo_game i (s.ammo_game i - 1) k = _
              rw [setA_other _ _ _ _ e, hg k]; simp [e]
          · intro k
            by_cases e : k = i
            · subst e
              show setA q.1.ammo_machine k (s.ammo_machine k - 1) k = _
              simp [setA_same]
            · show setA q.1.ammo_machine i (s.ammo_machine i - 1) k = _
              rw [setA_other _ _ _ _ e, hm k]; simp [e]
          · intro k
            by_cases e : k = i
            · subst e
              show setA q.1.nextFires k 1 k = _
              simp [setA_same]
            · show setA q.1.nextFires i 1 k = _
              rw [setA_other _ _ _ _ e, hnf k]; simp [e]
          · show s.maxShootableAmmo - (F.length : Int) - 1 = _
            simp only [List.length_cons]; push_cast; omega
          · show sum10 (setA q.1.ammo_game i (s.ammo_game i - 1)) + _ = _
            rw [sum10_setA _ _ _ hi, hgi]
            simp only [List.length_cons]; push_cast; omega
        · simp only [List.length_cons]; omega
        · show (fireOnce rand q).2 = _
          rw [hfire']
          simp only [List.length_cons]; omega)
  obtain ⟨F, h1, h2, h3, h4, _, h6⟩ := key
  simp only [Nat.zero_add] at h2 h4 h6
  exact ⟨F, h1, h2, h3, h4, h6⟩


/-! ## Shooter macro: fire conservation -/

/-- Effect of `process_fire(m)` as long as its decrements stay inside the 16-bit range:
for 16-bit globals such that `ammo_machine[i] > -32768` for every armed machine,
`maxShootableAmmo - min(m, E) >= -32768`, `doubleFire > -32768` if `m = 2` and
`tripleFire > -32768` if `m = 3`, `process_fire(m)` with `m` in {1,2,3} fires exactly
`min(m, E)` pairwise different machines, each armed before. -/
theorem process_fire_firesExactly (s : State) (hwt : WellTyped s) (m : Int)
    (hm : m = 1 ∨ m = 2 ∨ m = 3) (rand : Nat → Nat) (pos : Nat)
    (hmach : ∀ i, i < 10 → armed s i → -32768 < s.ammo_machine i)
    (hmax : -32768 ≤ s.maxShootableAmmo - min m (armedBelow s 10 : Int))
    (hd : m = 2 → -32768 < s.doubleFire) (ht : m = 3 → -32768 < s.tripleFire) :
    firesExactly s m (process_fire rand m (s, pos)).1 := by
  obtain ⟨harr, hmS, hdS, htS, _, _, _⟩ := hwt
  have hm0 : 0 ≤ m := by omega
  have hmn : ((m.toNat : Nat) : Int) = m := Int.toNat_of_nonneg hm0
  obtain ⟨F, hnd, hlen, hmem, hff, _⟩ := processLoop_spec rand s pos m.toNat
    (fun i hi => by have := (harr i hi).2.2.2.2; omega)
    (fun i hi a => ⟨hmach i hi a, by have := (harr i hi).2.2.1.2; omega⟩)
    (by
      have : ((min m.toNat (armedBelow s 10) : Nat) : Int) = min m (armedBelow s 10 : Int) := by
        omega
      rw [this]; exact hmax)
    (by have := hmS.2; omega)
  obtain ⟨_, hg, hma, hnf, hmx, _, hdd, htt, _⟩ := hff
  have hlen2 : (F.length : Int) = min m (armedBelow s 10 : Int) := by omega
  have hpf : (process_fire rand m (s, pos)).1
      = adjustCounters m (forLoop (fun _ q => fireOnce rand q) m.toNat 0 (s, pos)).1 := rfl
  rw [hpf]
  generalize (forLoop (fun _ q => fireOnce rand q) m.toNat 0 (s, pos)).1 = t at hg hma hnf hmx hdd htt
  have hA1 : (adjustCounters m t).ammo_game = t.ammo_game := by
    unfold adjustCounters; split
    · rfl
    · split <;> rfl
  have hA2 : (adjustCounters m t).ammo_machine = t.ammo_machine := by
    unfold adjustCounters; split
    · rfl
    · split <;> rfl
  have hA3 : (adjustCounters m t).nextFires = t.nextFires := by
    unfold adjustCounters; split
    · rfl
    · split <;> rfl
  have hA4 : (adjustCounters m t).maxShootableAmmo = t.maxShootableAmmo := by
    unfold adjustCounters; split
    · rfl
    · split <;> rfl
  have hA5 : (adjustCounters m t).doubleFire = s.doubleFire - (if m = 2 then 1 else 0) := by
    unfold adjustCounters
    by_cases h2 : m = 2
    · have := hd h2
      have := hdS.2
      rw [if_pos h2, if_pos h2]
      show wrap16 (t.doubleFire - 1) = _
      rw [hdd]; apply wrap16_id; unfold isShort; omega
    · rw [if_neg h2, if_neg h2]
      split
      · show t.doubleFire = _
        rw [hdd]; omega
      · rw [hdd]; omega
  have hA6 : (adjustCounters m t).tripleFire = s.tripleFire - (if m = 3 then 1 else 0) := by
    unfold adjustCounters
    by_cases h2 : m = 2
    · have h3 : ¬ m = 3 := by omega
      rw [if_pos h2, if_neg h3]
      show t.tripleFire = _
      rw [htt]; omega
    · rw [if_neg h2]
      by_cases h3 : m = 3
      · have := ht h3
        have := htS.2
        rw [if_pos h3, if_pos h3]
        show wrap16 (t.tripleFire - 1) = _
        rw [htt]; apply wrap16_id; unfold isShort; omega
      · rw [if_neg h3, if_neg h3]
        rw [htt]; omega
  refine ⟨F, hnd, hlen2, hmem, ?_, ?_, by rw [hA4, hmx], hA5, hA6⟩
  · intro i hi
    rw [hA1, hA2, hA3, hg i, hma i, hnf i]
    simp [hi]
  · intro i hi
    rw [hA1, hA2, hg i, hma i]
    simp [hi]

/-- C9 (fire conservation and distinctness): for 16-bit registers holding the non-negative
values of the data model (`ammo_machine`, `maxShootableAmmo`, `doubleFire`, `tripleFire`;
of `ammo_game` only the positive entries matter), every mode `m` in {1,2,3} and every
sequence of draws, with `E` the number of enabled machines whose `ammo_game` is above zero,
`process_fire(m)` fires exactly `min(m, E)` pairwise different machines, each of which was
enabled with `ammo_game > 0`; each fired machine loses one unit of `ammo_game` and of
`ammo_machine` and is marked in `nextFires`; the ammo counts of the other machines are
unchanged; `maxShootableAmmo` drops by the number fired; `doubleFire` drops by one iff
`m = 2` and `tripleFire` iff `m = 3`, a partial fire included. -/
theorem C9_fire_conservation (s : State) (hwt : WellTyped s)
    (hmach : ∀ i, i < 10 → 0 ≤ s.ammo_machine i) (hmax : 0 ≤ s.maxShootableAmmo)
    (hd : 0 ≤ s.doubleFire) (ht : 0 ≤ s.tripleFire) (m : Int)
    (hm : m = 1 ∨ m = 2 ∨ m = 3) (rand : Nat → Nat) (pos : Nat) :
    firesExactly s m (process_fire rand m (s, pos)).1 :=
  process_fire_firesExactly s hwt m hm rand pos
    (fun i hi _ => by have := hmach i hi; omega) (by omega) (fun _ => by omega)
    (fun _ => by omega)

/-- C9 on a triple fire with two armed machines: a partial fire of two machines, after which
`tripleFire` is one lower and `maxShootableAmmo` two lower. -/
theorem C9_fire_conservation_witness :
    firesExactly (mkState [1, 1, 1] [5, 5, 5] [4, 3, 0] [] 7 1 1 4 0) 3
        (process_fire (fun n => 5 + n) 3
          (mkState [1, 1, 1] [5, 5, 5] [4, 3, 0] [] 7 1 1 4 0, 0)).1 ∧
    observe (process_fire (fun n => 5 + n) 3
        (mkState [1, 1, 1] [5, 5, 5] [4, 3, 0] [] 7 1 1 4 0, 0)).1
      = ([4, 4, 5, 0, 0, 0, 0, 0, 0, 0], [3, 2, 0, 0, 0, 0, 0, 0, 0, 0],
          [1, 1, 0, 0, 0, 0, 0, 0, 0, 0], [5, 1, 0, 0, 2]) :=
  ⟨C9_fire_conservation (mkState [1, 1, 1] [5, 5, 5] [4, 3, 0] [] 7 1 1 4 0) (by decide)
    (by decide) (by decide) (by decide) (by decide) 3 (by decide) (fun n => 5 + n) 0,
    by decide⟩


/-! ## Shooter macro: clearing loops and mode selection -/

/-- Closed form of the loop that clears `nextFires`. -/
theorem clearNext_eq (s : State) :
    forLoop (fun i (s : State) => { s with nextFires := setA s.nextFires i 0 }) 10 0 s
      = { s with nextFires := fun i => if i < 10 then 0 else s.nextFires i } := by
  have key := forLoop_inv (fun i (s : State) => { s with nextFires := setA s.nextFires i 0 })
    (fun j t => t = { s with nextFires := fun i => if i < j then 0 else s.nextFires i })
    10 0 s (by simp)
    (by
      intro j t _ _ hP
      subst hP
      show ({ s with nextFires := setA (fun i => if i < j then 0 else s.nextFires i) j 0 } : State)
        = _
      congr 1
      funext i
      by_cases e : i = j
      · subst e; simp [setA_same]
      · have hiff : i < j + 1 ↔ i < j := by
          constructor <;> intro h <;> omega
        rw [setA_other _ _ _ _ e]
        simp only [hiff])
  simpa using key

/-- Closed form of the loop that clears `ammo_game`. -/
theorem clearGame_eq (s : State) :
    forLoop (fun i (s : State) => { s with ammo_game := setA s.ammo_game i 0 }) 10 0 s
      = { s with ammo_game := fun i => if i < 10 then 0 else s.ammo_game i } := by
  have key := forLoop_inv (fun i (s : State) => { s with ammo_game := setA s.ammo_game i 0 })
    (fun j t => t = { s with ammo_game := fun i => if i < j then 0 else s.ammo_game i })
    10 0 s (by simp)
    (by
      intro j t _ _ hP
      subst hP
      show ({ s with ammo_game := setA (fun i => if i < j then 0 else s.ammo_game i) j 0 } : State)
        = _
      congr 1
      funext i
      by_cases e : i = j
      · subst e; simp [setA_same]
      · have hiff : i < j + 1 ↔ i < j := by
          constructor <;> intro h <;> omega
        rw [setA_other _ _ _ _ e]
        simp only [hiff])
  simpa using key

theorem reset_eq (s : State) :
    reset_selected_machines s
      = { s with nextFires := fun i => if i < 10 then 0 else s.nextFires i } :=
  clearNext_eq s

/-- The retry loop of `select_mode` returns within `101 - unable_to_resolve` draws, and a
mode above 1 only when its gate holds. -/
theorem modeLoop_spec (rand : Nat → Nat) (w0 w1 w2 rem d t : Int) (hw : w0 + w1 + w2 ≠ 0) :
    ∀ (fuel pos : Nat) (unable : Int), 0 ≤ unable → unable ≤ 100 → 100 - unable < fuel →
      ∃ m pos', modeLoop rand w0 w1 w2 rem d t fuel pos unable = some (m, pos') ∧
        (m = 1 ∨ (m = 2 ∧ rem ≥ 2 ∧ d > 0) ∨ (m = 3 ∧ rem ≥ 3 ∧ t > 0)) ∧
        pos < pos' ∧ (pos' : Int) ≤ pos + (101 - unable) := by
  intro fuel
  induction fuel with
  | zero => intro pos unable _ _ hf; omega
  | succ fuel ih =>
    intro pos unable h0 h100 hf
    unfold modeLoop
    rw [if_neg hw]
    by_cases c1 : wrap16 (Int.tmod (rand pos) (w0 + w1 + w2)) < w0 ∧ rem ≥ 1
    · rw [if_pos c1]
      exact ⟨1, pos + 1, rfl, Or.inl rfl, by omega, by push_cast; omega⟩
    · rw [if_neg c1]
      by_cases c2 : wrap16 (Int.tmod (rand pos) (w0 + w1 + w2)) < w0 + w1 ∧ rem ≥ 2 ∧ d > 0
      · rw [if_pos c2]
        exact ⟨2, pos + 1, rfl, Or.inr (Or.inl ⟨rfl, c2.2.1, c2.2.2⟩), by omega,
          by push_cast; omega⟩
      · rw [if_neg c2]
        by_cases c3 : wrap16 (Int.tmod (rand pos) (w0 + w1 + w2)) < w0 + w1 + w2 ∧ rem ≥ 3 ∧ t > 0
        · rw [if_pos c3]
          exact ⟨3, pos + 1, rfl, Or.inr (Or.inr ⟨rfl, c3.2.1, c3.2.2⟩), by omega,
            by push_cast; omega⟩
        · rw [if_neg c3]
          have hwu : wrap16 (unable + 1) = unable + 1 := by
            apply wrap16_id; unfold isShort; omega
          rw [hwu]
          by_cases c4 : unable + 1 > 100
          · rw [if_pos c4]
            exact ⟨1, pos + 1, rfl, Or.inl rfl, by omega, by push_cast; omega⟩
          · rw [if_neg c4]
            obtain ⟨m, pos', hres, hm, hp1, hp2⟩ := ih (pos + 1) (unable + 1) (by omega)
              (by omega) (by push_cast at hf; omega)
            exact ⟨m, pos', hres, hm, by omega, by push_cast at hp2; omega⟩

/-- With a positive remaining total, `select_mode` returns a mode in {1,2,3} that does not
exceed the remaining total, after at most 101 draws. -/
theorem select_mode_spec (fuel : Nat) (rand : Nat → Nat) (pos : Nat) (s : State)
    (hmax : 0 < s.maxShootableAmmo) (hmS : s.maxShootableAmmo ≤ 32767) (hfuel : 100 < fuel) :
    ∃ m pos', select_mode fuel rand pos s = some (m, pos') ∧
      (m = 1 ∨ (m = 2 ∧ s.maxShootableAmmo ≥ 2 ∧ s.doubleFire > 0) ∨
        (m = 3 ∧ s.maxShootableAmmo ≥ 3 ∧ s.tripleFire > 0)) ∧
      pos < pos' ∧ pos' ≤ pos + 101 := by
  have hw : wrap16 (s.maxShootableAmmo - s.doubleFire * 2 - s.tripleFire * 3)
      + wrap16 (s.doubleFire * 2) + wrap16 (s.tripleFire * 3) ≠ 0 := by
    unfold wrap16
    omega
  obtain ⟨m, pos', hres, hm, hp1, hp2⟩ := modeLoop_spec rand _ _ _ s.maxShootableAmmo
    s.doubleFire s.tripleFire hw fuel pos 0 (le_refl _) (by omega) (by omega)
  refine ⟨m, pos', ?_, hm, hp1, by omega⟩
  unfold select_mode
  rw [if_neg (by omega)]
  exact hres


/-! ## Shooter macro: preservation of the data-model conditions -/

/-- The part of the globals the data-model conditions read is the same in `s` and `t`. -/
theorem delayer_core (s : State) :
    (delayer s).2.usableMachines = s.usableMachines ∧ (delayer s).2.ammo_game = s.ammo_game ∧
    (delayer s).2.ammo_machine = s.ammo_machine ∧
    (delayer s).2.maxShootableAmmo = s.maxShootableAmmo ∧
    (delayer s).2.doubleFire = s.doubleFire ∧ (delayer s).2.tripleFire = s.tripleFire := by
  unfold delayer
  split
  · exact ⟨rfl, rfl, rfl, rfl, rfl, rfl⟩
  · split <;> exact ⟨rfl, rfl, rfl, rfl, rfl, rfl⟩

theorem checkEndGame_pos (s : State) (h : 0 < s.maxShootableAmmo) :
    checkEndGame s = (false, s) := by
  unfold checkEndGame
  rw [if_neg (by omega)]

theorem checkEndGame_nonpos (s : State) (h : s.maxShootableAmmo ≤ 0) :
    checkEndGame s = (true, { s with
      doubleFire := 0, tripleFire := 0,
      ammo_game := fun i => if i < 10 then 0 else s.ammo_game i }) := by
  unfold checkEndGame
  rw [if_pos h, clearGame_eq]

theorem endGame_eq (s : State) :
    endGame s = { s with
      lw400 := 0, lw500 := endWindowID,
      nextFires := fun i => if i < 10 then 0 else s.nextFires i } := by
  unfold endGame
  rw [clearNext_eq]

/-- The data-model conditions of the register file written back, from the globals `c` at
the end of the cycle and the enablement registers of `s`. -/
theorem dataModel_writeBack (s c : State) (h1 : 0 ≤ c.maxShootableAmmo)
    (h2 : ∀ i, i < 10 → s.usableMachines i ≠ 0 →
      c.ammo_game i ≤ c.ammo_machine i ∧ 0 ≤ c.ammo_machine i)
    (h3 : sum10 c.ammo_game ≤ c.maxShootableAmmo) :
    dataModel { c with usableMachines := s.usableMachines, delay := s.delay } ∧
    capacitiesNonneg { c with usableMachines := s.usableMachines, delay := s.delay } :=
  ⟨⟨h1, fun i hi hu => (h2 i hi hu).1, h3⟩, fun i hi hu => (h2 i hi hu).2⟩

/-- One invocation of the shooter `MacroEntry` on 16-bit registers that satisfy the three
data-model conditions and hold no negative capacity on an enabled machine: the invocation
returns, in every delay phase and for every sequence of draws, and the register file
written back satisfies the same conditions. -/
theorem dataModel_step (s : State) (hwt : WellTyped s) (hdm : dataModel s)
    (hcap : capacitiesNonneg s) (rand : Nat → Nat) (fuel : Nat) (hfuel : 100 < fuel) :
    ∃ t, MacroEntry fuel rand s = some t ∧ dataModel t ∧ capacitiesNonneg t := by
  obtain ⟨harr, hmS, _⟩ := hwt
  obtain ⟨d1, d2, d3⟩ := hdm
  have hs0 : ∀ s0 : State, s0 = clearStale s →
      s0.usableMachines = s.usableMachines ∧ s0.ammo_game = s.ammo_game ∧
      s0.ammo_machine = s.ammo_machine ∧ s0.maxShootableAmmo = s.maxShootableAmmo := by
    intro s0 h
    subst h
    unfold clearStale
    split
    · rw [reset_eq]; exact ⟨rfl, rfl, rfl, rfl⟩
    · exact ⟨rfl, rfl, rfl, rfl⟩
  have hcyc : ∃ c, cycle fuel rand s = some c ∧ 0 ≤ c.maxShootableAmmo ∧
      (∀ i, i < 10 → s.usableMachines i ≠ 0 →
        c.ammo_game i ≤ c.ammo_machine i ∧ 0 ≤ c.ammo_machine i) ∧
      sum10 c.ammo_game ≤ c.maxShootableAmmo := by
    unfold cycle
    generalize hg : clearStale s = s0
    obtain ⟨e1, e2, e3, e4⟩ := hs0 s0 hg.symm
    obtain ⟨f1, f2, f3, f4, _, _⟩ := delayer_core s0
    by_cases hdel : (delayer s0).1 = true
    · rw [if_pos hdel]
      refine ⟨_, rfl, by rw [f4, e4]; exact d1, ?_, by rw [f2, e2, f4, e4]; exact d3⟩
      intro i hi hu
      rw [f2, e2, f3, e3]
      exact ⟨d2 i hi hu, hcap i hi hu⟩
    · rw [if_neg hdel]
      unfold fireOrEnd
      by_cases hend : (delayer s0).2.maxShootableAmmo ≤ 0
      · rw [checkEndGame_nonpos _ hend]
        dsimp only
        rw [if_pos rfl, endGame_eq]
        refine ⟨_, rfl, by show 0 ≤ (delayer s0).2.maxShootableAmmo; rw [f4, e4]; exact d1,
          ?_, ?_⟩
        · intro i hi hu
          show (if i < 10 then 0 else (delayer s0).2.ammo_game i) ≤ (delayer s0).2.ammo_machine i ∧
            0 ≤ (delayer s0).2.ammo_machine i
          rw [f3, e3]
          simp only [hi, if_true]
          exact ⟨hcap i hi hu, hcap i hi hu⟩
        · show sum10 (fun i => if i < 10 then 0 else (delayer s0).2.ammo_game i)
            ≤ (delayer s0).2.maxShootableAmmo
          have : sum10 (fun i => if i < 10 then 0 else (delayer s0).2.ammo_game i) = 0 := by
            apply sumTo_zero
            intro i hi
            simp [hi]
          rw [this, f4, e4]; exact d1
      · have hpos : 0 < (delayer s0).2.maxShootableAmmo := by omega
        rw [checkEndGame_pos _ hpos]
        dsimp only
        rw [if_neg (by simp)]
        generalize hs1 : (delayer s0).2 = s1 at f1 f2 f3 f4 hpos
        have g1 : s1.usableMachines = s.usableMachines := by rw [f1, e1]
        have g2 : s1.ammo_game = s.ammo_game := by rw [f2, e2]
        have g3 : s1.ammo_machine = s.ammo_machine := by rw [f3, e3]
        have g4 : s1.maxShootableAmmo = s.maxShootableAmmo := by rw [f4, e4]
        obtain ⟨m, pos', hsel, hm, _, _⟩ := select_mode_spec fuel rand 0 s1 hpos
          (by rw [g4]; exact hmS.2) hfuel
        rw [hsel]
        dsimp only
        have hm0 : 0 ≤ m := by omega
        have hmle : m ≤ s1.maxShootableAmmo := by omega
        have hmn : ((m.toNat : Nat) : Int) = m := Int.toNat_of_nonneg hm0
        have harmed : ∀ i, i < 10 → armed s1 i →
            s.usableMachines i ≠ 0 ∧ 1 ≤ s.ammo_game i := by
          intro i _ a
          have a1 := a.1
          have a2 := a.2
          rw [g1] at a1
          rw [g2] at a2
          exact ⟨a1, by omega⟩
        obtain ⟨F, _, hlen, hmem, hff, _⟩ := processLoop_spec rand s1 pos' m.toNat
          (fun i hi => by rw [g2]; have := (harr i hi).2.2.2.2; omega)
          (fun i hi a => by
            rw [g3]
            have := harmed i hi a
            have := d2 i hi this.1
            have := (harr i hi).2.2.1.2
            omega)
          (by
            have : ((min m.toNat (armedBelow s1 10) : Nat) : Int) ≤ m := by omega
            omega)
          (by rw [g4]; have := hmS.2; omega)
        obtain ⟨_, hg', hma, _, hmx, hsum, _⟩ := hff
        have hpf : (process_fire rand m (s1, pos')).1
            = adjustCounters m (forLoop (fun _ q => fireOnce rand q) m.toNat 0 (s1, pos')).1 := rfl
        rw [hpf]
        generalize (forLoop (fun _ q => fireOnce rand q) m.toNat 0 (s1, pos')).1 = t
          at hg' hma hmx hsum
        have hA1 : (adjustCounters m t).ammo_game = t.ammo_game := by
          unfold adjustCounters; split
          · rfl
          · split <;> rfl
        have hA2 : (adjustCounters m t).ammo_machine = t.ammo_machine := by
          unfold adjustCounters; split
          · rfl
          · split <;> rfl
        have hA4 : (adjustCounters m t).maxShootableAmmo = t.maxShootableAmmo := by
          unfold adjustCounters; split
          · rfl
          · split <;> rfl
        have hFle : (F.length : Int) ≤ m := by omega
        refine ⟨_, rfl, by rw [hA4, hmx]; omega, ?_, ?_⟩
        · intro i hi hu
          rw [hA1, hA2, hg' i, hma i, g2, g3]
          have := d2 i hi hu
          have := hcap i hi hu
          by_cases hF : i ∈ F
          · have := harmed i hi (hmem i hF).2
            simp only [hF, if_true]
            omega
          · simp only [hF, if_false]
            omega
        · rw [hA1, hA4, hmx]
          rw [g2] at hsum
          rw [g4]
          omega
  obtain ⟨c, hc, c1, c2, c3⟩ := hcyc
  refine ⟨{ c with usableMachines := s.usableMachines, delay := s.delay }, ?_,
    dataModel_writeBack s c c1 c2 c3⟩
  unfold MacroEntry
  rw [hc]


/-! ## Shooter macro: delay gate and end of game -/

theorem tdiv_two_nonpos (a : Int) (h : a ≤ 0) : Int.tdiv a 2 ≤ 0 := by
  have h1 : Int.tdiv (-a) 2 = (-a) / 2 := Int.tdiv_eq_ediv (by omega) (by omega)
  have h2 : Int.tdiv (-a) 2 = - Int.tdiv a 2 := Int.neg_tdiv ..
  omega

theorem tdiv_two_pos (a : Int) (h : 2 ≤ a) : 0 < Int.tdiv a 2 := by
  have h1 : Int.tdiv a 2 = a / 2 := Int.tdiv_eq_ediv (by omega) (by omega)
  omega

/-- The clearing step at the start of `MacroEntry` changes `nextFires` at most. -/
theorem clearStale_cases (s : State) :
    (¬ s.remainingDelay < Int.tdiv s.delay 2 ∧ clearStale s = s) ∨
    (s.remainingDelay < Int.tdiv s.delay 2 ∧
      clearStale s = { s with nextFires := fun i => if i < 10 then 0 else s.nextFires i }) := by
  unfold clearStale
  by_cases h : s.remainingDelay < Int.tdiv s.delay 2
  · right
    rw [if_pos h, reset_eq]
    exact ⟨h, rfl⟩
  · left
    rw [if_neg h]
    exact ⟨h, rfl⟩

/-- C12 (a non-positive delay is a no-op): with a configured delay of zero or less and a
non-negative `remainingDelay`, one invocation of the shooter `MacroEntry` returns, for every
fuel and every sequence of draws, the register file it was given: no machine fires and no
register changes. -/
theorem C12_nonpositive_delay_noop (s : State) (hd : s.delay ≤ 0) (hr : 0 ≤ s.remainingDelay)
    (fuel : Nat) (rand : Nat → Nat) : MacroEntry fuel rand s = some s := by
  have h1 := tdiv_two_nonpos s.delay hd
  have hcs : clearStale s = s := by
    rcases clearStale_cases s with ⟨_, h⟩ | ⟨h, _⟩
    · exact h
    · omega
  have hdel : delayer s = (true, s) := by
    unfold delayer
    rw [if_pos hd]
  unfold MacroEntry cycle
  rw [hcs, hdel]
  simp only [if_true]

/-- C12 on a register file with delay 0 and pending marks in `nextFires`. -/
theorem C12_nonpositive_delay_noop_witness :
    MacroEntry 0 (fun n => n) (mkState [1, 1] [5, 5] [2, 3] [1, 0, 1] 5 1 0 0 2)
      = some (mkState [1, 1] [5, 5] [2, 3] [1, 0, 1] 5 1 0 0 2) :=
  C12_nonpositive_delay_noop (mkState [1, 1] [5, 5] [2, 3] [1, 0, 1] 5 1 0 0 2) (by decide)
    (by decide) 0 (fun n => n)

/-- The end-of-game invocation: the delay gate opens and the remaining total is used up. -/
theorem endGame_step (s : State) (hd : 0 < s.delay) (hr : s.remainingDelay = 0)
    (hm : s.maxShootableAmmo ≤ 0) (fuel : Nat) (rand : Nat → Nat) :
    ∃ t, MacroEntry fuel rand s = some t ∧ t.doubleFire = 0 ∧ t.tripleFire = 0 ∧
      (∀ i, i < 10 → t.ammo_game i = 0) ∧ (∀ i, i < 10 → t.nextFires i = 0) ∧
      t.remainingDelay = s.delay ∧ t.maxShootableAmmo = s.maxShootableAmmo ∧
      t.ammo_machine = s.ammo_machine ∧ t.fired = s.fired ∧
      t.usableMachines = s.usableMachines ∧ t.delay = s.delay := by
  have hkey : ∀ s0 : State, s0.delay = s.delay → s0.remainingDelay = 0 →
      s0.maxShootableAmmo = s.maxShootableAmmo → s0.ammo_machine = s.ammo_machine →
      s0.fired = s.fired →
      ∃ c, (if (delayer s0).1 then some (delayer s0).2
          else fireOrEnd fuel rand (delayer s0).2) = some c ∧
        c.doubleFire = 0 ∧ c.tripleFire = 0 ∧
        (∀ i, i < 10 → c.ammo_game i = 0) ∧ (∀ i, i < 10 → c.nextFires i = 0) ∧
        c.remainingDelay = s.delay ∧ c.maxShootableAmmo = s.maxShootableAmmo ∧
        c.ammo_machine = s.ammo_machine ∧ c.fired = s.fired := by
    intro s0 e1 e2 e3 e4 e5
    have hdel : delayer s0 = (false, { s0 with remainingDelay := s0.delay }) := by
      unfold delayer
      rw [if_neg (by rw [e1]; omega), if_pos e2]
    rw [hdel]
    simp only [Bool.false_eq_true, if_false]
    unfold fireOrEnd
    rw [checkEndGame_nonpos _ (by show s0.maxShootableAmmo ≤ 0; rw [e3]; exact hm)]
    simp only [if_true]
    rw [endGame_eq]
    refine ⟨_, rfl, rfl, rfl, ?_, ?_, e1, e3, e4, e5⟩
    · intro i hi
      show (if i < 10 then 0 else s0.ammo_game i) = 0
      simp [hi]
    · intro i hi
      show (if i < 10 then 0 else s0.nextFires i) = 0
      simp [hi]
  have hcyc : ∃ c, cycle fuel rand s = some c ∧
      c.doubleFire = 0 ∧ c.tripleFire = 0 ∧
      (∀ i, i < 10 → c.ammo_game i = 0) ∧ (∀ i, i < 10 → c.nextFires i = 0) ∧
      c.remainingDelay = s.delay ∧ c.maxShootableAmmo = s.maxShootableAmmo ∧
      c.ammo_machine = s.ammo_machine ∧ c.fired = s.fired := by
    unfold cycle
    rcases clearStale_cases s with ⟨_, h⟩ | ⟨_, h⟩
    · rw [h]; exact hkey s rfl hr rfl rfl rfl
    · rw [h]; exact hkey _ rfl hr rfl rfl rfl
  obtain ⟨c, hc, c1, c2, c3, c4, c5, c6, c7, c8⟩ := hcyc
  refine ⟨{ c with usableMachines := s.usableMachines, delay := s.delay }, ?_,
    c1, c2, c3, c4, c5, c6, c7, c8, rfl, rfl⟩
  unfold MacroEntry
  rw [hc]

/-- C13 (end-game step): with a positive configured delay, `remainingDelay = 0` and
`maxShootableAmmo <= 0`, one invocation of the shooter `MacroEntry` returns, for every fuel
and every sequence of draws, with `doubleFire = 0`, `tripleFire = 0`, an all-zero `ammo_game`
and `nextFires`, `remainingDelay` set to the configured delay, and `maxShootableAmmo`,
`ammo_machine` and `fired` unchanged. -/
theorem C13_end_game_step (s : State) (hd : 0 < s.delay) (hr : s.remainingDelay = 0)
    (hm : s.maxShootableAmmo ≤ 0) (fuel : Nat) (rand : Nat → Nat) :
    ∃ t, MacroEntry fuel rand s = some t ∧ t.doubleFire = 0 ∧ t.tripleFire = 0 ∧
      (∀ i, i < 10 → t.ammo_game i = 0) ∧ (∀ i, i < 10 → t.nextFires i = 0) ∧
      t.remainingDelay = s.delay ∧ t.maxShootableAmmo = s.maxShootableAmmo ∧
      t.ammo_machine = s.ammo_machine ∧ t.fired = s.fired := by
  obtain ⟨t, h, h1, h2, h3, h4, h5, h6, h7, h8, _, _⟩ := endGame_step s hd hr hm fuel rand
  exact ⟨t, h, h1, h2, h3, h4, h5, h6, h7, h8⟩

/-- C13 on a register file with leftover allocation, pending quotas and stale marks. -/
theorem C13_end_game_step_witness :
    ∃ t, MacroEntry 0 (fun n => n) (mkState [1, 1] [5, 5] [2, 3] [1, 0, 1] 0 2 1 1 0) = some t ∧
      t.doubleFire = 0 ∧ t.tripleFire = 0 ∧
      (∀ i, i < 10 → t.ammo_game i = 0) ∧ (∀ i, i < 10 → t.nextFires i = 0) ∧
      t.remainingDelay = (mkState [1, 1] [5, 5] [2, 3] [1, 0, 1] 0 2 1 1 0).delay ∧
      t.maxShootableAmmo = (mkState [1, 1] [5, 5] [2, 3] [1, 0, 1] 0 2 1 1 0).maxShootableAmmo ∧
      t.ammo_machine = (mkState [1, 1] [5, 5] [2, 3] [1, 0, 1] 0 2 1 1 0).ammo_machine ∧
      t.fired = (mkState [1, 1] [5, 5] [2, 3] [1, 0, 1] 0 2 1 1 0).fired :=
  C13_end_game_step (mkState [1, 1] [5, 5] [2, 3] [1, 0, 1] 0 2 1 1 0) (by decide) (by decide)
    (by decide) 0 (fun n => n)

/-- One invocation at the end of the game keeps the end-of-game condition. -/
theorem gameOver_step (s : State) (h : gameOver s) (fuel : Nat) (rand : Nat → Nat) :
    ∃ t, MacroEntry fuel rand s = some t ∧ gameOver t ∧
      t.maxShootableAmmo = s.maxShootableAmmo ∧ t.ammo_machine = s.ammo_machine := by
  obtain ⟨g1, g2, g3, g4⟩ := h
  have hkey : ∀ s0 : State, s0.maxShootableAmmo = s.maxShootableAmmo →
      s0.ammo_machine = s.ammo_machine → s0.doubleFire = 0 → s0.tripleFire = 0 →
      (∀ i, i < 10 → s0.ammo_game i = 0) →
      ∃ c, (if (delayer s0).1 then some (delayer s0).2
          else fireOrEnd fuel rand (delayer s0).2) = some c ∧
        c.maxShootableAmmo = s.maxShootableAmmo ∧ c.ammo_machine = s.ammo_machine ∧
        c.doubleFire = 0 ∧ c.tripleFire = 0 ∧ (∀ i, i < 10 → c.ammo_game i = 0) := by
    intro s0 e1 e2 e3 e4 e5
    obtain ⟨_, f2, f3, f4, f5, f6⟩ := delayer_core s0
    by_cases hdel : (delayer s0).1 = true
    · rw [if_pos hdel]
      exact ⟨_, rfl, by rw [f4, e1], by rw [f3, e2], by rw [f5, e3], by rw [f6, e4],
        by rw [f2]; exact e5⟩
    · rw [if_neg hdel]
      unfold fireOrEnd
      rw [checkEndGame_nonpos _ (by rw [f4, e1]; exact g1)]
      simp only [if_true]
      rw [endGame_eq]
      refine ⟨_, rfl, by show (delayer s0).2.maxShootableAmmo = _; rw [f4, e1],
        by show (delayer s0).2.ammo_machine = _; rw [f3, e2], rfl, rfl, ?_⟩
      intro i hi
      show (if i < 10 then 0 else (delayer s0).2.ammo_game i) = 0
      simp [hi]
  have hcyc : ∃ c, cycle fuel rand s = some c ∧
      c.maxShootableAmmo = s.maxShootableAmmo ∧ c.ammo_machine = s.ammo_machine ∧
      c.doubleFire = 0 ∧ c.tripleFire = 0 ∧ (∀ i, i < 10 → c.ammo_game i = 0) := by
    unfold cycle
    rcases clearStale_cases s with ⟨_, h⟩ | ⟨_, h⟩
    · rw [h]; exact hkey s rfl rfl g2 g3 g4
    · rw [h]; exact hkey _ rfl rfl g2 g3 g4
  obtain ⟨c, hc, c1, c2, c3, c4, c5⟩ := hcyc
  refine ⟨{ c with usableMachines := s.usableMachines, delay := s.delay }, ?_,
    ⟨by show c.maxShootableAmmo ≤ 0; rw [c1]; exact g1, c3, c4, c5⟩, c1, c2⟩
  unfold MacroEntry
  rw [hc]

/-- C14 (end-game idempotence): from a register file with `maxShootableAmmo <= 0`,
`doubleFire = 0`, `tripleFire = 0` and an all-zero `ammo_game`, whatever the configured
delay and `remainingDelay`, any number of invocations of the shooter `MacroEntry` with any
draws returns, and the register file still has `doubleFire = 0`, `tripleFire = 0` and an
all-zero `ammo_game`, with `maxShootableAmmo` and `ammo_machine` unchanged. -/
theorem C14_end_game_idempotent (s : State) (h : gameOver s) (fuel : Nat)
    (draws : List (Nat → Nat)) :
    ∃ t, invocations fuel draws s = some t ∧ t.doubleFire = 0 ∧ t.tripleFire = 0 ∧
      (∀ i, i < 10 → t.ammo_game i = 0) ∧
      t.maxShootableAmmo = s.maxShootableAmmo ∧ t.ammo_machine = s.ammo_machine := by
  induction draws generalizing s with
  | nil => exact ⟨s, rfl, h.2.1, h.2.2.1, h.2.2.2, rfl, rfl⟩
  | cons rand rest ih =>
    obtain ⟨t, ht, hg, hm, ha⟩ := gameOver_step s h fuel rand
    obtain ⟨u, hu, u1, u2, u3, u4, u5⟩ := ih t hg
    refine ⟨u, ?_, u1, u2, u3, by rw [u4, hm], by rw [u5, ha]⟩
    simp only [invocations, ht]
    exact hu

/-- C14 on three invocations from a finished game, with delay 1. -/
theorem C14_end_game_idempotent_witness :
    ∃ t, invocations 0 [fun n => n, fun _ => 7, fun n => 2 * n]
        (mkState [1, 1] [5, 5] [] [1, 0, 1] 0 0 0 1 0) = some t ∧
      t.doubleFire = 0 ∧ t.tripleFire = 0 ∧ (∀ i, i < 10 → t.ammo_game i = 0) ∧
      t.maxShootableAmmo = (mkState [1, 1] [5, 5] [] [1, 0, 1] 0 0 0 1 0).maxShootableAmmo ∧
      t.ammo_machine = (mkState [1, 1] [5, 5] [] [1, 0, 1] 0 0 0 1 0).ammo_machine :=
  C14_end_game_idempotent (mkState [1, 1] [5, 5] [] [1, 0, 1] 0 0 0 1 0) (by decide) 0
    [fun n => n, fun _ => 7, fun n => 2 * n]


/-! ## Shooter macro: the delay period -/

/-- One call of `delayer` with a positive 16-bit delay and `remainingDelay` in `[0, delay]`. -/
theorem delayer_gate (s : State) (hd : 0 < s.delay) (hdS : s.delay ≤ 32767)
    (hr0 : 0 ≤ s.remainingDelay) (hr1 : s.remainingDelay ≤ s.delay) :
    ((delayer s).1 = false ↔ s.remainingDelay = 0) ∧
    (delayer s).2.remainingDelay
      = (if s.remainingDelay = 0 then s.delay else s.remainingDelay - 1) ∧
    (delayer s).2.delay = s.delay := by
  unfold delayer
  rw [if_neg (by omega)]
  by_cases h : s.remainingDelay = 0
  · rw [if_pos h, if_pos h]
    exact ⟨⟨fun _ => h, fun _ => rfl⟩, rfl, rfl⟩
  · rw [if_neg h, if_neg h]
    refine ⟨⟨fun c => by simp at c, fun c => absurd c h⟩, ?_, rfl⟩
    show wrap16 (s.remainingDelay - 1) = _
    apply wrap16_id
    unfold isShort
    omega

theorem emod_of_decomp (a m q r : Int) (h : a = r + m * q) (h0 : 0 ≤ r) (h1 : r < m) :
    a % m = r := by
  rw [h, Int.add_mul_emod_self_left]
  exact Int.emod_eq_of_lt h0 h1

/-- The delay counter along any sequence of globals in which the delay stays `D` and
`remainingDelay` is only changed by `delayer`: after `n` invocations it is the
representative in `[0, D]` of `-n` modulo `D + 1`. -/
theorem delay_counter (st : Nat → State) (D : Int) (hD : 1 ≤ D) (hDS : D ≤ 32767)
    (h0 : (st 0).remainingDelay = 0) (hdelay : ∀ n, (st n).delay = D)
    (hstep : ∀ n, (st (n + 1)).remainingDelay = (delayer (st n)).2.remainingDelay) :
    ∀ n : Nat, ∃ q : Int, 0 ≤ (st n).remainingDelay ∧ (st n).remainingDelay ≤ D ∧
      (n : Int) + (st n).remainingDelay = (D + 1) * q := by
  intro n
  induction n with
  | zero => exact ⟨0, by rw [h0], by rw [h0]; omega, by rw [h0]; simp⟩
  | succ n ih =>
    obtain ⟨q, r0, r1, hq⟩ := ih
    obtain ⟨_, hrem, _⟩ := delayer_gate (st n) (by rw [hdelay n]; omega)
      (by rw [hdelay n]; exact hDS) r0 (by rw [hdelay n]; exact r1)
    rw [hstep n, hrem, hdelay n]
    by_cases h : (st n).remainingDelay = 0
    · rw [if_pos h]
      refine ⟨q + 1, by omega, le_refl _, ?_⟩
      rw [h] at hq
      have e : (D + 1) * (q + 1) = (D + 1) * q + (D + 1) := by ring
      rw [e, ← hq]
      push_cast
      omega
    · rw [if_neg h]
      refine ⟨q, by omega, by omega, ?_⟩
      rw [← hq]
      push_cast
      omega

/-- The delay period along a sequence of globals: invocation `n` is permitted to fire iff
`n` is 1 modulo `D + 1`, and `remainingDelay` is 0 after it iff `n` is a multiple of `D + 1`. -/
theorem delay_period (st : Nat → State) (D : Int) (hD : 1 ≤ D) (hDS : D ≤ 32767)
    (h0 : (st 0).remainingDelay = 0) (hdelay : ∀ n, (st n).delay = D)
    (hstep : ∀ n, (st (n + 1)).remainingDelay = (delayer (st n)).2.remainingDelay)
    (n : Nat) (hn : 1 ≤ n) :
    ((delayer (st (n - 1))).1 = false ↔ (n : Int) % (D + 1) = 1) ∧
    0 ≤ (st n).remainingDelay ∧ (st n).remainingDelay ≤ D ∧
    ((st n).remainingDelay = 0 ↔ (n : Int) % (D + 1) = 0) := by
  obtain ⟨q, r0, r1, hq⟩ := delay_counter st D hD hDS h0 hdelay hstep n
  obtain ⟨p, p0, p1, hp⟩ := delay_counter st D hD hDS h0 hdelay hstep (n - 1)
  obtain ⟨hgate, _, _⟩ := delayer_gate (st (n - 1)) (by rw [hdelay]; omega)
    (by rw [hdelay]; exact hDS) p0 (by rw [hdelay]; exact p1)
  have hn1 : ((n - 1 : Nat) : Int) = (n : Int) - 1 := by omega
  rw [hn1] at hp
  refine ⟨?_, r0, r1, ?_⟩
  · rw [hgate]
    constructor
    · intro h
      rw [h] at hp
      exact emod_of_decomp (n : Int) (D + 1) p 1 (by omega) (by omega) (by omega)
    · intro h
      have h2 := Int.emod_add_ediv (n : Int) (D + 1)
      rw [h] at h2
      have h3 : (st (n - 1)).remainingDelay = (D + 1) * (p - (n : Int) / (D + 1)) := by
        have e : (D + 1) * (p - (n : Int) / (D + 1))
            = (D + 1) * p - (D + 1) * ((n : Int) / (D + 1)) := by ring
        rw [e]
        omega
      have h4 : (st (n - 1)).remainingDelay % (D + 1) = 0 := by
        rw [h3]; exact Int.mul_emod_right _ _
      rw [Int.emod_eq_of_lt p0 (by omega)] at h4
      exact h4
  · constructor
    · intro h
      rw [h] at hq
      exact emod_of_decomp (n : Int) (D + 1) q 0 (by omega) (le_refl _) (by omega)
    · intro h
      have h2 := Int.emod_add_ediv (n : Int) (D + 1)
      rw [h] at h2
      have h3 : (st n).remainingDelay = (D + 1) * (q - (n : Int) / (D + 1)) := by
        have e : (D + 1) * (q - (n : Int) / (D + 1))
            = (D + 1) * q - (D + 1) * ((n : Int) / (D + 1)) := by ring
        rw [e]
        omega
      have h4 : (st n).remainingDelay % (D + 1) = 0 := by
        rw [h3]; exact Int.mul_emod_right _ _
      rw [Int.emod_eq_of_lt r0 (by omega)] at h4
      exact h4

theorem delayerRun_delay (s : State) : ∀ n, (delayerRun s n).delay = s.delay := by
  intro n
  induction n with
  | zero => rfl
  | succ n ih =>
    show (delayer (delayerRun s n)).2.delay = s.delay
    rw [← ih]
    unfold delayer
    split
    · rfl
    · split <;> rfl

/-- C11 (delay period): with a constant 16-bit configured delay `D >= 1` and
`remainingDelay = 0` before the first invocation, over consecutive invocations numbered
from 1, `delayer` permits firing on invocation `n` iff `n` is congruent to 1 modulo `D + 1`;
`remainingDelay` after invocation `n` lies in `[0, D]` and is 0 iff `n` is a multiple of
`D + 1`. -/
theorem C11_delay_period (s : State) (hD : 1 ≤ s.delay) (hDS : s.delay ≤ 32767)
    (h0 : s.remainingDelay = 0) (n : Nat) (hn : 1 ≤ n) :
    ((delayer (delayerRun s (n - 1))).1 = false ↔ (n : Int) % (s.delay + 1) = 1) ∧
    0 ≤ (delayerRun s n).remainingDelay ∧ (delayerRun s n).remainingDelay ≤ s.delay ∧
    ((delayerRun s n).remainingDelay = 0 ↔ (n : Int) % (s.delay + 1) = 0) :=
  delay_period (delayerRun s) s.delay hD hDS h0 (delayerRun_delay s) (fun _ => rfl) n hn

/-- C11 on delay 4, at invocation 6, the second one permitted to fire. -/
theorem C11_delay_period_witness :
    ((delayer (delayerRun (mkState [1] [5] [5] [] 5 0 0 4 0) (6 - 1))).1 = false ↔
      ((6 : Nat) : Int) % ((mkState [1] [5] [5] [] 5 0 0 4 0).delay + 1) = 1) ∧
    0 ≤ (delayerRun (mkState [1] [5] [5] [] 5 0 0 4 0) 6).remainingDelay ∧
    (delayerRun (mkState [1] [5] [5] [] 5 0 0 4 0) 6).remainingDelay
      ≤ (mkState [1] [5] [5] [] 5 0 0 4 0).delay ∧
    ((delayerRun (mkState [1] [5] [5] [] 5 0 0 4 0) 6).remainingDelay = 0 ↔
      ((6 : Nat) : Int) % ((mkState [1] [5] [5] [] 5 0 0 4 0).delay + 1) = 0) :=
  C11_delay_period (mkState [1] [5] [5] [] 5 0 0 4 0) (by decide) (by decide) (by decide) 6
    (by decide)


/-! ## Shooter macro: mode gating, machine selection and bounded retry -/

/-- C18 (mode gating): for 16-bit registers, every sequence of draws and enough fuel for
the 101 possible draws, `select_mode` returns a mode `m` in {0,1,2,3}; `m = 0` iff
`maxShootableAmmo <= 0`; `m = 2` only when `doubleFire > 0` and `maxShootableAmmo >= 2`;
`m = 3` only when `tripleFire > 0` and `maxShootableAmmo >= 3`; and every non-zero `m`
is at most `maxShootableAmmo`. -/
theorem C18_mode_gating (s : State) (hwt : WellTyped s) (fuel : Nat) (hfuel : 100 < fuel)
    (rand : Nat → Nat) (pos : Nat) :
    ∃ m pos', select_mode fuel rand pos s = some (m, pos') ∧
      (m = 0 ∨ m = 1 ∨ m = 2 ∨ m = 3) ∧
      (m = 0 ↔ s.maxShootableAmmo ≤ 0) ∧
      (m = 2 → s.doubleFire > 0 ∧ s.maxShootableAmmo ≥ 2) ∧
      (m = 3 → s.tripleFire > 0 ∧ s.maxShootableAmmo ≥ 3) ∧
      (m ≠ 0 → m ≤ s.maxShootableAmmo) := by
  obtain ⟨_, hmS, _⟩ := hwt
  by_cases hmax : s.maxShootableAmmo ≤ 0
  · refine ⟨0, pos, ?_, Or.inl rfl, ⟨fun _ => hmax, fun _ => rfl⟩, by omega, by omega,
      fun h => absurd rfl h⟩
    unfold select_mode
    rw [if_pos hmax]
  · obtain ⟨m, pos', hsel, hm, _, _⟩ :=
      select_mode_spec fuel rand pos s (by omega) hmS.2 hfuel
    refine ⟨m, pos', hsel, by omega, ⟨fun h => by omega, fun h => absurd h hmax⟩,
      by omega, by omega, fun _ => by omega⟩

/-- C18 on a register file with one double and one triple fire pending. -/
theorem C18_mode_gating_witness :
    ∃ m pos', select_mode 101 (fun n => 7 + n) 0
        (mkState [1, 1, 1] [5, 5, 5] [4, 3, 3] [] 10 1 1 4 0) = some (m, pos') ∧
      (m = 0 ∨ m = 1 ∨ m = 2 ∨ m = 3) ∧
      (m = 0 ↔ (mkState [1, 1, 1] [5, 5, 5] [4, 3, 3] [] 10 1 1 4 0).maxShootableAmmo ≤ 0) ∧
      (m = 2 → (mkState [1, 1, 1] [5, 5, 5] [4, 3, 3] [] 10 1 1 4 0).doubleFire > 0 ∧
        (mkState [1, 1, 1] [5, 5, 5] [4, 3, 3] [] 10 1 1 4 0).maxShootableAmmo ≥ 2) ∧
      (m = 3 → (mkState [1, 1, 1] [5, 5, 5] [4, 3, 3] [] 10 1 1 4 0).tripleFire > 0 ∧
        (mkState [1, 1, 1] [5, 5, 5] [4, 3, 3] [] 10 1 1 4 0).maxShootableAmmo ≥ 3) ∧
      (m ≠ 0 → m ≤ (mkState [1, 1, 1] [5, 5, 5] [4, 3, 3] [] 10 1 1 4 0).maxShootableAmmo) :=
  C18_mode_gating (mkState [1, 1, 1] [5, 5, 5] [4, 3, 3] [] 10 1 1 4 0) (by decide) 101
    (by decide) (fun n => 7 + n) 0

theorem weightBelow_zero_iff (s : State) : weightBelow s 10 = 0 ↔ armedBelow s 10 = 0 := by
  constructor
  · intro h
    have := weightBelow_ge_armed s 10
    omega
  · exact weightBelow_zero_of_armed_zero s 10

theorem weightBelow_succ_le (s : State) (j i : Nat) (h : j < i) :
    weightBelow s (j + 1) ≤ weightBelow s i :=
  weightBelow_mono s (j + 1) i (by omega)

/-- C19 (weighted machine selection): with the weight of machine `i` its `ammo_game` when
it is enabled with `ammo_game > 0` and 0 otherwise, and `W` the sum of the ten weights,
`weighted_random_selection` returns -1 iff `W = 0`; otherwise, for the value `r` of
`rand()`, it returns the one index `i` whose partial sums satisfy
`w[0]+...+w[i-1] <= r mod W < w[0]+...+w[i]`, and machine `i` is enabled with
`ammo_game > 0`. -/
theorem C19_weighted_selection (s : State) (rand : Nat → Nat) (pos : Nat) :
    ((weighted_random_selection rand pos s).1 = -1 ↔ weightBelow s 10 = 0) ∧
    (weightBelow s 10 ≠ 0 → ∃ i : Nat, i < 10 ∧ (weighted_random_selection rand pos s).1 = (i : Int) ∧
      armed s i ∧
      weightBelow s i ≤ (rand pos : Int) % weightBelow s 10 ∧
      (rand pos : Int) % weightBelow s 10 < weightBelow s (i + 1) ∧
      ∀ j, j < 10 → weightBelow s j ≤ (rand pos : Int) % weightBelow s 10 →
        (rand pos : Int) % weightBelow s 10 < weightBelow s (j + 1) → j = i) := by
  obtain ⟨h0, h1⟩ := weighted_random_selection_spec rand pos s
  have hz := weightBelow_zero_iff s
  constructor
  · constructor
    · intro h
      by_contra hne
      have hne2 : armedBelow s 10 ≠ 0 := fun e => hne (hz.mpr e)
      clear h0
      obtain ⟨i, _, _, hw, _, _⟩ := h1 hne2
      clear h1
      rw [hw] at h
      have : (i : Int) = -1 := h
      omega
    · intro h
      rw [h0 (hz.mp h)]
  · intro hne
    have hne2 : armedBelow s 10 ≠ 0 := fun e => hne (hz.mpr e)
    clear h0
    obtain ⟨i, hi, ha, hw, hlo, hhi⟩ := h1 hne2
    clear h1
    refine ⟨i, hi, by rw [hw], ha, hlo, hhi, ?_⟩
    intro j _ jlo jhi
    by_contra hji
    rcases Nat.lt_or_gt_of_ne hji with h | h
    · have := weightBelow_succ_le s j i h
      omega
    · have := weightBelow_succ_le s i j h
      omega

/-- C19 on weights [4, 0, 3] and the draw 5, which selects machine 2. -/
theorem C19_weighted_selection_witness :
    (((weighted_random_selection (fun _ => 5) 0
        (mkState [1, 0, 1] [5, 5, 5] [4, 3, 3] [] 10 1 1 4 0)).1 = -1 ↔
      weightBelow (mkState [1, 0, 1] [5, 5, 5] [4, 3, 3] [] 10 1 1 4 0) 10 = 0) ∧
    (weightBelow (mkState [1, 0, 1] [5, 5, 5] [4, 3, 3] [] 10 1 1 4 0) 10 ≠ 0 →
      ∃ i : Nat, i < 10 ∧ (weighted_random_selection (fun _ => 5) 0
          (mkState [1, 0, 1] [5, 5, 5] [4, 3, 3] [] 10 1 1 4 0)).1 = (i : Int) ∧
        armed (mkState [1, 0, 1] [5, 5, 5] [4, 3, 3] [] 10 1 1 4 0) i ∧
        weightBelow (mkState [1, 0, 1] [5, 5, 5] [4, 3, 3] [] 10 1 1 4 0) i
          ≤ (((fun _ => 5) 0 : Nat) : Int)
            % weightBelow (mkState [1, 0, 1] [5, 5, 5] [4, 3, 3] [] 10 1 1 4 0) 10 ∧
        (((fun _ => 5) 0 : Nat) : Int)
            % weightBelow (mkState [1, 0, 1] [5, 5, 5] [4, 3, 3] [] 10 1 1 4 0) 10
          < weightBelow (mkState [1, 0, 1] [5, 5, 5] [4, 3, 3] [] 10 1 1 4 0) (i + 1) ∧
        ∀ j, j < 10 →
          weightBelow (mkState [1, 0, 1] [5, 5, 5] [4, 3, 3] [] 10 1 1 4 0) j
            ≤ (((fun _ => 5) 0 : Nat) : Int)
              % weightBelow (mkState [1, 0, 1] [5, 5, 5] [4, 3, 3] [] 10 1 1 4 0) 10 →
          (((fun _ => 5) 0 : Nat) : Int)
              % weightBelow (mkState [1, 0, 1] [5, 5, 5] [4, 3, 3] [] 10 1 1 4 0) 10
            < weightBelow (mkState [1, 0, 1] [5, 5, 5] [4, 3, 3] [] 10 1 1 4 0) (j + 1) →
          j = i)) ∧
    (weighted_random_selection (fun _ => 5) 0
      (mkState [1, 0, 1] [5, 5, 5] [4, 3, 3] [] 10 1 1 4 0)) = (2, 1) :=
  ⟨C19_weighted_selection (mkState [1, 0, 1] [5, 5, 5] [4, 3, 3] [] 10 1 1 4 0) (fun _ => 5) 0,
    by decide⟩

/-- The retry loop of `select_mode` when every draw it makes is unresolved: it gives up
after `101 - unable_to_resolve` draws and returns 1. -/
theorem modeLoop_exhausted (rand : Nat → Nat) (w0 w1 w2 rem d t : Int) (hw : w0 + w1 + w2 ≠ 0) :
    ∀ (fuel pos : Nat) (unable : Int), 0 ≤ unable → unable ≤ 100 → 100 - unable < fuel →
      (∀ k : Nat, (k : Int) < 101 - unable →
        ¬ (wrap16 (Int.tmod (rand (pos + k)) (w0 + w1 + w2)) < w0 ∧ rem ≥ 1) ∧
        ¬ (wrap16 (Int.tmod (rand (pos + k)) (w0 + w1 + w2)) < w0 + w1 ∧ rem ≥ 2 ∧ d > 0) ∧
        ¬ (wrap16 (Int.tmod (rand (pos + k)) (w0 + w1 + w2)) < w0 + w1 + w2 ∧ rem ≥ 3
            ∧ t > 0)) →
      modeLoop rand w0 w1 w2 rem d t fuel pos unable
        = some (1, pos + (101 - unable).toNat) := by
  intro fuel
  induction fuel with
  | zero => intro pos unable _ _ hf; omega
  | succ fuel ih =>
    intro pos unable h0 h100 hf hall
    obtain ⟨c1, c2, c3⟩ := hall 0 (by omega)
    simp only [Nat.add_zero] at c1 c2 c3
    unfold modeLoop
    rw [if_neg hw, if_neg c1, if_neg c2, if_neg c3]
    have hwu : wrap16 (unable + 1) = unable + 1 := by
      apply wrap16_id; unfold isShort; omega
    rw [hwu]
    by_cases c4 : unable + 1 > 100
    · rw [if_pos c4]
      have : (101 - unable).toNat = 1 := by omega
      rw [this]
    · rw [if_neg c4]
      rw [ih (pos + 1) (unable + 1) (by omega) (by omega) (by push_cast at hf; omega)
        (by
          intro k hk
          have := hall (k + 1) (by push_cast; omega)
          have e : pos + (k + 1) = pos + 1 + k := by omega
          rw [e] at this
          exact this)]
      have : pos + 1 + (101 - (unable + 1)).toNat = pos + (101 - unable).toNat := by omega
      rw [this]

/-- C20 (bounded retry): with `maxShootableAmmo > 0`, a non-zero total weight and enough
fuel for 101 draws, `select_mode` returns after consuming at least one and at most 101
draws; when each of the 101 draws is unresolved (it lands where none of the three gated
bands accepts it), `select_mode` consumes all 101 and returns 1. -/
theorem C20_bounded_retry (s : State) (hmax : 0 < s.maxShootableAmmo)
    (hW : modeModulus s ≠ 0) (fuel : Nat) (hfuel : 100 < fuel) (rand : Nat → Nat) (pos : Nat) :
    ∃ m pos', select_mode fuel rand pos s = some (m, pos') ∧ pos < pos' ∧ pos' ≤ pos + 101 ∧
      ((∀ k, k < 101 → unresolved s (rand (pos + k))) → m = 1 ∧ pos' = pos + 101) := by
  have hsel : select_mode fuel rand pos s
      = modeLoop rand (modeWeights s).1 (modeWeights s).2.1 (modeWeights s).2.2
          s.maxShootableAmmo s.doubleFire s.tripleFire fuel pos 0 := by
    unfold select_mode
    rw [if_neg (by omega)]
    rfl
  obtain ⟨m, pos', hres, _, hp1, hp2⟩ := modeLoop_spec rand _ _ _ s.maxShootableAmmo
    s.doubleFire s.tripleFire hW fuel pos 0 (le_refl _) (by omega) (by omega)
  refine ⟨m, pos', by rw [hsel]; exact hres, hp1, by omega, ?_⟩
  intro hall
  have hex := modeLoop_exhausted rand _ _ _ s.maxShootableAmmo s.doubleFire s.tripleFire hW
    fuel pos 0 (le_refl _) (by omega) (by omega)
    (by
      intro k hk
      exact hall k (by omega))
  rw [hex] at hres
  simp only [Option.some.injEq, Prod.mk.injEq] at hres
  obtain ⟨e1, e2⟩ := hres
  refine ⟨e1.symm, ?_⟩
  rw [← e2]
  simp

/-- C20 on a register file with one unit left and one double fire pending, where every
draw reduces to 0 and lands in the band of the double fire, which needs two units. -/
theorem C20_bounded_retry_witness :
    (∀ k, k < 101 → unresolved (mkState [1] [5] [1] [] 1 1 0 4 0) ((fun n => 2 * n + 1) (0 + k))) ∧
    ∃ m pos', select_mode 101 (fun n => 2 * n + 1) 0 (mkState [1] [5] [1] [] 1 1 0 4 0)
        = some (m, pos') ∧ 0 < pos' ∧ pos' ≤ 0 + 101 ∧
      ((∀ k, k < 101 →
          unresolved (mkState [1] [5] [1] [] 1 1 0 4 0) ((fun n => 2 * n + 1) (0 + k))) →
        m = 1 ∧ pos' = 0 + 101) :=
  ⟨by decide, C20_bounded_retry (mkState [1] [5] [1] [] 1 1 0 4 0) (by decide) (by decide) 101
    (by decide) (fun n => 2 * n + 1) 0⟩


/-! ## Shooter macro: the marks in `nextFires` -/

theorem markedFrom_armed (s t : State) (F : List Nat) (h : markedFrom s F t) (i : Nat) :
    armed t i → armed s i ∧ i ∉ F := by
  obtain ⟨hu, hg, _⟩ := h
  intro a
  have a1 := a.1
  have a2 := a.2
  rw [hu i] at a1
  rw [hg i] at a2
  by_cases hm : i ∈ F
  · simp [hm] at a1
  · simp only [hm, if_false] at a1 a2
    exact ⟨⟨a1, by omega⟩, hm⟩

/-- The loop of `process_fire` after `n` iterations, as far as enablement, `ammo_game` and
`nextFires` go; no assumption on `ammo_machine` or `maxShootableAmmo` is needed. -/
theorem processLoop_marks (rand : Nat → Nat) (s : State) (pos : Nat) (n : Nat)
    (hgS : ∀ i, i < 10 → s.ammo_game i ≤ 32768) :
    ∃ F : List Nat, F.Nodup ∧ F.length = min n (armedBelow s 10) ∧
      (∀ i, i ∈ F → i < 10 ∧ armed s i) ∧
      markedFrom s F (forLoop (fun _ q => fireOnce rand q) n 0 (s, pos)).1 := by
  have key := forLoop_inv (fun _ q => fireOnce rand q)
    (fun j (q : State × Nat) => ∃ F : List Nat, F.Nodup ∧ F.length = min j (armedBelow s 10) ∧
      (∀ i, i ∈ F → i < 10 ∧ armed s i) ∧ markedFrom s F q.1 ∧
      armedBelow q.1 10 + F.length = armedBelow s 10)
    n 0 (s, pos)
    ⟨[], List.nodup_nil, by simp, by simp, ⟨by simp, by simp, by simp⟩, by simp⟩
    (by
      intro j q _ hj hP
      obtain ⟨F, hnd, hlen, hmem, hff, hcnt⟩ := hP
      by_cases hz : armedBelow q.1 10 = 0
      · have hlen0 : F.length = min (j + 1) (armedBelow s 10) := by omega
        obtain ⟨f0, _⟩ := fireOnce_spec rand q.2 q.1
        have hq : fireOnce rand q = (q.1, q.2) := f0 hz
        refine ⟨F, hnd, hlen0, hmem, ?_, ?_⟩
        · show markedFrom s F (fireOnce rand q).1
          rw [hq]; exact hff
        · show armedBelow (fireOnce rand q).1 10 + F.length = _
          rw [hq]; exact hcnt
      · have hlen' : F.length + 1 = min (j + 1) (armedBelow s 10) := by omega
        obtain ⟨_, f1⟩ := fireOnce_spec rand q.2 q.1
        obtain ⟨i, hi, ha, hfire⟩ := f1 hz
        clear f1
        have hfire' : fireOnce rand q = (applyFire q.1 i, q.2 + 1) := hfire
        unfold applyFire at hfire'
        obtain ⟨has, hnotin⟩ := markedFrom_armed s q.1 F hff i ha
        obtain ⟨hu, hg, hnf⟩ := hff
        have hgi : q.1.ammo_game i = s.ammo_game i := by rw [hg i]; simp [hnotin]
        have hb1 := hgS i hi
        have hb3 := has.2
        have hw1 : wrap16 (q.1.ammo_game i - 1) = s.ammo_game i - 1 := by
          rw [hgi]; apply wrap16_id; unfold isShort; omega
        rw [hw1] at hfire'
        have hrem := armedBelow_remove q.1 (fireOnce rand q).1 i ha (by
          intro k
          rw [hfire']
          unfold armed
          dsimp only
          by_cases e : k = i
          · subst e
            simp [setA_same]
          · rw [setA_other _ _ _ _ e, setA_other _ _ _ _ e]
            simp [e]) 10
        simp only [hi, if_true] at hrem
        refine ⟨i :: F, List.nodup_cons.mpr ⟨hnotin, hnd⟩, ?_, ?_, ?_, ?_⟩
        · simp only [List.length_cons]; exact hlen'
        · intro k hk
          rcases List.mem_cons.mp hk with e | hk
          · subst e; exact ⟨hi, has⟩
          · exact hmem k hk
        · show markedFrom s (i :: F) (fireOnce rand q).1
          rw [hfire']
          refine ⟨?_, ?_, ?_⟩
          · intro k
            by_cases e : k = i
            · subst e; simp [setA_same]
            · show setA q.1.usableMachines i 0 k = _
              rw [setA_other _ _ _ _ e, hu k]; simp [e]
          · intro k
            by_cases e : k = i
            · subst e
              show setA q.1.ammo_game k (s.ammo_game k - 1) k = _
              simp [setA_same]
            · show setA q.1.ammo_game i (s.ammo_game i - 1) k = _
              rw [setA_other _ _ _ _ e, hg k]; simp [e]
          · intro k
            by_cases e : k = i
            · subst e
              show setA q.1.nextFires k 1 k = _
              simp [setA_same]
            · show setA q.1.nextFires i 1 k = _
              rw [setA_other _ _ _ _ e, hnf k]; simp [e]
        · simp only [List.length_cons]; omega)
  obtain ⟨F, h1, h2, h3, h4, _⟩ := key
  simp only [Nat.zero_add] at h2 h4
  exact ⟨F, h1, h2, h3, h4⟩

theorem adjustCounters_marks (m : Int) (t : State) :
    (adjustCounters m t).ammo_game = t.ammo_game ∧
    (adjustCounters m t).nextFires = t.nextFires := by
  unfold adjustCounters
  split
  · exact ⟨rfl, rfl⟩
  · split <;> exact ⟨rfl, rfl⟩

/-- C15 (`nextFires` names the machines fired this cycle), refuted at delay 1: the clearing
step needs `remainingDelay < delay / 2`, which never holds when `delay = 1`; with a prior
mark on machine 1, the invocation fires machine 0 only and writes back `nextFires[1] = 1`
although `ammo_game[1]` is unchanged. -/
theorem C15_counterexample :
    WellTyped (mkState [1] [5] [5] [0, 1] 5 0 0 1 0) ∧
    0 < (mkState [1] [5] [5] [0, 1] 5 0 0 1 0).delay ∧
    (mkState [1] [5] [5] [0, 1] 5 0 0 1 0).remainingDelay = 0 ∧
    0 < (mkState [1] [5] [5] [0, 1] 5 0 0 1 0).maxShootableAmmo ∧
    (MacroEntry 101 (fun _ => 0) (mkState [1] [5] [5] [0, 1] 5 0 0 1 0)).map
      (fun t => (toList10 t.nextFires, toList10 t.ammo_game,
        decide (marksFired (mkState [1] [5] [5] [0, 1] 5 0 0 1 0) t)))
      = some ([1, 1, 0, 0, 0, 0, 0, 0, 0, 0], [4, 0, 0, 0, 0, 0, 0, 0, 0, 0], false) := by
  refine ⟨by decide, by decide, by decide, by decide, by decide⟩

/-- C15 (`nextFires` names the machines fired this cycle), for a configured delay of at
least 2: for 16-bit registers with `remainingDelay = 0` and `maxShootableAmmo > 0`, every
prior content of `nextFires` and every sequence of draws, one invocation of the shooter
`MacroEntry` returns, and afterwards each machine either has `nextFires = 1` and its
`ammo_game` one lower (it fired), or `nextFires = 0` and its `ammo_game` unchanged. -/
theorem C15_selection_result (s : State) (hwt : WellTyped s) (hd : 2 ≤ s.delay)
    (hr : s.remainingDelay = 0) (hm : 0 < s.maxShootableAmmo) (fuel : Nat)
    (hfuel : 100 < fuel) (rand : Nat → Nat) :
    ∃ t, MacroEntry fuel rand s = some t ∧ marksFired s t := by
  obtain ⟨harr, hmS, _⟩ := hwt
  have hpos := tdiv_two_pos s.delay hd
  have hcs : clearStale s
      = { s with nextFires := fun i => if i < 10 then 0 else s.nextFires i } := by
    rcases clearStale_cases s with ⟨h, _⟩ | ⟨_, h⟩
    · omega
    · exact h
  have hdel : delayer (clearStale s) = (false, { clearStale s with remainingDelay := s.delay }) := by
    rw [hcs]
    unfold delayer
    rw [if_neg (by show ¬ s.delay ≤ 0; omega), if_pos (by exact hr)]
  have hcyc : ∃ c, cycle fuel rand s = some c ∧ marksFired s c := by
    unfold cycle
    rw [hdel]
    simp only [Bool.false_eq_true, if_false]
    rw [hcs]
    generalize hs1 : ({ ({ s with nextFires := fun i => if i < 10 then 0 else s.nextFires i }
      : State) with remainingDelay := s.delay } : State) = s1
    have g2 : s1.ammo_game = s.ammo_game := by rw [← hs1]
    have g4 : s1.maxShootableAmmo = s.maxShootableAmmo := by rw [← hs1]
    have g5 : ∀ i, i < 10 → s1.nextFires i = 0 := by
      intro i hi
      rw [← hs1]
      show (if i < 10 then 0 else s.nextFires i) = 0
      simp [hi]
    unfold fireOrEnd
    rw [checkEndGame_pos _ (by rw [g4]; exact hm)]
    simp only [Bool.false_eq_true, if_false]
    obtain ⟨m, pos', hsel, _, _, _⟩ := select_mode_spec fuel rand 0 s1 (by rw [g4]; exact hm)
      (by rw [g4]; exact hmS.2) hfuel
    rw [hsel]
    dsimp only
    obtain ⟨F, _, _, _, hmk⟩ := processLoop_marks rand s1 pos' m.toNat
      (fun i hi => by rw [g2]; have := (harr i hi).2.2.2.2; omega)
    obtain ⟨_, hg, hnf⟩ := hmk
    have hpf : (process_fire rand m (s1, pos')).1
        = adjustCounters m (forLoop (fun _ q => fireOnce rand q) m.toNat 0 (s1, pos')).1 := rfl
    refine ⟨_, rfl, ?_⟩
    intro i hi
    rw [hpf, (adjustCounters_marks m _).1, (adjustCounters_marks m _).2, hg i, hnf i, g2,
      g5 i hi]
    by_cases hF : i ∈ F
    · left; simp [hF]
    · right; simp [hF]
  obtain ⟨c, hc, hmarks⟩ := hcyc
  refine ⟨{ c with usableMachines := s.usableMachines, delay := s.delay }, ?_, hmarks⟩
  unfold MacroEntry
  rw [hc]

/-- C15 at delay 4 with stale marks on machines 1 and 3. -/
theorem C15_selection_result_witness :
    ∃ t, MacroEntry 101 (fun n => 3 * n + 7)
        (mkState [1, 1, 1] [5, 5, 5] [4, 3, 3] [0, 1, 0, 1] 10 1 1 4 0) = some t ∧
      marksFired (mkState [1, 1, 1] [5, 5, 5] [4, 3, 3] [0, 1, 0, 1] 10 1 1 4 0) t :=
  C15_selection_result (mkState [1, 1, 1] [5, 5, 5] [4, 3, 3] [0, 1, 0, 1] 10 1 1 4 0)
    (by decide) (by decide) (by decide) (by decide) 101 (by decide) (fun n => 3 * n + 7)


/-! ## Shooter macro: the quota invariant -/

/-- Under the quota invariant the three weights of `select_mode` fit a `short`. -/
theorem modeWeights_eq (s : State) (hmS : s.maxShootableAmmo ≤ 32767) (hd : 0 ≤ s.doubleFire)
    (ht : 0 ≤ s.tripleFire)
    (hq : 0 ≤ s.maxShootableAmmo - 2 * s.doubleFire - 3 * s.tripleFire) :
    (modeWeights s).1 = s.maxShootableAmmo - 2 * s.doubleFire - 3 * s.tripleFire ∧
    (modeWeights s).2.1 = 2 * s.doubleFire ∧ (modeWeights s).2.2 = 3 * s.tripleFire ∧
    modeModulus s = s.maxShootableAmmo := by
  have w0 : wrap16 (s.maxShootableAmmo - s.doubleFire * 2 - s.tripleFire * 3)
      = s.maxShootableAmmo - 2 * s.doubleFire - 3 * s.tripleFire :=
    (wrap16_id _ (by unfold isShort; omega)).trans (by ring)
  have w1 : wrap16 (s.doubleFire * 2) = 2 * s.doubleFire :=
    (wrap16_id _ (by unfold isShort; omega)).trans (by ring)
  have w2 : wrap16 (s.tripleFire * 3) = 3 * s.tripleFire :=
    (wrap16_id _ (by unfold isShort; omega)).trans (by ring)
  unfold modeModulus modeWeights
  dsimp only
  rw [w0, w1, w2]
  exact ⟨rfl, rfl, rfl, by ring⟩

/-- Under the quota invariant `select_mode` returns on its first draw, with the mode of the
band the draw falls in. -/
theorem select_mode_resolves (s : State) (hmS : s.maxShootableAmmo ≤ 32767)
    (hmax : 0 < s.maxShootableAmmo) (hd : 0 ≤ s.doubleFire) (ht : 0 ≤ s.tripleFire)
    (hq : 0 ≤ s.maxShootableAmmo - 2 * s.doubleFire - 3 * s.tripleFire)
    (fuel : Nat) (hfuel : 0 < fuel) (rand : Nat → Nat) (pos : Nat) :
    0 ≤ (rand pos : Int) % s.maxShootableAmmo ∧
    (rand pos : Int) % s.maxShootableAmmo < s.maxShootableAmmo ∧
    modeChoice s (rand pos) = (rand pos : Int) % s.maxShootableAmmo ∧
    select_mode fuel rand pos s = some
      ((if (rand pos : Int) % s.maxShootableAmmo
            < s.maxShootableAmmo - 2 * s.doubleFire - 3 * s.tripleFire then 1
        else if (rand pos : Int) % s.maxShootableAmmo
            < s.maxShootableAmmo - 2 * s.doubleFire - 3 * s.tripleFire + 2 * s.doubleFire then 2
        else 3), pos + 1) := by
  obtain ⟨w0, w1, w2, wm⟩ := modeWeights_eq s hmS hd ht hq
  have hc0 := Int.emod_nonneg (rand pos : Int) (ne_of_gt hmax)
  have hclt := Int.emod_lt_of_pos (rand pos : Int) hmax
  have hc : wrap16 (Int.tmod (rand pos : Int) s.maxShootableAmmo)
      = (rand pos : Int) % s.maxShootableAmmo := by
    rw [Int.tmod_eq_emod (by omega) (by omega)]
    apply wrap16_id
    unfold isShort
    omega
  have hchoice : modeChoice s (rand pos) = (rand pos : Int) % s.maxShootableAmmo := by
    unfold modeChoice
    rw [wm]
    exact hc
  refine ⟨hc0, hclt, hchoice, ?_⟩
  obtain ⟨k, hk⟩ : ∃ k, fuel = k + 1 := ⟨fuel - 1, by omega⟩
  subst hk
  have hsel : select_mode (k + 1) rand pos s
      = modeLoop rand (modeWeights s).1 (modeWeights s).2.1 (modeWeights s).2.2
          s.maxShootableAmmo s.doubleFire s.tripleFire (k + 1) pos 0 := by
    unfold select_mode
    rw [if_neg (by omega)]
    rfl
  have hsum : s.maxShootableAmmo - 2 * s.doubleFire - 3 * s.tripleFire + 2 * s.doubleFire
      + 3 * s.tripleFire = s.maxShootableAmmo := by ring
  rw [hsel, w0, w1, w2]
  unfold modeLoop
  rw [hsum, hc, if_neg (ne_of_gt hmax)]
  generalize (rand pos : Int) % s.maxShootableAmmo = c at hc0 hclt
  by_cases h1 : c < s.maxShootableAmmo - 2 * s.doubleFire - 3 * s.tripleFire
  · rw [if_pos ⟨h1, by omega⟩, if_pos h1]
  · rw [if_neg (fun h => h1 h.1), if_neg h1]
    by_cases h2 : c < s.maxShootableAmmo - 2 * s.doubleFire - 3 * s.tripleFire
        + 2 * s.doubleFire
    · have hD : 0 < s.doubleFire := by omega
      rw [if_pos ⟨h2, by omega, hD⟩, if_pos h2]
    · have hT : 0 < s.tripleFire := by omega
      rw [if_neg (fun h => h2 h.1), if_neg h2, if_pos ⟨hclt, by omega, hT⟩]

/-- The loop of `process_fire` after `n` iterations lowers `maxShootableAmmo` by at most `n`
and leaves the two counters alone. -/
theorem processLoop_quota (rand : Nat → Nat) (s : State) (pos n : Nat)
    (hmS : s.maxShootableAmmo ≤ 32767) (hlow : -32768 ≤ s.maxShootableAmmo - (n : Int)) :
    ∃ k : Nat, k ≤ n ∧
      (forLoop (fun _ q => fireOnce rand q) n 0 (s, pos)).1.maxShootableAmmo
        = s.maxShootableAmmo - (k : Int) ∧
      (forLoop (fun _ q => fireOnce rand q) n 0 (s, pos)).1.doubleFire = s.doubleFire ∧
      (forLoop (fun _ q => fireOnce rand q) n 0 (s, pos)).1.tripleFire = s.tripleFire := by
  have key := forLoop_inv (fun _ q => fireOnce rand q)
    (fun j (q : State × Nat) => ∃ k : Nat, k ≤ j ∧
      q.1.maxShootableAmmo = s.maxShootableAmmo - (k : Int) ∧
      q.1.doubleFire = s.doubleFire ∧ q.1.tripleFire = s.tripleFire)
    n 0 (s, pos) ⟨0, le_refl _, by simp, rfl, rfl⟩
    (by
      intro j t _ hj ⟨k, hk, h1, h2, h3⟩
      dsimp only
      unfold fireOnce
      split
      · refine ⟨k + 1, by omega, ?_, h2, h3⟩
        show wrap16 (t.1.maxShootableAmmo - 1) = _
        have hw : wrap16 (t.1.maxShootableAmmo - 1) = t.1.maxShootableAmmo - 1 :=
          wrap16_id _ (by unfold isShort; omega)
        rw [hw, h1]
        push_cast
        omega
      · exact ⟨k, by omega, h1, h2, h3⟩)
  obtain ⟨k, hk, h⟩ := key
  exact ⟨k, by omega, h⟩

/-- C22 (no division by zero and no retry under the quota invariant): for a 16-bit
`maxShootableAmmo > 0`, `doubleFire >= 0`, `tripleFire >= 0` and
`simpleFire = maxShootableAmmo - 2*doubleFire - 3*tripleFire >= 0`, the modulus
`weights[0]+weights[1]+weights[2]` of `select_mode` equals `maxShootableAmmo`; with any
fuel above zero, `select_mode` returns after exactly one draw, and with
`c = draw mod maxShootableAmmo` it returns 1 if `c < simpleFire`, 2 if
`simpleFire <= c < simpleFire + 2*doubleFire` and 3 otherwise; no draw is unresolved, so the
retry branch and the fallback are not reached. -/
theorem C22_first_draw_resolves (s : State) (hmS : s.maxShootableAmmo ≤ 32767)
    (hmax : 0 < s.maxShootableAmmo) (hd : 0 ≤ s.doubleFire) (ht : 0 ≤ s.tripleFire)
    (hq : 0 ≤ s.maxShootableAmmo - 2 * s.doubleFire - 3 * s.tripleFire)
    (fuel : Nat) (hfuel : 0 < fuel) (rand : Nat → Nat) (pos : Nat) :
    modeModulus s = s.maxShootableAmmo ∧ 0 < modeModulus s ∧
    select_mode fuel rand pos s = some
      ((if (rand pos : Int) % s.maxShootableAmmo
            < s.maxShootableAmmo - 2 * s.doubleFire - 3 * s.tripleFire then 1
        else if (rand pos : Int) % s.maxShootableAmmo
            < s.maxShootableAmmo - 2 * s.doubleFire - 3 * s.tripleFire + 2 * s.doubleFire then 2
        else 3), pos + 1) ∧
    ∀ r : Nat, ¬ unresolved s r := by
  obtain ⟨w0, w1, w2, wm⟩ := modeWeights_eq s hmS hd ht hq
  obtain ⟨_, _, _, hsel⟩ := select_mode_resolves s hmS hmax hd ht hq fuel hfuel rand pos
  refine ⟨wm, by rw [wm]; exact hmax, hsel, ?_⟩
  intro r
  obtain ⟨hc0, hclt, hch, _⟩ :=
    select_mode_resolves s hmS hmax hd ht hq 1 (by omega) (fun _ => r) 0
  unfold unresolved
  rw [w0, w1, w2, hch]
  generalize (r : Int) % s.maxShootableAmmo = c at hc0 hclt
  intro ⟨n1, n2, n3⟩
  by_cases h1 : c < s.maxShootableAmmo - 2 * s.doubleFire - 3 * s.tripleFire
  · exact n1 ⟨h1, by omega⟩
  · by_cases h2 : c < s.maxShootableAmmo - 2 * s.doubleFire - 3 * s.tripleFire
        + 2 * s.doubleFire
    · have hD : 0 < s.doubleFire := by omega
      exact n2 ⟨h2, by omega, hD⟩
    · have hT : 0 < s.tripleFire := by omega
      exact n3 ⟨by omega, by omega, hT⟩

/-- C22 on 10 units left with two double fires and one triple fire pending: the draw 5
falls in the band of the double fires. -/
theorem C22_first_draw_resolves_witness :
    (modeModulus (mkState [1, 1, 1] [5, 5, 5] [4, 3, 3] [] 10 2 1 4 0)
        = (mkState [1, 1, 1] [5, 5, 5] [4, 3, 3] [] 10 2 1 4 0).maxShootableAmmo ∧
      0 < modeModulus (mkState [1, 1, 1] [5, 5, 5] [4, 3, 3] [] 10 2 1 4 0) ∧
      select_mode 1 (fun _ => 25) 0 (mkState [1, 1, 1] [5, 5, 5] [4, 3, 3] [] 10 2 1 4 0) = some
        ((if (((fun _ => 25) 0 : Nat) : Int)
                % (mkState [1, 1, 1] [5, 5, 5] [4, 3, 3] [] 10 2 1 4 0).maxShootableAmmo
              < (mkState [1, 1, 1] [5, 5, 5] [4, 3, 3] [] 10 2 1 4 0).maxShootableAmmo
                - 2 * (mkState [1, 1, 1] [5, 5, 5] [4, 3, 3] [] 10 2 1 4 0).doubleFire
                - 3 * (mkState [1, 1, 1] [5, 5, 5] [4, 3, 3] [] 10 2 1 4 0).tripleFire then 1
          else if (((fun _ => 25) 0 : Nat) : Int)
                % (mkState [1, 1, 1] [5, 5, 5] [4, 3, 3] [] 10 2 1 4 0).maxShootableAmmo
              < (mkState [1, 1, 1] [5, 5, 5] [4, 3, 3] [] 10 2 1 4 0).maxShootableAmmo
                - 2 * (mkState [1, 1, 1] [5, 5, 5] [4, 3, 3] [] 10 2 1 4 0).doubleFire
                - 3 * (mkState [1, 1, 1] [5, 5, 5] [4, 3, 3] [] 10 2 1 4 0).tripleFire
                + 2 * (mkState [1, 1, 1] [5, 5, 5] [4, 3, 3] [] 10 2 1 4 0).doubleFire then 2
          else 3), 0 + 1) ∧
      ∀ r : Nat, ¬ unresolved (mkState [1, 1, 1] [5, 5, 5] [4, 3, 3] [] 10 2 1 4 0) r) ∧
    select_mode 1 (fun _ => 25) 0 (mkState [1, 1, 1] [5, 5, 5] [4, 3, 3] [] 10 2 1 4 0)
      = some (2, 1) :=
  ⟨C22_first_draw_resolves (mkState [1, 1, 1] [5, 5, 5] [4, 3, 3] [] 10 2 1 4 0) (by decide)
    (by decide) (by decide) (by decide) (by decide) 1 (by decide) (fun _ => 25) 0, by decide⟩

/-- C21 (quota invariant of the scheduler): for a 16-bit `maxShootableAmmo`, if
`doubleFire >= 0`, `tripleFire >= 0` and
`maxShootableAmmo - 2*doubleFire - 3*tripleFire >= 0` hold before an invocation of the
shooter `MacroEntry`, then for every configured delay and `remainingDelay`, every sequence
of draws and any fuel above zero the invocation returns, and the register file written
back satisfies the same three conditions, whether the delay gate is closed, the game ends,
or one, two or three machines fire, a partial fire included. -/
theorem C21_quota_invariant (s : State) (hmS : s.maxShootableAmmo ≤ 32767)
    (hd : 0 ≤ s.doubleFire) (ht : 0 ≤ s.tripleFire)
    (hq : 0 ≤ s.maxShootableAmmo - 2 * s.doubleFire - 3 * s.tripleFire)
    (fuel : Nat) (hfuel : 0 < fuel) (rand : Nat → Nat) :
    ∃ t, MacroEntry fuel rand s = some t ∧ 0 ≤ t.doubleFire ∧ 0 ≤ t.tripleFire ∧
      0 ≤ t.maxShootableAmmo - 2 * t.doubleFire - 3 * t.tripleFire := by
  have hcyc : ∃ c, cycle fuel rand s = some c ∧ 0 ≤ c.doubleFire ∧ 0 ≤ c.tripleFire ∧
      0 ≤ c.maxShootableAmmo - 2 * c.doubleFire - 3 * c.tripleFire := by
    have hcs : (clearStale s).maxShootableAmmo = s.maxShootableAmmo ∧
        (clearStale s).doubleFire = s.doubleFire ∧ (clearStale s).tripleFire = s.tripleFire := by
      rcases clearStale_cases s with ⟨_, h⟩ | ⟨_, h⟩ <;> rw [h] <;> exact ⟨rfl, rfl, rfl⟩
    obtain ⟨_, _, _, dM, dD, dT⟩ := delayer_core (clearStale s)
    rw [hcs.1] at dM
    rw [hcs.2.1] at dD
    rw [hcs.2.2] at dT
    unfold cycle
    by_cases hb : (delayer (clearStale s)).1 = true
    · rw [if_pos hb]
      exact ⟨_, rfl, by rw [dD]; exact hd, by rw [dT]; exact ht, by rw [dM, dD, dT]; exact hq⟩
    · rw [if_neg hb]
      generalize (delayer (clearStale s)).2 = s1 at dM dD dT
      unfold fireOrEnd
      by_cases hm : s.maxShootableAmmo ≤ 0
      · rw [checkEndGame_nonpos s1 (by rw [dM]; exact hm)]
        simp only [if_true]
        rw [endGame_eq]
        refine ⟨_, rfl, ?_⟩
        dsimp only
        rw [dM]
        omega
      · rw [checkEndGame_pos s1 (by rw [dM]; omega)]
        simp only [Bool.false_eq_true, if_false]
        obtain ⟨hc0, hclt, _, hsel⟩ := select_mode_resolves s1 (by rw [dM]; exact hmS)
          (by rw [dM]; omega) (by rw [dD]; exact hd) (by rw [dT]; exact ht)
          (by rw [dM, dD, dT]; exact hq) fuel hfuel rand 0
        rw [hsel]
        dsimp only
        simp only [dM, dD, dT] at hc0 hclt ⊢
        generalize (rand 0 : Int) % s.maxShootableAmmo = c at hc0 hclt
        have hmode : ∃ m : Int,
            (if c < s.maxShootableAmmo - 2 * s.doubleFire - 3 * s.tripleFire then 1
              else if c < s.maxShootableAmmo - 2 * s.doubleFire - 3 * s.tripleFire
                + 2 * s.doubleFire then 2 else 3) = m ∧
            ((m = 1 ∧ 1 ≤ s.maxShootableAmmo - 2 * s.doubleFire - 3 * s.tripleFire) ∨
              (m = 2 ∧ 0 < s.doubleFire) ∨ (m = 3 ∧ 0 < s.tripleFire)) := by
          by_cases h1 : c < s.maxShootableAmmo - 2 * s.doubleFire - 3 * s.tripleFire
          · exact ⟨1, by rw [if_pos h1], Or.inl ⟨rfl, by omega⟩⟩
          · by_cases h2 : c < s.maxShootableAmmo - 2 * s.doubleFire - 3 * s.tripleFire
                + 2 * s.doubleFire
            · exact ⟨2, by rw [if_neg h1, if_pos h2], Or.inr (Or.inl ⟨rfl, by omega⟩)⟩
            · exact ⟨3, by rw [if_neg h1, if_neg h2], Or.inr (Or.inr ⟨rfl, by omega⟩)⟩
        obtain ⟨m, hm_eq, hm_cases⟩ := hmode
        rw [hm_eq]
        have hm3 : 1 ≤ m ∧ m ≤ 3 := by omega
        obtain ⟨k, hk, lM, lD, lT⟩ := processLoop_quota rand s1 (0 + 1) m.toNat
          (by rw [dM]; exact hmS) (by rw [dM]; omega)
        rw [dM] at lM
        rw [dD] at lD
        rw [dT] at lT
        have hpf : (process_fire rand m (s1, 0 + 1)).1
            = adjustCounters m (forLoop (fun _ q => fireOnce rand q) m.toNat 0 (s1, 0 + 1)).1 :=
          rfl
        refine ⟨_, rfl, ?_⟩
        rw [hpf]
        generalize (forLoop (fun _ q => fireOnce rand q) m.toNat 0 (s1, 0 + 1)).1 = u
          at lM lD lT
        rcases hm_cases with ⟨rfl, h⟩ | ⟨rfl, h⟩ | ⟨rfl, h⟩
        · have hk1 : k ≤ 1 := hk
          have e : adjustCounters 1 u = u := by
            unfold adjustCounters
            rw [if_neg (by decide), if_neg (by decide)]
          rw [e, lM, lD, lT]
          omega
        · have hk1 : k ≤ 2 := hk
          have hw : wrap16 (u.doubleFire - 1) = s.doubleFire - 1 := by
            rw [lD]
            exact wrap16_id _ (by unfold isShort; omega)
          have e : adjustCounters 2 u = { u with doubleFire := wrap16 (u.doubleFire - 1) } := by
            unfold adjustCounters
            rw [if_pos rfl]
          rw [e]
          dsimp only
          rw [hw, lM, lT]
          omega
        · have hk1 : k ≤ 3 := hk
          have hw : wrap16 (u.tripleFire - 1) = s.tripleFire - 1 := by
            rw [lT]
            exact wrap16_id _ (by unfold isShort; omega)
          have e : adjustCounters 3 u = { u with tripleFire := wrap16 (u.tripleFire - 1) } := by
            unfold adjustCounters
            rw [if_neg (by decide), if_pos rfl]
          rw [e]
          dsimp only
          rw [hw, lM, lD]
          omega
  obtain ⟨c, hc, h1, h2, h3⟩ := hcyc
  refine ⟨{ c with usableMachines := s.usableMachines, delay := s.delay }, ?_, h1, h2, h3⟩
  unfold MacroEntry
  rw [hc]

/-- C21 on a partial double fire: 3 units left, one double fire pending, one machine
armed; the invocation fires one machine and uses up the double fire. -/
theorem C21_quota_invariant_witness :
    (∃ t, MacroEntry 1 (fun _ => 2) (mkState [1] [5] [3] [] 3 1 0 4 0) = some t ∧
      0 ≤ t.doubleFire ∧ 0 ≤ t.tripleFire ∧
      0 ≤ t.maxShootableAmmo - 2 * t.doubleFire - 3 * t.tripleFire) ∧
    (MacroEntry 1 (fun _ => 2) (mkState [1] [5] [3] [] 3 1 0 4 0)).map
      (fun t => (t.maxShootableAmmo, t.doubleFire, t.tripleFire, toList10 t.ammo_game))
      = some (2, 0, 0, [2, 0, 0, 0, 0, 0, 0, 0, 0, 0]) :=
  ⟨C21_quota_invariant (mkState [1] [5] [3] [] 3 1 0 4 0) (by decide) (by decide) (by decide)
    (by decide) 1 (by decide) (fun _ => 2), by decide⟩


/-! ## Shooter macro: the data model across an invocation -/

/-- One invocation of the shooter `MacroEntry` keeps the game allocation non-negative: a
machine that fires held at least one unit, and the end of the game clears the allocation. -/
theorem game_nonneg_step (s : State) (hwt : WellTyped s)
    (hnn : ∀ i, i < 10 → 0 ≤ s.ammo_game i) (fuel : Nat) (rand : Nat → Nat) (t : State)
    (h : MacroEntry fuel rand s = some t) : ∀ i, i < 10 → 0 ≤ t.ammo_game i := by
  obtain ⟨harr, _⟩ := hwt
  have hcyc : ∀ c, cycle fuel rand s = some c → ∀ i, i < 10 → 0 ≤ c.ammo_game i := by
    have e2 : (clearStale s).ammo_game = s.ammo_game := by
      unfold clearStale
      split
      · rw [reset_eq]
      · rfl
    have e1 : (clearStale s).usableMachines = s.usableMachines := by
      unfold clearStale
      split
      · rw [reset_eq]
      · rfl
    obtain ⟨f1, f2, _, _, _, _⟩ := delayer_core (clearStale s)
    rw [e2] at f2
    rw [e1] at f1
    intro c hc i hi
    unfold cycle at hc
    by_cases hdel : (delayer (clearStale s)).1 = true
    · rw [if_pos hdel] at hc
      simp only [Option.some.injEq] at hc
      rw [← hc, f2]
      exact hnn i hi
    · rw [if_neg hdel] at hc
      generalize (delayer (clearStale s)).2 = s1 at f1 f2 hc
      unfold fireOrEnd at hc
      by_cases hend : s1.maxShootableAmmo ≤ 0
      · rw [checkEndGame_nonpos _ hend] at hc
        dsimp only at hc
        rw [if_pos rfl, endGame_eq] at hc
        simp only [Option.some.injEq] at hc
        rw [← hc]
        show 0 ≤ (if i < 10 then 0 else s1.ammo_game i)
        simp [hi]
      · rw [checkEndGame_pos _ (by omega)] at hc
        dsimp only at hc
        rw [if_neg (by simp)] at hc
        cases hsel : select_mode fuel rand 0 s1 with
        | none =>
          rw [hsel] at hc
          simp at hc
        | some m =>
          rw [hsel] at hc
          simp only [Option.some.injEq] at hc
          obtain ⟨F, _, _, hmem, _, hg, _⟩ := processLoop_marks rand s1 m.2 m.1.toNat
            (fun j hj => by rw [f2]; have := (harr j hj).2.2.2.2; omega)
          have hpf : (process_fire rand m.1 (s1, m.2)).1
              = adjustCounters m.1
                  (forLoop (fun _ q => fireOnce rand q) m.1.toNat 0 (s1, m.2)).1 := rfl
          rw [← hc, hpf, (adjustCounters_marks m.1 _).1, hg i, f2]
          have := hnn i hi
          by_cases hF : i ∈ F
          · have ha := (hmem i hF).2.2
            rw [f2] at ha
            simp only [hF, if_true]
            omega
          · simp only [hF, if_false]
            omega
  unfold MacroEntry at h
  cases hcy : cycle fuel rand s with
  | none =>
    rw [hcy] at h
    simp at h
  | some c =>
    rw [hcy] at h
    simp only [Option.some.injEq] at h
    rw [← h]
    exact hcyc c hcy

/-- C10 (the scheduler preserves the data-model invariants): for 16-bit registers holding a
non-negative game allocation and satisfying `maxShootableAmmo >= 0`,
`ammo_game[i] <= ammo_machine[i]` for every enabled machine and
`sum(ammo_game) <= maxShootableAmmo`, one invocation of the shooter `MacroEntry` returns, in
every delay phase and for every sequence of draws, and the register file written back
satisfies the same three conditions, again with a non-negative game allocation. -/
theorem C10_data_model_preserved (s : State) (hwt : WellTyped s) (hdm : dataModel s)
    (hnn : ∀ i, i < 10 → 0 ≤ s.ammo_game i) (rand : Nat → Nat) (fuel : Nat)
    (hfuel : 100 < fuel) :
    ∃ t, MacroEntry fuel rand s = some t ∧ dataModel t ∧ ∀ i, i < 10 → 0 ≤ t.ammo_game i := by
  have hcap : capacitiesNonneg s := fun i hi hu => le_trans (hnn i hi) (hdm.2.1 i hi hu)
  obtain ⟨t, ht, hd, _⟩ := dataModel_step s hwt hdm hcap rand fuel hfuel
  exact ⟨t, ht, hd, game_nonneg_step s hwt hnn fuel rand t ht⟩

/-- C10 on the register file left by a clean setup of three machines, in a cycle that
selects a triple fire and fires the three machines. -/
theorem C10_data_model_preserved_witness :
    (∃ t, MacroEntry 101 (fun n => 3 * n + 7)
        (mkState [1, 1, 1] [5, 5, 5] [4, 3, 3] [] 10 1 1 4 0) = some t ∧
      dataModel t ∧ ∀ i, i < 10 → 0 ≤ t.ammo_game i) ∧
    (MacroEntry 101 (fun n => 3 * n + 7)
        (mkState [1, 1, 1] [5, 5, 5] [4, 3, 3] [] 10 1 1 4 0)).map observe
      = some ([4, 4, 4, 0, 0, 0, 0, 0, 0, 0], [3, 2, 2, 0, 0, 0, 0, 0, 0, 0],
          [1, 1, 1, 0, 0, 0, 0, 0, 0, 0], [7, 1, 0, 4, 3]) :=
  ⟨C10_data_model_preserved (mkState [1, 1, 1] [5, 5, 5] [4, 3, 3] [] 10 1 1 4 0) (by decide)
    (by decide) (by decide) (fun n => 3 * n + 7) 101 (by decide), by decide⟩

end Shooter
